import Mathlib

/-!
# Verification of the wine-pointer registry server (src/server/registry.c)

A shallow embedding of the registry key tree, its mutation operations, and the
v2/v1 text codecs, with theorems settling the frozen claims about the
natural-language specification.

Modelling conventions:
* `WCHAR` (16-bit code unit) is `Nat`; wide strings are `List Nat` without the
  terminating NUL (hypotheses add NUL-freeness where the C code relies on it).
* bytes written to / read from text files are `Char` (all output is ASCII);
  a file is a list of lines, as produced by `read_next_line`.
* machine integers (`time_t` modif, levels) are `Int`; lengths and counts are
  `Nat`; the C `last_subkey = len - 1` convention becomes plain list length.
* allocation failure (`mem_alloc` / `strdupW` / `realloc` returning NULL) is
  modelled by explicit `Bool` oracles at each allocation site where a claim
  is about failure behaviour; code paths whose claims assume successful
  allocation take no oracle.
-/

namespace Registry

/-- Wide character: a 16-bit code unit, modelled as `Nat`. -/
abbrev WChar := Nat

/-- Wide string: sequence of code units, without the terminating NUL. -/
abbrev Wstr := List Nat

/-- Error codes surfaced through `set_error`. -/
inductive RegError where
  | fileNotFound
  | noMoreItems
  | keyDeleted
  | accessDenied
  | childMustBeVolatile
  | outOfMemory
  | notRegistryFile
deriving DecidableEq, Repr

/-- Modelled from the spec: `strcmpiW` lives outside src/ (unicode.h);
§4.1 specifies a case-insensitive comparison of two wide-character strings
returning negative / zero / positive.  Case folding is ASCII lower-casing. -/
def lowerW (c : Nat) : Nat :=
  if 65 ≤ c ∧ c ≤ 90 then c + 32 else c

/-- Modelled from the spec: case-insensitive wide string comparison
(§4.1 `strcmpiW`).  The C loop compares lower-cased units and stops at the
first difference or at the terminating NUL; on NUL-free strings running out
of one list corresponds to comparing the NUL terminator. -/
def strcmpiW : Wstr → Wstr → Int
  | [], [] => 0
  | [], b :: _ => 0 - (lowerW b : Int)
  | a :: _, [] => (lowerW a : Int)
  | a :: as, b :: bs =>
      if lowerW a = lowerW b then strcmpiW as bs
      else (lowerW a : Int) - (lowerW b : Int)

/-- a key value (struct key_value): value name, type tag, data bytes.
`len` is `data.length`; the C `data == NULL iff len == 0` invariant makes the
byte list a faithful replacement of the `(len, data)` pair. -/
structure KeyValue where
  name  : Wstr
  vtype : Nat
  data  : List Nat
deriving DecidableEq, Repr

/-- KEY_VOLATILE flag bit. -/
def KEY_VOLATILE : Nat := 1
/-- KEY_DELETED flag bit. -/
def KEY_DELETED : Nat := 2
/-- KEY_ROOT flag bit. -/
def KEY_ROOT : Nat := 4

/-- REG_OPTION_VOLATILE create option bit (winreg). -/
def REG_OPTION_VOLATILE : Nat := 1

/-- min. number of allocated subkeys per key -/
def MIN_SUBKEYS : Nat := 8
/-- min. number of allocated values per key -/
def MIN_VALUES : Nat := 8
/-- MAX_PATH: bound of the static token buffer in `get_path_token`. -/
def MAX_PATH : Nat := 260

/-- a registry key (struct key).  `name = none` only for root pseudo-keys;
`subkeys`/`values` replace the `(last_subkey, subkeys)` and
`(last_value, values)` pairs; `nbSubkeys`/`nbValues` keep the allocated
capacities so the grow/shrink policy stays observable. -/
inductive Key where
  | mk : (name : Option Wstr) → (kclass : Option Wstr) →
         (subkeys : List Key) → (nbSubkeys : Nat) →
         (values : List KeyValue) → (nbValues : Nat) →
         (flags : Nat) → (level : Int) → (modif : Int) → Key

/-- key name (`key->name`). -/
def Key.name : Key → Option Wstr
  | .mk n _ _ _ _ _ _ _ _ => n

/-- key class (`key->class`). -/
def Key.kclass : Key → Option Wstr
  | .mk _ c _ _ _ _ _ _ _ => c

/-- subkeys array (`key->subkeys`, in-use prefix of length `last_subkey+1`). -/
def Key.subkeys : Key → List Key
  | .mk _ _ s _ _ _ _ _ _ => s

/-- allocated subkey capacity (`key->nb_subkeys`). -/
def Key.nbSubkeys : Key → Nat
  | .mk _ _ _ n _ _ _ _ _ => n

/-- values array (`key->values`). -/
def Key.values : Key → List KeyValue
  | .mk _ _ _ _ v _ _ _ _ => v

/-- allocated value capacity (`key->nb_values`). -/
def Key.nbValues : Key → Nat
  | .mk _ _ _ _ _ n _ _ _ => n

/-- flag bits (`key->flags`). -/
def Key.flags : Key → Nat
  | .mk _ _ _ _ _ _ f _ _ => f

/-- saving level (`key->level`). -/
def Key.level : Key → Int
  | .mk _ _ _ _ _ _ _ l _ => l

/-- last modification time (`key->modif`). -/
def Key.modif : Key → Int
  | .mk _ _ _ _ _ _ _ _ m => m

/-- `key->last_subkey` (number of subkeys minus one in the C encoding;
here the in-use count). -/
def Key.lastSubkey (k : Key) : Int := (k.subkeys.length : Int) - 1

/-- `key->last_value` analogue. -/
def Key.lastValue (k : Key) : Int := (k.values.length : Int) - 1

/-- does the key have the VOLATILE flag. -/
def Key.isVolatile (k : Key) : Bool := k.flags &&& KEY_VOLATILE != 0

/-- does the key have the DELETED flag. -/
def Key.isDeleted (k : Key) : Bool := k.flags &&& KEY_DELETED != 0

/-- does the key have the ROOT flag. -/
def Key.isRoot (k : Key) : Bool := k.flags &&& KEY_ROOT != 0

/-- functional record-update helpers for the `Key` inductive. -/
def Key.withSubkeys (k : Key) (s : List Key) : Key :=
  match k with
  | .mk n c _ ns v nv f l m => .mk n c s ns v nv f l m

def Key.withSubkeysCap (k : Key) (s : List Key) (cap : Nat) : Key :=
  match k with
  | .mk n c _ _ v nv f l m => .mk n c s cap v nv f l m

def Key.withValues (k : Key) (v : List KeyValue) : Key :=
  match k with
  | .mk n c s ns _ nv f l m => .mk n c s ns v nv f l m

def Key.withValuesCap (k : Key) (v : List KeyValue) (cap : Nat) : Key :=
  match k with
  | .mk n c s ns _ _ f l m => .mk n c s ns v cap f l m

def Key.withFlags (k : Key) (f : Nat) : Key :=
  match k with
  | .mk n c s ns v nv _ l m => .mk n c s ns v nv f l m

def Key.withLevel (k : Key) (l : Int) : Key :=
  match k with
  | .mk n c s ns v nv f _ m => .mk n c s ns v nv f l m

def Key.withModif (k : Key) (m : Int) : Key :=
  match k with
  | .mk n c s ns v nv f l _ => .mk n c s ns v nv f l m

def Key.withClass (k : Key) (c : Option Wstr) : Key :=
  match k with
  | .mk n _ s ns v nv f l m => .mk n c s ns v nv f l m

/-- alloc_key: fresh key with given name and modif; level is the global
`current_level`, all arrays empty.  (The name-strdup failure path is covered
by the caller's allocation oracle.) -/
def alloc_key (name : Option Wstr) (modif : Int) (currentLevel : Int) : Key :=
  .mk name none [] 0 [] 0 0 currentLevel modif

/-- touch_key: set `modif = now` and `level = max(level, current_level)`. -/
def touch_key (k : Key) (now : Int) (currentLevel : Int) : Key :=
  (k.withModif now).withLevel (max k.level currentLevel)

instance : Inhabited Key := ⟨.mk none none [] 0 [] 0 0 0 0⟩

instance : Inhabited KeyValue := ⟨⟨[], 0, []⟩⟩

/-- insertion by shifting the tail right (the `for (i = ++last; i > index; i--)`
loops of `alloc_subkey` / `insert_value`). -/
def listInsertAt {α : Type} (l : List α) (i : Nat) (a : α) : List α :=
  l.take i ++ a :: l.drop i

/-- removal by shifting the tail left (the loops of `free_subkey` /
`delete_value`). -/
def listRemoveAt {α : Type} (l : List α) (i : Nat) : List α :=
  l.take i ++ l.drop (i + 1)

/-- binary-search loop of `find_subkey`.  The C loop state `(min, max)` is
carried as `(lo, hi) = (min, max + 1)` so both bounds are `Nat`; the C probe
`(min + max) / 2` is `(lo + hi - 1) / 2`.  Returns the found index or the
insertion point preserving sort order.  The interval shrinks strictly each
iteration, so the structural fuel the wrapper picks (`length + 1`) never
runs out. -/
def find_subkey_loop : Nat → List Key → Wstr → Nat → Nat → Bool × Nat
  | 0, _, _, lo, _ => (false, lo)
  | fuel + 1, ks, name, lo, hi =>
      if lo < hi then
        let i := (lo + hi - 1) / 2
        let res := strcmpiW (((ks.getD i default).name).getD []) name
        if res = 0 then (true, i)
        else if res > 0 then find_subkey_loop fuel ks name lo i
        else find_subkey_loop fuel ks name (i + 1) hi
      else (false, lo)

/-- find_subkey: binary search over the sorted subkey array; `(found, index)`
with `index` the match position or the insertion point. -/
def find_subkey (k : Key) (name : Wstr) : Bool × Nat :=
  find_subkey_loop (k.subkeys.length + 1) k.subkeys name 0 k.subkeys.length

/-- binary-search loop of `find_value`, same discipline as
`find_subkey_loop`. -/
def find_value_loop : Nat → List KeyValue → Wstr → Nat → Nat → Bool × Nat
  | 0, _, _, lo, _ => (false, lo)
  | fuel + 1, vs, name, lo, hi =>
      if lo < hi then
        let i := (lo + hi - 1) / 2
        let res := strcmpiW ((vs.getD i default).name) name
        if res = 0 then (true, i)
        else if res > 0 then find_value_loop fuel vs name lo i
        else find_value_loop fuel vs name (i + 1) hi
      else (false, lo)

/-- find_value: binary search over the sorted value array. -/
def find_value (k : Key) (name : Wstr) : Bool × Nat :=
  find_value_loop (k.values.length + 1) k.values name 0 k.values.length

/-- grow_subkeys: grow capacity by 50%, or allocate the initial array
(the source uses the `MIN_VALUES` constant for the first allocation). -/
def grow_subkeys (k : Key) : Key :=
  if k.nbSubkeys ≠ 0 then
    k.withSubkeysCap k.subkeys (k.nbSubkeys + k.nbSubkeys / 2)
  else
    k.withSubkeysCap k.subkeys MIN_VALUES

/-- alloc_subkey: grow the array if full, then insert a fresh key at `index`,
shifting the tail right.  `ok = false` models failure of any of the
allocations inside the call (`grow_subkeys`' realloc, `alloc_object`, the
name `strdupW`): each failing path returns NULL with the parent's in-use
array unchanged.  Returns the updated parent and the new child. -/
def alloc_subkey (parent : Key) (name : Wstr) (index : Nat) (modif : Int)
    (ok : Bool) (currentLevel : Int) : Option (Key × Key) :=
  if !ok then none
  else
    let parent1 :=
      if parent.subkeys.length = parent.nbSubkeys then grow_subkeys parent
      else parent
    let child := alloc_key (some name) modif currentLevel
    some (parent1.withSubkeys (listInsertAt parent1.subkeys index child), child)

/-- free_subkey: shift the tail left, mark the removed key DELETED and clear
its parent, then try to shrink the array.  The shrink block is translated
exactly as written in the source: it reads `key->nb_subkeys`,
`key->last_subkey` and reallocates `key->subkeys` where `key` is the
*removed child*, not the parent.  Returns `(updated parent, removed child)`. -/
def free_subkey (parent : Key) (index : Nat) : Key × Key :=
  let key := parent.subkeys.getD index default
  let parent1 := parent.withSubkeys (listRemoveAt parent.subkeys index)
  let key1 := key.withFlags (key.flags ||| KEY_DELETED)
  let nb := key1.nbSubkeys
  if nb > MIN_SUBKEYS ∧ (key1.subkeys.length : Int) - 1 < (nb : Int) / 2 then
    (parent1, key1.withSubkeysCap key1.subkeys (max (nb - nb / 3) MIN_SUBKEYS))
  else
    (parent1, key1)

/-- result record of `query_key` (the reply fields it fills in). -/
structure QueryKeyInfo where
  subkeys    : Nat
  max_subkey : Nat
  max_class  : Nat
  values     : Nat
  max_value  : Nat
  max_data   : Nat
  modif      : Int
  kclass     : Option Wstr
deriving DecidableEq, Repr

/-- the `for (i = 0; i < key->last_subkey; i++)` scan of `query_key`:
the loop state `(max_subkey, max_class)` is the accumulator; the bound
`i < last_subkey = len - 1` makes the caller pass `dropLast`. -/
def query_key_subkey_scan (ks : List Key) (acc : Nat × Nat) : Nat × Nat :=
  match ks with
  | [] => acc
  | subkey :: rest =>
      let len := (subkey.name.getD []).length
      let acc1 := if len > acc.1 then (len, acc.2) else acc
      match subkey.kclass with
      | none => query_key_subkey_scan rest acc1
      | some cl =>
          query_key_subkey_scan rest
            (if cl.length > acc1.2 then (acc1.1, cl.length) else acc1)

/-- the `for (i = 0; i < key->last_value; i++)` scan of `query_key`,
accumulating `(max_value, max_data)`. -/
def query_key_value_scan (vs : List KeyValue) (acc : Nat × Nat) : Nat × Nat :=
  match vs with
  | [] => acc
  | v :: rest =>
      let acc1 := if v.name.length > acc.1 then (v.name.length, acc.2) else acc
      query_key_value_scan rest
        (if v.data.length > acc1.2 then (acc1.1, v.data.length) else acc1)

/-- query_key: counts, maxima, modif and the key's own class.  The two scans
iterate with `i < last_subkey` / `i < last_value`, so they cover
`dropLast` of each array. -/
def query_key (key : Key) : QueryKeyInfo :=
  let sub := query_key_subkey_scan key.subkeys.dropLast (0, 0)
  let val := query_key_value_scan key.values.dropLast (0, 0)
  { subkeys    := key.subkeys.length
    max_subkey := sub.1
    max_class  := sub.2
    values     := key.values.length
    max_value  := val.1
    max_data   := val.2
    modif      := key.modif
    kclass     := key.kclass }

/-- grow_values: grow the value array capacity by 50%, or allocate the
initial `MIN_VALUES` slots. -/
def grow_values (key : Key) : Key :=
  if key.nbValues ≠ 0 then
    key.withValuesCap key.values (key.nbValues + key.nbValues / 2)
  else
    key.withValuesCap key.values MIN_VALUES

/-- insert_value: return the slot of an existing value, or grow/shift/insert
a zero-initialized one (owned name, `len = 0`, `data = NULL`; the C code
leaves `type` uninitialized, modelled as 0).  `growOk` is the `grow_values`
allocation, `nameOk` the name `strdupW`: either failing returns NULL, the
former before any change, the latter after a possible capacity growth but
with the in-use array untouched.  Returns the key and the slot index. -/
def insert_value (key : Key) (name : Wstr) (growOk nameOk : Bool) :
    Key × Option Nat :=
  match find_value key name with
  | (true, i) => (key, some i)
  | (false, index) =>
      if key.values.length = key.nbValues ∧ ¬growOk then (key, none)
      else
        let key1 := if key.values.length = key.nbValues then grow_values key
                    else key
        if ¬nameOk then (key1, none)
        else (key1.withValues (listInsertAt key1.values index ⟨name, 0, []⟩),
              some index)

/-- set_value: copy the data first (`dataOk` is that allocation; a zero
`datalen` skips it), then insert-or-reuse the slot via `insert_value`, free
any previous data, write type/len/data and touch the key.  The returned
flag tells whether the value was stored. -/
def set_value (key : Key) (name : Wstr) (ty : Nat) (data : List Nat)
    (dataOk growOk nameOk : Bool) (now clvl : Int) : Key × Bool :=
  if data.length ≠ 0 ∧ ¬dataOk then (key, false)
  else
    match insert_value key name growOk nameOk with
    | (key1, none) => (key1, false)
    | (key1, some i) =>
        let v := key1.values.getD i default
        (touch_key (key1.withValues (key1.values.set i ⟨v.name, ty, data⟩))
           now clvl, true)

/-- maximum of a list of lengths, 0 when empty (spec-side formulation of the
`query_key` maxima). -/
def listMax (l : List Nat) : Nat := l.foldr max 0

/-- token-buffer bound of `get_path_token`: the loop guard is
`p < buffer + sizeof(buffer) - 1` with `WCHAR buffer[MAX_PATH+1]`, and
`sizeof` counts bytes while the pointer arithmetic counts WCHARs, so the
effective bound is `2*(MAX_PATH+1) - 1` units, not `MAX_PATH`. -/
def TOKEN_BOUND : Nat := 2 * (MAX_PATH + 1) - 1

/-- one `get_path_token` call: skip leading backslashes, then copy up to
`TOKEN_BOUND` units stopping at backslash or NUL.  Returns the token and the
new cursor (which stays on the terminator). -/
def get_path_token_step (path : Wstr) : Wstr × Wstr :=
  let p1 := path.dropWhile (fun c => c = 92)
  let tok := (p1.takeWhile (fun c => ¬(c = 0 ∨ c = 92))).take TOKEN_BOUND
  (tok, p1.drop tok.length)

/-- the sequence of tokens successive `get_path_token` calls yield, ending at
the first empty token; structural recursion on a fuel that the wrapper
chooses large enough (each step consumes at least one unit of the cursor).
This replaces the function-local static cursor with an explicit one (the
spec itself prescribes an explicit cursor). -/
def get_path_tokens_fuel : Nat → Wstr → List Wstr
  | 0, _ => []
  | fuel + 1, path =>
      let st := get_path_token_step path
      if st.1 = [] then []
      else st.1 :: get_path_tokens_fuel fuel st.2

/-- tokenization of a whole path (`get_path_token` iterated to the end). -/
def get_path_tokens (path : Wstr) : List Wstr :=
  get_path_tokens_fuel (path.length + 1) path

/-- result of `create_key`: the updated base tree, the token path of the
returned key (`none` when the call returned NULL), the `*created` flag, and
the error set. -/
structure CreateResult where
  tree    : Key
  okPath  : Option (List Wstr)
  created : Bool
  err     : Option RegError
deriving Inhabited

/-- the creation loop of `create_key` after the first new key was allocated:
each created key gets `flags` or-ed in; the remaining tokens are allocated
at index 0 of each fresh key; the terminal key gets the class.  Returns the
rebuilt subtree rooted at the fresh key and the token path below it, or
`none` when an allocation failed. -/
def create_chain (key : Key) (toks : List Wstr) (flags : Nat)
    (cls : Option Wstr) (modif : Int) (oracle : List Bool) (clvl : Int) :
    Option (Key × List Wstr) :=
  let key1 := key.withFlags (key.flags ||| flags)
  match toks with
  | [] =>
      let key2 := match cls with
                  | some c => key1.withClass (some c)
                  | none => key1
      some (key2, [])
  | tok :: rest =>
      match alloc_subkey key1 tok 0 modif (oracle.getD 0 true) clvl with
      | none => none
      | some (key2, child) =>
          match create_chain child rest flags cls modif (oracle.tail) clvl with
          | none => none
          | some (child1, p) =>
              some (key2.withSubkeys (key2.subkeys.set 0 child1), tok :: p)

/-- the create phase of `create_key`: the first missing token is allocated at
the insertion index `idx` of the descent node (`base`/`base_idx` in the
source), then `create_chain` builds the rest.  On failure the source runs
`if (base_idx != -1) free_subkey( base, base_idx )`; `base_idx` is the
insertion index and is never -1, so the free runs even when the first
allocation itself failed and nothing was created. -/
def create_phase2 (base : Key) (idx : Nat) (tok : Wstr) (rest : List Wstr)
    (flags : Nat) (cls : Option Wstr) (modif : Int) (oracle : List Bool)
    (clvl : Int) : Key × Option (List Wstr) × Option RegError :=
  match alloc_subkey base tok idx modif (oracle.getD 0 true) clvl with
  | none =>
      ((free_subkey base idx).1, none, some .outOfMemory)
  | some (base1, child) =>
      match create_chain child rest flags cls modif (oracle.tail) clvl with
      | none =>
          ((free_subkey base1 idx).1, none, some .outOfMemory)
      | some (child1, p) =>
          (base1.withSubkeys (base1.subkeys.set idx child1), some (tok :: p),
           none)

/-- the descent loop of `create_key`: follow tokens through existing subkeys;
at the first miss switch to the create phase; when the tokens are exhausted
the walk ends on an existing key (`created = 0`) whose class is overwritten
when one was supplied. -/
def create_key_rec (key : Key) (toks : List Wstr) (flags : Nat)
    (cls : Option Wstr) (modif : Int) (oracle : List Bool) (clvl : Int) :
    CreateResult :=
  match toks with
  | [] =>
      let key1 := match cls with
                  | some c => key.withClass (some c)
                  | none => key
      { tree := key1, okPath := some [], created := false, err := none }
  | tok :: rest =>
      match find_subkey key tok with
      | (true, i) =>
          let res := create_key_rec (key.subkeys.getD i default) rest flags cls
                       modif oracle clvl
          { res with
            tree := key.withSubkeys (key.subkeys.set i res.tree)
            okPath := res.okPath.map (tok :: ·) }
      | (false, idx) =>
          let r := create_phase2 key idx tok rest flags cls modif oracle clvl
          { tree := r.1, okPath := r.2.1, created := true, err := r.2.2 }

/-- create_key: fail on a deleted base; compute the volatility flags (an
explicit VOLATILE option wins, otherwise a volatile base rejects the call);
then descend/create along the tokenized path.  `oracle` feeds the
allocation sites of the create phase in order. -/
def create_key (key : Key) (path : Wstr) (cls : Option Wstr) (options : Nat)
    (modif : Int) (oracle : List Bool) (clvl : Int) : CreateResult :=
  if key.isDeleted then
    { tree := key, okPath := none, created := false, err := some .keyDeleted }
  else if options &&& REG_OPTION_VOLATILE = 0 ∧ key.isVolatile then
    { tree := key, okPath := none, created := false,
      err := some .childMustBeVolatile }
  else
    let flags := if options &&& REG_OPTION_VOLATILE ≠ 0 then KEY_VOLATILE else 0
    create_key_rec key (get_path_tokens path) flags cls modif oracle clvl

/-! ### Text codec v2: string escaping (dump_strW / parse_strW) -/

/-- `isxdigit` on a code unit (ASCII hex digit). -/
def isxdigitN (c : Nat) : Bool :=
  decide ((48 ≤ c ∧ c ≤ 57) ∨ (65 ≤ c ∧ c ≤ 70) ∨ (97 ≤ c ∧ c ≤ 102))

/-- `isxdigit` on an output byte. -/
def isxdigitChar (c : Char) : Bool := isxdigitN c.toNat

/-- octal digit test (`*p >= '0' && *p <= '7'`). -/
def isOctChar (c : Char) : Bool := decide (48 ≤ c.toNat ∧ c.toNat ≤ 55)

/-- `isdigit` on an output byte. -/
def isdigitChar (c : Char) : Bool := decide (48 ≤ c.toNat ∧ c.toNat ≤ 57)

/-- `isspace` on an output byte (C locale: space, \t \n \v \f \r). -/
def isspaceChar (c : Char) : Bool :=
  decide (c.toNat = 32 ∨ (9 ≤ c.toNat ∧ c.toNat ≤ 13))

/-- to_hex: value of one hex digit character (isdigit → `c - '0'`, else
`tolower(c) - 'a' + 10`). -/
def to_hex (c : Char) : Nat :=
  if isdigitChar c then c.toNat - 48
  else (if 65 ≤ c.toNat ∧ c.toNat ≤ 90 then c.toNat + 32 else c.toNat) - 97 + 10

/-- lowercase hex digit character (printf `%x`). -/
def hexChar (n : Nat) : Char :=
  Char.ofNat (if n < 10 then 48 + n else 87 + n)

/-- shortest hex rendering, most significant digit first; the fuel only
bounds the recursion (`n/16` strictly decreases while nonzero). -/
def hexStrAux : Nat → Nat → List Char
  | 0, _ => []
  | fuel + 1, n =>
      if n = 0 then [] else hexStrAux fuel (n / 16) ++ [hexChar (n % 16)]

/-- printf `%x` of a nonnegative value. -/
def hexStr (n : Nat) : List Char :=
  if n = 0 then ['0'] else hexStrAux n n

/-- left-pad with a fill character to a minimum width (printf `%0Nx`). -/
def leftPad (w : Nat) (c : Char) (l : List Char) : List Char :=
  List.replicate (w - l.length) c ++ l

/-- printf `%04x`. -/
def hex4 (n : Nat) : List Char := leftPad 4 '0' (hexStr n)

/-- octal digit character. -/
def octChar (n : Nat) : Char := Char.ofNat (48 + n)

/-- shortest octal rendering (printf `%o`). -/
def octStrAux : Nat → Nat → List Char
  | 0, _ => []
  | fuel + 1, n =>
      if n = 0 then [] else octStrAux fuel (n / 8) ++ [octChar (n % 8)]

/-- printf `%o` of a nonnegative value. -/
def octStr (n : Nat) : List Char :=
  if n = 0 then ['0'] else octStrAux n n

/-- printf `%03o`. -/
def oct3 (n : Nat) : List Char := leftPad 3 '0' (octStr n)

/-- the named-escape table `".......abtnvfr.............e...."` indexed by
control-character value. -/
def escTable (c : Nat) : Char :=
  ".......abtnvfr.............e....".toList.getD c '.'

/-- dump_strW: escape a wide string for the v2 text format.  `e1`/`e2` are
the two active delimiter characters (`escape[2]` in the source).  Characters
above 127 become `\x` escapes, using the fixed-width `%04x` form when the
next source unit is an ASCII hex digit; controls become named C escapes or
octal (3 digits when the next source unit is an octal digit); backslash and
the delimiters are backslash-escaped; a terminating NUL in the final
position is not written.  (The 256-byte output buffering of the source only
batches `fwrite` calls and does not change the emitted bytes.) -/
def dump_strW : Wstr → Char → Char → List Char
  | [], _, _ => []
  | c :: rest, e1, e2 =>
      (if 127 < c then
        (if rest ≠ [] ∧ rest.headD 0 < 128 ∧ isxdigitN (rest.headD 0) then
          '\\' :: 'x' :: hex4 c
         else '\\' :: 'x' :: hexStr c)
       else if c < 32 then
        (if c = 0 ∧ rest = [] then []
         else if escTable c ≠ '.' then ['\\', escTable c]
         else if rest ≠ [] ∧ 48 ≤ rest.headD 0 ∧ rest.headD 0 ≤ 55 then
           '\\' :: oct3 c
         else '\\' :: octStr c)
       else if c = 92 ∨ c = e1.toNat ∨ c = e2.toNat then ['\\', Char.ofNat c]
       else [Char.ofNat c]) ++ dump_strW rest e1 e2

/-- the `\x` escape consumption of `parse_strW`: after `\x`, a non-hex-digit
yields the literal `x` without advancing; otherwise up to four hex digits
are folded. -/
def parse_xesc (l : List Char) : Nat × List Char :=
  match l with
  | [] => (120, [])
  | c1 :: l1 =>
      if ¬ isxdigitChar c1 then (120, c1 :: l1)
      else match l1 with
        | [] => (to_hex c1, [])
        | c2 :: l2 =>
            if ¬ isxdigitChar c2 then (to_hex c1, c2 :: l2)
            else match l2 with
              | [] => (to_hex c1 * 16 + to_hex c2, [])
              | c3 :: l3 =>
                  if ¬ isxdigitChar c3 then
                    (to_hex c1 * 16 + to_hex c2, c3 :: l3)
                  else match l3 with
                    | [] => ((to_hex c1 * 16 + to_hex c2) * 16 + to_hex c3, [])
                    | c4 :: l4 =>
                        if ¬ isxdigitChar c4 then
                          ((to_hex c1 * 16 + to_hex c2) * 16 + to_hex c3,
                           c4 :: l4)
                        else
                          (((to_hex c1 * 16 + to_hex c2) * 16 + to_hex c3) * 16
                             + to_hex c4, l4)

/-- the octal escape consumption of `parse_strW`: the first digit `d` is
already consumed; up to two more octal digits are folded. -/
def parse_oesc (d : Char) (l : List Char) : Nat × List Char :=
  let v0 := d.toNat - 48
  match l with
  | [] => (v0, [])
  | c2 :: l2 =>
      if ¬ isOctChar c2 then (v0, c2 :: l2)
      else match l2 with
        | [] => (v0 * 8 + (c2.toNat - 48), [])
        | c3 :: l3 =>
            if ¬ isOctChar c3 then (v0 * 8 + (c2.toNat - 48), c3 :: l3)
            else (v0 * 64 + (c2.toNat - 48) * 8 + (c3.toNat - 48), l3)

/-- one escape dispatch of `parse_strW` (the `switch (*p)` after a
backslash): named C escapes, `\x` hex, octal, else the literal character. -/
def parse_esc_step (d : Char) (rest2 : List Char) : Nat × List Char :=
  if d = 'a' then (7, rest2)
  else if d = 'b' then (8, rest2)
  else if d = 'e' then (27, rest2)
  else if d = 'f' then (12, rest2)
  else if d = 'n' then (10, rest2)
  else if d = 'r' then (13, rest2)
  else if d = 't' then (9, rest2)
  else if d = 'v' then (11, rest2)
  else if d = 'x' then parse_xesc rest2
  else if isOctChar d then parse_oesc d rest2
  else (d.toNat, rest2)

/-- parse_strW: decode an escaped string up to the delimiter `e`.  Returns
the decoded units and the input remaining after the delimiter; `none` when
the input (or a NUL byte) ends before the delimiter — the source returns -1
then (the dest-capacity overflow return is omitted: every call site sizes
the buffer from `strlen`, which always suffices; a backslash directly
before the terminator would make the source read past the buffer and is
likewise `none` here).  Fuel counts decoded units: one per iteration. -/
def parse_strW_fuel : Nat → List Char → Char → Option (Wstr × List Char)
  | 0, _, _ => none
  | fuel + 1, src, e =>
      match src with
      | [] => none
      | c :: rest =>
          if c.toNat = 0 then none
          else if c = e then some ([], rest)
          else if c ≠ '\\' then
            match parse_strW_fuel fuel rest e with
            | some (s, rem) => some (c.toNat :: s, rem)
            | none => none
          else match rest with
            | [] => none
            | d :: rest2 =>
                match parse_strW_fuel fuel (parse_esc_step d rest2).2 e with
                | some (s, rem) => some ((parse_esc_step d rest2).1 :: s, rem)
                | none => none

/-- most-significant-first value of a hex digit string. -/
def hexVal (l : List Char) : Nat := l.foldl (fun a d => a * 16 + to_hex d) 0

/-- most-significant-first value of an octal digit string. -/
def octVal (l : List Char) : Nat := l.foldl (fun a d => a * 8 + (d.toNat - 48)) 0

/-- parse_strW with the fuel chosen from the input length (an iteration
always consumes at least one input byte). -/
def parse_strW (src : List Char) (e : Char) : Option (Wstr × List Char) :=
  parse_strW_fuel (src.length + 1) src e

/-- delimiters for which the escape grammar is unambiguous: printable ASCII,
not a hex digit (this covers `a b e f` and the octal digits), not one of the
remaining named-escape letters `n r t v`, not `x`, and not the backslash.
The pairs the source activates — `""` for strings and `[]` for key paths —
all qualify. -/
def goodDelim (e : Char) : Bool :=
  decide (32 ≤ e.toNat ∧ e.toNat ≤ 127 ∧ isxdigitN e.toNat = false ∧
    e ≠ 'n' ∧ e ≠ 'r' ∧ e ≠ 't' ∧ e ≠ 'v' ∧ e ≠ 'x' ∧ e ≠ '\\')

/-! ### Text codec v2: value and key-block emission -/

/-- REG_SZ -/
def REG_SZ : Nat := 1
/-- REG_EXPAND_SZ -/
def REG_EXPAND_SZ : Nat := 2
/-- REG_BINARY -/
def REG_BINARY : Nat := 3
/-- REG_DWORD -/
def REG_DWORD : Nat := 4
/-- REG_MULTI_SZ -/
def REG_MULTI_SZ : Nat := 7

/-- decimal digits of a positive value, most significant first (fuel only
bounds the recursion). -/
def decStrAux : Nat → Nat → List Char
  | 0, _ => []
  | fuel + 1, n =>
      if n = 0 then [] else decStrAux fuel (n / 10) ++ [Char.ofNat (48 + n % 10)]

/-- printf `%u`. -/
def natDec (n : Nat) : List Char :=
  if n = 0 then ['0'] else decStrAux n n

/-- printf `%ld` of a signed value. -/
def decInt (i : Int) : List Char :=
  if i < 0 then '-' :: natDec i.natAbs else natDec i.toNat

/-- printf `%02x` of a byte. -/
def hex2 (b : Nat) : List Char := leftPad 2 '0' (hexStr b)

/-- printf `%08lx` of a DWORD. -/
def hex8 (n : Nat) : List Char := leftPad 8 '0' (hexStr n)

/-- the `memcpy(&dw, value->data, 4)` read of a little-endian DWORD. -/
def dwordOfBytes (l : List Nat) : Nat :=
  l.getD 0 0 + 256 * l.getD 1 0 + 65536 * l.getD 2 0 + 16777216 * l.getD 3 0

/-- the `value->len / sizeof(WCHAR)` view of a data buffer as wide
characters (little-endian pairs; an odd trailing byte is dropped, as the
integer division does). -/
def wcharsOfData : List Nat → Wstr
  | b0 :: b1 :: rest => (b0 + 256 * b1) :: wcharsOfData rest
  | _ => []

/-- the hex byte list emission of `dump_value` with its 76-column
continuation breaking: a comma is written between bytes and, when the
column count exceeds 76 after a comma, the line ends with `\` and the next
continuation line starts with two spaces at count 2. -/
def dump_hex_lines : List Nat → List Char → Nat → List (List Char)
  | [], cur, _ => [cur]
  | b :: rest, cur, count =>
      match rest with
      | [] => [cur ++ hex2 b]
      | _ :: _ =>
          if count + 3 > 76 then
            (cur ++ hex2 b ++ [',', '\\'])
              :: dump_hex_lines rest "  ".toList 2
          else
            dump_hex_lines rest (cur ++ hex2 b ++ [',']) (count + 3)

/-- dump_value: one value line (several for a broken-up hex list).  The
name is `@` for the default value, else escaped in `""`; string types are
emitted as (possibly `str(type):`-tagged) strings, a 4-byte REG_DWORD as
`dword:%08lx`, everything else as a (typed) hex byte list. -/
def dump_value (v : KeyValue) : List (List Char) :=
  let pre : List Char × Nat :=
    if v.name ≠ [] then
      let nm := dump_strW v.name '\"' '\"'
      ('\"' :: nm ++ "\"=".toList, 1 + nm.length + 2)
    else ("@=".toList, 2)
  if v.vtype = REG_SZ ∨ v.vtype = REG_EXPAND_SZ ∨ v.vtype = REG_MULTI_SZ then
    [pre.1 ++
      (if v.vtype ≠ REG_SZ then
        "str(".toList ++ natDec v.vtype ++ "):".toList
       else []) ++
      '\"' :: dump_strW (wcharsOfData v.data) '\"' '\"' ++ ['\"']]
  else if v.vtype = REG_DWORD ∧ v.data.length = 4 then
    [pre.1 ++ "dword:".toList ++ hex8 (dwordOfBytes v.data)]
  else if v.vtype = REG_BINARY then
    dump_hex_lines v.data (pre.1 ++ "hex:".toList) (pre.2 + 4)
  else
    dump_hex_lines v.data
      (pre.1 ++ "hex(".toList ++ hexStr v.vtype ++ "):".toList)
      (pre.2 + 4 + (hexStr v.vtype).length + 2)

/-- the `dump_path` step: the parent's dumped path, two literal
backslashes, then the escaped component name (delimiters `[]`). -/
def dumpNamePath (pfx : List Char) (name : Wstr) : List Char :=
  pfx ++ '\\' :: '\\' :: dump_strW name '[' ']'

/-! save_subkeys: skip volatile subtrees; emit a key block (an empty line,
the `[path] modif` line, then the value lines) iff the key's level reaches
`saving_level` and it has values or no subkeys; recurse into all subkeys in
array order.  `pfx` is this key's dumped path (`dump_path`, built top-down;
for the branch root it is the root label or empty). -/
mutual

/-- see the section comment: the per-key walk of `save_subkeys`. -/
def save_subkeys : Key → List Char → Int → List (List Char)
  | .mk _ _ subs _ vals _ flags lvl modif, pfx, slvl =>
      if flags &&& KEY_VOLATILE ≠ 0 then []
      else
        (if slvl ≤ lvl ∧ (vals ≠ [] ∨ subs.isEmpty = true) then
          [] :: ('[' :: pfx ++ "] ".toList ++ decInt modif)
            :: (vals.map dump_value).flatten
         else [])
        ++ save_subkeys_list subs pfx slvl

/-- the `for (i = 0; i <= last_subkey; i++)` recursion of `save_subkeys`. -/
def save_subkeys_list : List Key → List Char → Int → List (List Char)
  | [], _, _ => []
  | c :: rest, pfx, slvl =>
      save_subkeys c (dumpNamePath pfx (c.name.getD [])) slvl
        ++ save_subkeys_list rest pfx slvl

end

/-! ### Text codec v1 (write-only) and the save_registry dispatcher -/

/-- save_string_v1: `\uXXXX` for characters above 0x7F, `\n`, or `=`;
backslashes are doubled; everything else is written raw. -/
def save_string_v1 : Wstr → List Char
  | [] => []
  | c :: rest =>
      (if 127 < c ∨ c = 10 ∨ c = 61 then '\\' :: 'u' :: hex4 c
       else if c = 92 then ['\\', '\\']
       else [Char.ofNat c]) ++ save_string_v1 rest

/-- one v1 value line: `name=type,0,payload`. -/
def dump_value_v1 (v : KeyValue) (nesting : Nat) : List Char :=
  List.replicate nesting '\t' ++ save_string_v1 v.name ++
  '=' :: natDec v.vtype ++ ",0,".toList ++
  (if v.vtype = REG_SZ ∨ v.vtype = REG_EXPAND_SZ then
    save_string_v1 ((wcharsOfData v.data).takeWhile (· ≠ 0))
   else v.data.flatMap hex2)

/-! save_subkeys_v1: the legacy indentation format, one tab per nesting
level; volatile or below-level subtrees are skipped. -/
mutual

/-- see the section comment: the per-key walk of `save_subkeys_v1`. -/
def save_subkeys_v1 : Key → Nat → Int → List (List Char)
  | .mk _ _ subs _ vals _ flags lvl _, nesting, slvl =>
      if flags &&& KEY_VOLATILE ≠ 0 then []
      else if lvl < slvl then []
      else
        vals.map (fun v => dump_value_v1 v nesting)
          ++ save_subkeys_v1_list subs nesting slvl

/-- the subkey recursion of `save_subkeys_v1`. -/
def save_subkeys_v1_list : List Key → Nat → Int → List (List Char)
  | [], _, _ => []
  | c :: rest, nesting, slvl =>
      (List.replicate nesting '\t' ++ save_string_v1 (c.name.getD []))
        :: save_subkeys_v1 c (nesting + 1) slvl
        ++ save_subkeys_v1_list rest nesting slvl

end

/-! update_level: propagate each subtree's maximum level up (used only
before a v1 save); returns the rewritten tree and the subtree maximum. -/
mutual

/-- see the section comment: the per-key `update_level`. -/
def update_level : Key → Key × Int
  | .mk n c subs nbs v nbv f l m =>
      let r := update_level_list subs
      let mx := match r.2 with
                | none => l
                | some x => max l x
      (.mk n c r.1 nbs v nbv f mx m, mx)

/-- the subkey recursion of `update_level`. -/
def update_level_list : List Key → List Key × Option Int
  | [] => ([], none)
  | c :: rest =>
      let rc := update_level c
      let rr := update_level_list rest
      (rc.1 :: rr.1,
       match rr.2 with
       | none => some rc.2
       | some x => some (max rc.2 x))

end

/-- `static int saving_version = 1` — the initial (default) value of the
file format version; nothing in the source ever assigns it. -/
def saving_version_init : Int := 1

/-- save_registry's format dispatch: the header names the version; the v2
walk runs only when `saving_version == 2`, otherwise `update_level` then
the v1 walk. -/
def save_registry_lines (version : Int) (key : Key) (pfx : List Char)
    (slvl : Int) : List (List Char) :=
  ("WINE REGISTRY Version ".toList ++ decInt version) ::
  (if version = 2 then save_subkeys key pfx slvl
   else save_subkeys_v1 (update_level key).1 0 slvl)

/-- navigate a token path through `find_subkey` lookups (the functional
counterpart of holding a C pointer to a subkey: on trees with sorted,
duplicate-free sibling names the lookup is unambiguous). -/
def getAtPath : Key → List Wstr → Option Key
  | k, [] => some k
  | k, name :: rest =>
      match find_subkey k name with
      | (true, i) => getAtPath (k.subkeys.getD i default) rest
      | (false, _) => none

/-- write back a key at a token path (counterpart of mutating through a C
pointer). -/
def setAtPath : Key → List Wstr → Key → Key
  | _, [], knew => knew
  | k, name :: rest, knew =>
      match find_subkey k name with
      | (true, i) =>
          k.withSubkeys
            (k.subkeys.set i (setAtPath (k.subkeys.getD i default) rest knew))
      | (false, _) => k

/-! ### Text codec v2: the load parser -/

/-- value of a decimal digit string, most significant first. -/
def decVal (l : List Char) : Nat :=
  l.foldl (fun a d => a * 10 + (d.toNat - 48)) 0

/-- `strtoul(p, &end, 16)` on a buffer that starts at the digits: the value
of the leading hex-digit run (0 when there is none). -/
def strtoulHex (l : List Char) : Nat :=
  hexVal (l.takeWhile isxdigitChar)

/-- get_data_type: match the tag table in order; `hex(xx):` parses the type
from the hex digits after `hex(` and requires `):`.  Returns
`(type, parse_type, consumed length)`, `none` for the source's 0 return.
(The source's `end <= buffer` guard is vacuous — `strtoul` never returns an
end pointer before `buffer + 4` — so an empty digit run yields type 0.) -/
def get_data_type (buf : List Char) : Option (Nat × Nat × Nat) :=
  if buf.take 1 = "\"".toList then some (REG_SZ, REG_SZ, 1)
  else if buf.take 5 = "str:\"".toList then some (REG_SZ, REG_SZ, 5)
  else if buf.take 8 = "str(2):\"".toList then some (REG_EXPAND_SZ, REG_SZ, 8)
  else if buf.take 8 = "str(7):\"".toList then some (REG_MULTI_SZ, REG_SZ, 8)
  else if buf.take 4 = "hex:".toList then some (REG_BINARY, REG_BINARY, 4)
  else if buf.take 6 = "dword:".toList then some (REG_DWORD, REG_DWORD, 6)
  else if buf.take 4 = "hex(".toList then
    let digits := (buf.drop 4).takeWhile isxdigitChar
    let rest := (buf.drop 4).dropWhile isxdigitChar
    if rest.take 2 = "):".toList then
      some (hexVal digits, REG_BINARY, 4 + digits.length + 2)
    else none
  else none

/-- parse_hex: the comma-separated hex byte list reader.  Each step takes
two characters into a scratch buffer and `sscanf("%x")`s them (so a
non-digit second character yields a one-digit value), advances by two, and
skips one comma.  Stops at the first non-digit.  (The dest-capacity `-1`
return is omitted: on `dump_value` output, which separates bytes with
commas, the caller's `1 + strlen/3` allocation always suffices.)  Returns
the bytes and the remaining input. -/
def parse_hex : Nat → List Char → List Nat × List Char
  | 0, l => ([], l)
  | fuel + 1, l =>
      match l with
      | [] => ([], [])
      | c :: rest =>
          if isxdigitChar c then
            let val := hexVal ((c :: rest.take 1).takeWhile isxdigitChar)
            let l2 := rest.drop 1
            let l3 := if l2.headD 'Z' = ',' then l2.tail else l2
            let r := parse_hex fuel l3
            (val :: r.1, r.2)
          else ([], c :: rest)

/-- little-endian bytes of a wide string. -/
def bytesOfWchars (s : Wstr) : List Nat :=
  s.flatMap (fun c => [c % 256, c / 256 % 256])

/-- little-endian bytes of a DWORD. -/
def dwordBytes (n : Nat) : List Nat :=
  [n % 256, n / 256 % 256, n / 65536 % 256, n / 16777216 % 256]

/-- the hex continuation-line loop of `load_value`'s REG_BINARY case: parse
hex bytes from the current buffer; after skipping trailing whitespace an
empty rest ends the list, a lone `\` continues on the next input line
(skipping its leading whitespace), anything else is a parse error. -/
def load_hex_lines : List Char → List (List Char) →
    Option (List Nat × List (List Char))
  | buf, [] =>
      let r := parse_hex (buf.length + 1) buf
      let after := r.2.dropWhile isspaceChar
      if after.isEmpty then some (r.1, []) else none
  | buf, l :: ls =>
      let r := parse_hex (buf.length + 1) buf
      let after := r.2.dropWhile isspaceChar
      if after.isEmpty then some (r.1, l :: ls)
      else if after.headD 'Z' ≠ '\\' then none
      else
        Option.map (fun p => (r.1 ++ p.1, p.2))
          (load_hex_lines (l.dropWhile isspaceChar) ls)

/-- the name-reading half of parse_value_name: `@` is the default (empty)
value name, otherwise the name is an escaped string in `""`; an `=` must
follow.  Returns the name and the buffer after the `=`. -/
def parse_value_name_str (line : List Char) : Option (Wstr × List Char) :=
  match line with
  | '@' :: rest => if rest.headD 'Z' = '=' then some ([], rest.tail) else none
  | '\"' :: rest =>
      match parse_strW rest '\"' with
      | none => none
      | some (nm, after) =>
          if after.headD 'Z' = '=' then some (nm, after.tail) else none
  | _ => none

/-- parse_value_name: read the value name, then create/find the value slot
with `insert_value` (allocations succeed on the load path).  Returns the
updated key, the slot index and the buffer after `=`. -/
def parse_value_name (key : Key) (line : List Char) :
    Option (Key × Nat × List Char) :=
  match parse_value_name_str line with
  | none => none
  | some (nm, buf) =>
      match insert_value key nm true true with
      | (key1, some idx) => some (key1, idx, buf)
      | (_, none) => none

/-- the payload reader of `load_value`, dispatching on `parse_type`: a
string is decoded (with its terminating NUL appended) to little-endian
bytes, a dword is read by `strtoul(16)`, anything else is a hex byte list
with continuation lines. -/
def parse_value_data (pty : Nat) (buf2 : List Char)
    (restLines : List (List Char)) : Option (List Nat × List (List Char)) :=
  if pty = REG_SZ then
    match parse_strW buf2 '\"' with
    | none => none
    | some (s, _) => some (bytesOfWchars (s ++ [0]), restLines)
  else if pty = REG_DWORD then
    some (dwordBytes (strtoulHex buf2), restLines)
  else
    load_hex_lines buf2 restLines

/-- load_value: parse the value name, the data-type tag and the payload; on
success overwrite the slot's type/len/data and raise the key's level to
`current_level` — the modification time is deliberately not touched.
Returns the key (with the slot inserted even when a later stage fails, as
in the source), the input lines remaining after any hex continuations, and
a success flag. -/
def load_value (key : Key) (line : List Char) (restLines : List (List Char))
    (clvl : Int) : Key × List (List Char) × Bool :=
  match parse_value_name key line with
  | none => (key, restLines, false)
  | some (key1, idx, buf1) =>
      match get_data_type buf1 with
      | none => (key1, restLines, false)
      | some (ty, pty, res) =>
          match parse_value_data pty (buf1.drop res) restLines with
          | none => (key1, restLines, false)
          | some (data, restLines1) =>
              let v := key1.values.getD idx default
              ((key1.withValues
                  (key1.values.set idx ⟨v.name, ty, data⟩)).withLevel
                  (max key1.level clvl),
               restLines1, true)

/-- the `sscanf(buffer + res, " %d", &modif)` of `load_key`: skip
whitespace, read an optionally signed decimal; when no digits follow, the
current time is used instead. -/
def parse_modif (l : List Char) (now : Int) : Int :=
  let l1 := l.dropWhile isspaceChar
  if l1.headD 'Z' = '-' then
    if (l1.tail).takeWhile isdigitChar = [] then now
    else - (decVal ((l1.tail).takeWhile isdigitChar) : Int)
  else
    if l1.takeWhile isdigitChar = [] then now
    else (decVal (l1.takeWhile isdigitChar) : Int)

/-- the `for (p = info->tmp; *p; p++) if (*p == '\\') { p++; break; }` scan
of `load_key`: drop the first path component (the root label) up to and
including the first backslash; if a NUL or the end comes first, the
remaining path is empty. -/
def skipFirstComponent (s : Wstr) : Wstr :=
  let pre := s.takeWhile (fun c => ¬(c = 0 ∨ c = 92))
  match s.drop pre.length with
  | 92 :: r => r
  | _ => []

/-- load_key: decode the escaped path up to `]`, read the optional modif,
drop the leading root label, and `create_key` the path under the load
target (all allocations succeed on this path).  Returns the updated target
and the token path of the created key (`none` on a malformed line or a
failed create). -/
def load_key (base : Key) (buf : List Char) (now clvl : Int) :
    Key × Option (List Wstr) :=
  match parse_strW buf ']' with
  | none => (base, none)
  | some (decoded, after) =>
      let modif := parse_modif after now
      let res := create_key base (skipFirstComponent decoded) none 0 modif []
        clvl
      (res.tree, res.okPath)

/-- the line loop of `load_keys`, dispatching on the first non-whitespace
character: `[` opens a new current-key context, `"`/`@` adds a value to the
current key (located by its token path — the functional stand-in for the
C `subkey` pointer), `#`/`;`/empty are skipped, anything else is a logged,
non-fatal error.  The fuel is at least the line count, and every iteration
consumes at least one line. -/
def load_lines : Nat → Key → Option (List Wstr) → List (List Char) →
    Int → Int → Key
  | 0, base, _, _, _, _ => base
  | fuel + 1, base, ctx, lines, now, clvl =>
      match lines with
      | [] => base
      | line :: rest =>
          let p := line.dropWhile isspaceChar
          match p with
          | '[' :: pr =>
              let r := load_key base pr now clvl
              load_lines fuel r.1 r.2 rest now clvl
          | '@' :: _ =>
              match ctx with
              | none => load_lines fuel base ctx rest now clvl
              | some path =>
                  match getAtPath base path with
                  | none => load_lines fuel base ctx rest now clvl
                  | some sub =>
                      let r := load_value sub p rest clvl
                      load_lines fuel (setAtPath base path r.1) ctx r.2.1 now
                        clvl
          | '\"' :: _ =>
              match ctx with
              | none => load_lines fuel base ctx rest now clvl
              | some path =>
                  match getAtPath base path with
                  | none => load_lines fuel base ctx rest now clvl
                  | some sub =>
                      let r := load_value sub p rest clvl
                      load_lines fuel (setAtPath base path r.1) ctx r.2.1 now
                        clvl
          | _ => load_lines fuel base ctx rest now clvl

/-- load_keys: the header line must be exactly `WINE REGISTRY Version 2`,
else the load fails with NOT_REGISTRY_FILE leaving the target unchanged;
otherwise the remaining lines are processed by the line loop (whose
per-line errors are logged but non-fatal and set no error). -/
def load_keys (base : Key) (lines : List (List Char)) (now clvl : Int) :
    Key × Option RegError :=
  match lines with
  | [] => (base, some .notRegistryFile)
  | first :: rest =>
      if first ≠ "WINE REGISTRY Version 2".toList then
        (base, some .notRegistryFile)
      else
        (load_lines (rest.length + 1) base none rest now clvl, none)

/-! ### Round-trip apparatus: well-formedness, the loaded-copy shape, and
structural equality (the `(name, class, type, data, modif)` comparison of
the round-trip property) -/

/-- strict ascending chain in the `strcmpiW` order (the sort invariant of
the subkey and value arrays). -/
def chainLtB : List Wstr → Bool
  | [] => true
  | [_] => true
  | a :: b :: r => decide (strcmpiW a b < 0) && chainLtB (b :: r)

/-- a key-path component that survives tokenization and escaping: nonempty,
within the token-buffer bound, no NUL, no backslash, 16-bit units. -/
def goodName (s : Wstr) : Bool :=
  !s.isEmpty && decide (s.length ≤ TOKEN_BOUND) &&
  s.all (fun c => decide (0 < c ∧ c < 65536 ∧ c ≠ 92))

/-- a value that survives the v2 dump/load cycle: NUL-free 16-bit name
units, byte-sized data, and for the string types an even byte count whose
wide view ends in exactly one terminating NUL. -/
def wfValue (v : KeyValue) : Bool :=
  v.name.all (fun c => decide (0 < c ∧ c < 65536)) &&
  v.data.all (fun b => decide (b < 256)) &&
  (if v.vtype = REG_SZ ∨ v.vtype = REG_EXPAND_SZ ∨ v.vtype = REG_MULTI_SZ then
    decide (v.data.length % 2 = 0) &&
    decide ((wcharsOfData v.data).getLast? = some 0) &&
    decide ((wcharsOfData v.data).dropLast.getLast? ≠ some 0)
  else true)

/-! wfKey: the savable-and-reloadable keys below a root: good name, no
class, no flags (in particular not VOLATILE), non-negative modif, level at
least `saving_level`, an own save block (values or leaf), sorted values and
subkeys, recursively. -/
mutual

/-- see the section comment. -/
def wfKey (slvl : Int) : Key → Bool
  | .mk n c subs _ vals _ flags lvl m =>
      (match n with | some nm => goodName nm | none => false) &&
      (c == none) && (flags == 0) && decide (0 ≤ m) && decide (slvl ≤ lvl) &&
      (decide (vals ≠ []) || subs.isEmpty) &&
      vals.all wfValue && chainLtB (vals.map KeyValue.name) &&
      chainLtB (subs.map (fun k => k.name.getD [])) &&
      wfKeyList slvl subs

/-- `wfKey` over a subkey list. -/
def wfKeyList (slvl : Int) : List Key → Bool
  | [] => true
  | k :: r => wfKey slvl k && wfKeyList slvl r

end

/-- the root of a savable tree: not volatile, level at least
`saving_level`, sorted well-formed values and subkeys. -/
def wfRoot (slvl : Int) (T : Key) : Bool :=
  (T.flags &&& KEY_VOLATILE == 0) && decide (slvl ≤ T.level) &&
  T.values.all wfValue && chainLtB (T.values.map KeyValue.name) &&
  chainLtB (T.subkeys.map (fun k => k.name.getD [])) &&
  wfKeyList slvl T.subkeys

/-- a branch label (`HKEY_LOCAL_MACHINE` etc.) that the path decoding reads
back verbatim: no NUL, no `]`, no backslash. -/
def wfLabel (label : List Char) : Bool :=
  label.all (fun ch => decide (ch.toNat ≠ 0 ∧ ch ≠ ']' ∧ ch ≠ '\\'))

/-- one step of the array-capacity policy shared by `alloc_subkey` and
`insert_value`: grow by half (or to the floor of 8) exactly when full. -/
def capStep (len cap : Nat) : Nat :=
  if len = cap then (if cap = 0 then MIN_VALUES else cap + cap / 2) else cap

/-- the capacity after `n` insertions into an initially empty array. -/
def capAfter : Nat → Nat
  | 0 => 0
  | n + 1 => capStep n (capAfter n)

/-! loadCopy: the exact key the v2 loader rebuilds from a saved key — same
name, values and modif, no class, no flags, level `current_level`, and the
capacities the insertion sequence produces. -/
mutual

/-- see the section comment. -/
def loadCopy (clvl : Int) : Key → Key
  | .mk n _ subs _ vals _ _ _ m =>
      .mk n none (loadCopyList clvl subs) (capAfter subs.length) vals
        (capAfter vals.length) 0 clvl m

/-- `loadCopy` over a subkey list. -/
def loadCopyList (clvl : Int) : List Key → List Key
  | [] => []
  | k :: r => loadCopy clvl k :: loadCopyList clvl r

end

/-! keyEqb: structural tree equality under the `(name, class, value
(name, type, data), modif)` comparison of every node, subkey and value
order preserved; array capacities, flags and levels are not compared. -/
mutual

/-- see the section comment. -/
def keyEqb : Key → Key → Bool
  | .mk n1 c1 s1 _ v1 _ _ _ m1, .mk n2 c2 s2 _ v2 _ _ _ m2 =>
      n1 == n2 && c1 == c2 && v1 == v2 && m1 == m2 && keyListEqb s1 s2

/-- `keyEqb` over subkey forests. -/
def keyListEqb : List Key → List Key → Bool
  | [], [] => true
  | a :: as, b :: bs => keyEqb a b && keyListEqb as bs
  | _, _ => false

end

/-- the text `dump_path` emits for the key at token path `tp` under the
branch label: components separated by two literal backslashes, each escaped
with the `[]` delimiter pair. -/
def dumpPathText (label : List Char) (tp : List Wstr) : List Char :=
  label ++ (tp.map (fun n => '\\' :: '\\' :: dump_strW n '[' ']')).flatten

/-- the decoded wide form of a token path: each component preceded by one
backslash unit. -/
def joinW (tp : List Wstr) : Wstr :=
  (tp.map (fun n => 92 :: n)).flatten

/-- C1 counterexample data: a savable root (no VOLATILE, level 0, modif 42)
and the fresh root the file is loaded into. -/
def c1T : Key := .mk none none [] 0 [] 0 KEY_ROOT 0 42

/-- C1 counterexample data: the load target. -/
def c1fresh : Key := .mk none none [] 0 [] 0 KEY_ROOT 0 7

/-- concrete key for the C7 evaluation: an anonymous root with no subkeys
and no values, modif 9. -/
def c7key : Key := .mk none none [] 0 [] 0 0 0 9

/-- fresh anonymous root used by the C3 scenario. -/
def c3base : Key := .mk none none [] 0 [] 0 0 0 0

/-- the tree after `create_key(root, "A", VOLATILE)`. -/
def c3tree1 : Key := (create_key c3base [65] none REG_OPTION_VOLATILE 5 [] 0).tree

/-- the result of the follow-up `create_key(root, "A\B", non-volatile)`. -/
def c3res : CreateResult := create_key c3tree1 [65, 92, 66] none 0 7 [] 0

/-- base key with a single existing subkey `B` for the C2 scenario. -/
def c2base : Key :=
  .mk none none [.mk (some [66]) none [] 0 [] 0 0 0 0] 8 [] 0 0 0 0

/-- `create_key(c2base, "A")` with the very first allocation failing. -/
def c2res : CreateResult := create_key c2base [65] none 0 5 [false] 0

/-- concrete subkey used by the C6 evaluation: name is the single unit `n`,
no subkeys, capacity `cap`. -/
def c6child (n : Nat) (cap : Nat) : Key := .mk (some [n]) none [] cap [] 0 0 0 0

/-- concrete parent for the C6 evaluation: five subkeys in a capacity-12
array. -/
def c6parent : Key :=
  .mk none none
    [c6child 65 12, c6child 66 0, c6child 67 0, c6child 68 0, c6child 69 0]
    12 [] 0 0 0 0

/-! ## Theorems -/

@[simp] theorem Key.name_withSubkeys (k : Key) (s : List Key) :
    (k.withSubkeys s).name = k.name := by cases k; rfl
@[simp] theorem Key.kclass_withSubkeys (k : Key) (s : List Key) :
    (k.withSubkeys s).kclass = k.kclass := by cases k; rfl
@[simp] theorem Key.subkeys_withSubkeys (k : Key) (s : List Key) :
    (k.withSubkeys s).subkeys = s := by cases k; rfl
@[simp] theorem Key.nbSubkeys_withSubkeys (k : Key) (s : List Key) :
    (k.withSubkeys s).nbSubkeys = k.nbSubkeys := by cases k; rfl
@[simp] theorem Key.values_withSubkeys (k : Key) (s : List Key) :
    (k.withSubkeys s).values = k.values := by cases k; rfl
@[simp] theorem Key.nbValues_withSubkeys (k : Key) (s : List Key) :
    (k.withSubkeys s).nbValues = k.nbValues := by cases k; rfl
@[simp] theorem Key.flags_withSubkeys (k : Key) (s : List Key) :
    (k.withSubkeys s).flags = k.flags := by cases k; rfl
@[simp] theorem Key.level_withSubkeys (k : Key) (s : List Key) :
    (k.withSubkeys s).level = k.level := by cases k; rfl
@[simp] theorem Key.modif_withSubkeys (k : Key) (s : List Key) :
    (k.withSubkeys s).modif = k.modif := by cases k; rfl

@[simp] theorem Key.name_withSubkeysCap (k : Key) (s : List Key) (c : Nat) :
    (k.withSubkeysCap s c).name = k.name := by cases k; rfl
@[simp] theorem Key.kclass_withSubkeysCap (k : Key) (s : List Key) (c : Nat) :
    (k.withSubkeysCap s c).kclass = k.kclass := by cases k; rfl
@[simp] theorem Key.subkeys_withSubkeysCap (k : Key) (s : List Key) (c : Nat) :
    (k.withSubkeysCap s c).subkeys = s := by cases k; rfl
@[simp] theorem Key.nbSubkeys_withSubkeysCap (k : Key) (s : List Key) (c : Nat) :
    (k.withSubkeysCap s c).nbSubkeys = c := by cases k; rfl
@[simp] theorem Key.values_withSubkeysCap (k : Key) (s : List Key) (c : Nat) :
    (k.withSubkeysCap s c).values = k.values := by cases k; rfl
@[simp] theorem Key.nbValues_withSubkeysCap (k : Key) (s : List Key) (c : Nat) :
    (k.withSubkeysCap s c).nbValues = k.nbValues := by cases k; rfl
@[simp] theorem Key.flags_withSubkeysCap (k : Key) (s : List Key) (c : Nat) :
    (k.withSubkeysCap s c).flags = k.flags := by cases k; rfl
@[simp] theorem Key.level_withSubkeysCap (k : Key) (s : List Key) (c : Nat) :
    (k.withSubkeysCap s c).level = k.level := by cases k; rfl
@[simp] theorem Key.modif_withSubkeysCap (k : Key) (s : List Key) (c : Nat) :
    (k.withSubkeysCap s c).modif = k.modif := by cases k; rfl

@[simp] theorem Key.name_withValues (k : Key) (v : List KeyValue) :
    (k.withValues v).name = k.name := by cases k; rfl
@[simp] theorem Key.kclass_withValues (k : Key) (v : List KeyValue) :
    (k.withValues v).kclass = k.kclass := by cases k; rfl
@[simp] theorem Key.subkeys_withValues (k : Key) (v : List KeyValue) :
    (k.withValues v).subkeys = k.subkeys := by cases k; rfl
@[simp] theorem Key.nbSubkeys_withValues (k : Key) (v : List KeyValue) :
    (k.withValues v).nbSubkeys = k.nbSubkeys := by cases k; rfl
@[simp] theorem Key.values_withValues (k : Key) (v : List KeyValue) :
    (k.withValues v).values = v := by cases k; rfl
@[simp] theorem Key.nbValues_withValues (k : Key) (v : List KeyValue) :
    (k.withValues v).nbValues = k.nbValues := by cases k; rfl
@[simp] theorem Key.flags_withValues (k : Key) (v : List KeyValue) :
    (k.withValues v).flags = k.flags := by cases k; rfl
@[simp] theorem Key.level_withValues (k : Key) (v : List KeyValue) :
    (k.withValues v).level = k.level := by cases k; rfl
@[simp] theorem Key.modif_withValues (k : Key) (v : List KeyValue) :
    (k.withValues v).modif = k.modif := by cases k; rfl

@[simp] theorem Key.name_withValuesCap (k : Key) (v : List KeyValue) (c : Nat) :
    (k.withValuesCap v c).name = k.name := by cases k; rfl
@[simp] theorem Key.kclass_withValuesCap (k : Key) (v : List KeyValue) (c : Nat) :
    (k.withValuesCap v c).kclass = k.kclass := by cases k; rfl
@[simp] theorem Key.subkeys_withValuesCap (k : Key) (v : List KeyValue) (c : Nat) :
    (k.withValuesCap v c).subkeys = k.subkeys := by cases k; rfl
@[simp] theorem Key.nbSubkeys_withValuesCap (k : Key) (v : List KeyValue) (c : Nat) :
    (k.withValuesCap v c).nbSubkeys = k.nbSubkeys := by cases k; rfl
@[simp] theorem Key.values_withValuesCap (k : Key) (v : List KeyValue) (c : Nat) :
    (k.withValuesCap v c).values = v := by cases k; rfl
@[simp] theorem Key.nbValues_withValuesCap (k : Key) (v : List KeyValue) (c : Nat) :
    (k.withValuesCap v c).nbValues = c := by cases k; rfl
@[simp] theorem Key.flags_withValuesCap (k : Key) (v : List KeyValue) (c : Nat) :
    (k.withValuesCap v c).flags = k.flags := by cases k; rfl
@[simp] theorem Key.level_withValuesCap (k : Key) (v : List KeyValue) (c : Nat) :
    (k.withValuesCap v c).level = k.level := by cases k; rfl
@[simp] theorem Key.modif_withValuesCap (k : Key) (v : List KeyValue) (c : Nat) :
    (k.withValuesCap v c).modif = k.modif := by cases k; rfl

@[simp] theorem Key.name_withFlags (k : Key) (f : Nat) :
    (k.withFlags f).name = k.name := by cases k; rfl
@[simp] theorem Key.kclass_withFlags (k : Key) (f : Nat) :
    (k.withFlags f).kclass = k.kclass := by cases k; rfl
@[simp] theorem Key.subkeys_withFlags (k : Key) (f : Nat) :
    (k.withFlags f).subkeys = k.subkeys := by cases k; rfl
@[simp] theorem Key.nbSubkeys_withFlags (k : Key) (f : Nat) :
    (k.withFlags f).nbSubkeys = k.nbSubkeys := by cases k; rfl
@[simp] theorem Key.values_withFlags (k : Key) (f : Nat) :
    (k.withFlags f).values = k.values := by cases k; rfl
@[simp] theorem Key.nbValues_withFlags (k : Key) (f : Nat) :
    (k.withFlags f).nbValues = k.nbValues := by cases k; rfl
@[simp] theorem Key.flags_withFlags (k : Key) (f : Nat) :
    (k.withFlags f).flags = f := by cases k; rfl
@[simp] theorem Key.level_withFlags (k : Key) (f : Nat) :
    (k.withFlags f).level = k.level := by cases k; rfl
@[simp] theorem Key.modif_withFlags (k : Key) (f : Nat) :
    (k.withFlags f).modif = k.modif := by cases k; rfl

@[simp] theorem Key.name_withLevel (k : Key) (l : Int) :
    (k.withLevel l).name = k.name := by cases k; rfl
@[simp] theorem Key.kclass_withLevel (k : Key) (l : Int) :
    (k.withLevel l).kclass = k.kclass := by cases k; rfl
@[simp] theorem Key.subkeys_withLevel (k : Key) (l : Int) :
    (k.withLevel l).subkeys = k.subkeys := by cases k; rfl
@[simp] theorem Key.nbSubkeys_withLevel (k : Key) (l : Int) :
    (k.withLevel l).nbSubkeys = k.nbSubkeys := by cases k; rfl
@[simp] theorem Key.values_withLevel (k : Key) (l : Int) :
    (k.withLevel l).values = k.values := by cases k; rfl
@[simp] theorem Key.nbValues_withLevel (k : Key) (l : Int) :
    (k.withLevel l).nbValues = k.nbValues := by cases k; rfl
@[simp] theorem Key.flags_withLevel (k : Key) (l : Int) :
    (k.withLevel l).flags = k.flags := by cases k; rfl
@[simp] theorem Key.level_withLevel (k : Key) (l : Int) :
    (k.withLevel l).level = l := by cases k; rfl
@[simp] theorem Key.modif_withLevel (k : Key) (l : Int) :
    (k.withLevel l).modif = k.modif := by cases k; rfl

@[simp] theorem Key.name_withModif (k : Key) (m : Int) :
    (k.withModif m).name = k.name := by cases k; rfl
@[simp] theorem Key.kclass_withModif (k : Key) (m : Int) :
    (k.withModif m).kclass = k.kclass := by cases k; rfl
@[simp] theorem Key.subkeys_withModif (k : Key) (m : Int) :
    (k.withModif m).subkeys = k.subkeys := by cases k; rfl
@[simp] theorem Key.nbSubkeys_withModif (k : Key) (m : Int) :
    (k.withModif m).nbSubkeys = k.nbSubkeys := by cases k; rfl
@[simp] theorem Key.values_withModif (k : Key) (m : Int) :
    (k.withModif m).values = k.values := by cases k; rfl
@[simp] theorem Key.nbValues_withModif (k : Key) (m : Int) :
    (k.withModif m).nbValues = k.nbValues := by cases k; rfl
@[simp] theorem Key.flags_withModif (k : Key) (m : Int) :
    (k.withModif m).flags = k.flags := by cases k; rfl
@[simp] theorem Key.level_withModif (k : Key) (m : Int) :
    (k.withModif m).level = k.level := by cases k; rfl
@[simp] theorem Key.modif_withModif (k : Key) (m : Int) :
    (k.withModif m).modif = m := by cases k; rfl

@[simp] theorem Key.name_withClass (k : Key) (c : Option Wstr) :
    (k.withClass c).name = k.name := by cases k; rfl
@[simp] theorem Key.kclass_withClass (k : Key) (c : Option Wstr) :
    (k.withClass c).kclass = c := by cases k; rfl
@[simp] theorem Key.subkeys_withClass (k : Key) (c : Option Wstr) :
    (k.withClass c).subkeys = k.subkeys := by cases k; rfl
@[simp] theorem Key.nbSubkeys_withClass (k : Key) (c : Option Wstr) :
    (k.withClass c).nbSubkeys = k.nbSubkeys := by cases k; rfl
@[simp] theorem Key.values_withClass (k : Key) (c : Option Wstr) :
    (k.withClass c).values = k.values := by cases k; rfl
@[simp] theorem Key.nbValues_withClass (k : Key) (c : Option Wstr) :
    (k.withClass c).nbValues = k.nbValues := by cases k; rfl
@[simp] theorem Key.flags_withClass (k : Key) (c : Option Wstr) :
    (k.withClass c).flags = k.flags := by cases k; rfl
@[simp] theorem Key.level_withClass (k : Key) (c : Option Wstr) :
    (k.withClass c).level = k.level := by cases k; rfl
@[simp] theorem Key.modif_withClass (k : Key) (c : Option Wstr) :
    (k.withClass c).modif = k.modif := by cases k; rfl

@[simp] theorem touch_key_name (k : Key) (now clvl : Int) :
    (touch_key k now clvl).name = k.name := by simp [touch_key]
@[simp] theorem touch_key_kclass (k : Key) (now clvl : Int) :
    (touch_key k now clvl).kclass = k.kclass := by simp [touch_key]
@[simp] theorem touch_key_subkeys (k : Key) (now clvl : Int) :
    (touch_key k now clvl).subkeys = k.subkeys := by simp [touch_key]
@[simp] theorem touch_key_values (k : Key) (now clvl : Int) :
    (touch_key k now clvl).values = k.values := by simp [touch_key]
@[simp] theorem touch_key_flags (k : Key) (now clvl : Int) :
    (touch_key k now clvl).flags = k.flags := by simp [touch_key]
@[simp] theorem touch_key_level (k : Key) (now clvl : Int) :
    (touch_key k now clvl).level = max k.level clvl := by simp [touch_key]
@[simp] theorem touch_key_modif (k : Key) (now clvl : Int) :
    (touch_key k now clvl).modif = now := by simp [touch_key]
@[simp] theorem touch_key_nbSubkeys (k : Key) (now clvl : Int) :
    (touch_key k now clvl).nbSubkeys = k.nbSubkeys := by simp [touch_key]
@[simp] theorem touch_key_nbValues (k : Key) (now clvl : Int) :
    (touch_key k now clvl).nbValues = k.nbValues := by simp [touch_key]

theorem query_key_subkey_scan_eq (ks : List Key) : ∀ a b : Nat,
    query_key_subkey_scan ks (a, b) =
      (max a (listMax (ks.map fun s => (s.name.getD []).length)),
       max b (listMax ((ks.filterMap Key.kclass).map List.length))) := by
  induction ks with
  | nil => intro a b; simp [query_key_subkey_scan, listMax]
  | cons k rest ih =>
      intro a b
      cases hc : k.kclass with
      | none =>
          by_cases h : (k.name.getD []).length > a <;>
            simp [query_key_subkey_scan, hc, h, ih, listMax] <;> omega
      | some cl =>
          by_cases h : (k.name.getD []).length > a <;>
          by_cases h2 : cl.length > b <;>
            simp [query_key_subkey_scan, hc, h, h2, ih, listMax] <;> omega

theorem query_key_value_scan_eq (vs : List KeyValue) : ∀ a b : Nat,
    query_key_value_scan vs (a, b) =
      (max a (listMax (vs.map fun v => v.name.length)),
       max b (listMax (vs.map fun v => v.data.length))) := by
  induction vs with
  | nil => intro a b; simp [query_key_value_scan, listMax]
  | cons v rest ih =>
      intro a b
      by_cases h : v.name.length > a <;>
      by_cases h2 : v.data.length > b <;>
        simp [query_key_value_scan, h, h2, ih, listMax] <;> omega

@[simp] theorem grow_values_name (k : Key) : (grow_values k).name = k.name := by
  by_cases h : k.nbValues ≠ 0 <;> simp [grow_values, h]
@[simp] theorem grow_values_kclass (k : Key) :
    (grow_values k).kclass = k.kclass := by
  by_cases h : k.nbValues ≠ 0 <;> simp [grow_values, h]
@[simp] theorem grow_values_subkeys (k : Key) :
    (grow_values k).subkeys = k.subkeys := by
  by_cases h : k.nbValues ≠ 0 <;> simp [grow_values, h]
@[simp] theorem grow_values_nbSubkeys (k : Key) :
    (grow_values k).nbSubkeys = k.nbSubkeys := by
  by_cases h : k.nbValues ≠ 0 <;> simp [grow_values, h]
@[simp] theorem grow_values_values (k : Key) :
    (grow_values k).values = k.values := by
  by_cases h : k.nbValues ≠ 0 <;> simp [grow_values, h]
@[simp] theorem grow_values_flags (k : Key) : (grow_values k).flags = k.flags := by
  by_cases h : k.nbValues ≠ 0 <;> simp [grow_values, h]
@[simp] theorem grow_values_level (k : Key) : (grow_values k).level = k.level := by
  by_cases h : k.nbValues ≠ 0 <;> simp [grow_values, h]
@[simp] theorem grow_values_modif (k : Key) : (grow_values k).modif = k.modif := by
  by_cases h : k.nbValues ≠ 0 <;> simp [grow_values, h]

@[simp] theorem growIte_name (c : Prop) [Decidable c] (k : Key) :
    (if c then grow_values k else k).name = k.name := by
  by_cases h : c <;> simp [h]
@[simp] theorem growIte_kclass (c : Prop) [Decidable c] (k : Key) :
    (if c then grow_values k else k).kclass = k.kclass := by
  by_cases h : c <;> simp [h]
@[simp] theorem growIte_subkeys (c : Prop) [Decidable c] (k : Key) :
    (if c then grow_values k else k).subkeys = k.subkeys := by
  by_cases h : c <;> simp [h]
@[simp] theorem growIte_values (c : Prop) [Decidable c] (k : Key) :
    (if c then grow_values k else k).values = k.values := by
  by_cases h : c <;> simp [h]
@[simp] theorem growIte_flags (c : Prop) [Decidable c] (k : Key) :
    (if c then grow_values k else k).flags = k.flags := by
  by_cases h : c <;> simp [h]
@[simp] theorem growIte_level (c : Prop) [Decidable c] (k : Key) :
    (if c then grow_values k else k).level = k.level := by
  by_cases h : c <;> simp [h]
@[simp] theorem growIte_modif (c : Prop) [Decidable c] (k : Key) :
    (if c then grow_values k else k).modif = k.modif := by
  by_cases h : c <;> simp [h]

theorem find_value_loop_le (fuel : Nat) : ∀ (vs : List KeyValue) (name : Wstr)
    (lo hi : Nat), lo ≤ hi → hi ≤ vs.length →
    (find_value_loop fuel vs name lo hi).2 ≤ vs.length ∧
    ((find_value_loop fuel vs name lo hi).1 = true →
      (find_value_loop fuel vs name lo hi).2 < vs.length) := by
  induction fuel with
  | zero => intro vs name lo hi h1 h2; simp [find_value_loop]; omega
  | succ fuel ih =>
      intro vs name lo hi h1 h2
      rw [find_value_loop]
      by_cases h : lo < hi
      · simp only [h, if_true]
        rcases lt_trichotomy (strcmpiW ((vs.getD ((lo + hi - 1) / 2) default).name) name) 0 with hr | hr | hr
        · rw [if_neg (by omega), if_neg (by omega)]
          exact ih vs name ((lo + hi - 1) / 2 + 1) hi (by omega) h2
        · rw [if_pos hr]
          constructor
          · simp; omega
          · intro; simp; omega
        · rw [if_neg (by omega), if_pos hr]
          exact ih vs name lo ((lo + hi - 1) / 2) (by omega) (by omega)
      · simp [h]; omega

theorem find_value_index_le (k : Key) (name : Wstr) :
    (find_value k name).2 ≤ k.values.length :=
  (find_value_loop_le (k.values.length + 1) k.values name 0 k.values.length
    (Nat.zero_le _) (Nat.le_refl _)).1

theorem listInsertAt_getElem_self {α : Type} (l : List α) (i : Nat)
    (a : α) (h : i ≤ l.length) :
    (listInsertAt l i a)[i]? = some a := by
  have hlen : (l.take i).length = i := by simp [Nat.min_eq_left h]
  simp only [listInsertAt]
  rw [List.getElem?_append_right (by omega)]
  simp [hlen]

theorem listInsertAt_set_self {α : Type} (l : List α) (i : Nat) (a b : α)
    (h : i ≤ l.length) :
    (listInsertAt l i a).set i b = listInsertAt l i b := by
  have hlen : (l.take i).length = i := by simp [Nat.min_eq_left h]
  simp only [listInsertAt]
  rw [List.set_append_right _ _ (by omega)]
  simp [hlen]

theorem charToNat_ofNat (n : Nat) (h : n < 55296) : (Char.ofNat n).toNat = n := by
  have hv : n.isValidChar := Or.inl h
  rw [Char.ofNat, dif_pos hv]
  simp [Char.ofNatAux, Char.toNat, UInt32.toNat, BitVec.toNat_ofNatLt]

theorem charOfNat_ne (n : Nat) (e : Char) (h : n < 55296) (hne : n ≠ e.toNat) :
    Char.ofNat n ≠ e := by
  intro hc
  apply hne
  rw [← charToNat_ofNat n h, hc]

theorem hexStrAux_zero (fuel : Nat) : hexStrAux fuel 0 = [] := by
  cases fuel <;> simp [hexStrAux]

theorem to_hex_hexChar (m : Nat) (h : m < 16) : to_hex (hexChar m) = m := by
  interval_cases m <;> decide

theorem isxdigitChar_hexChar (m : Nat) (h : m < 16) :
    isxdigitChar (hexChar m) = true := by
  interval_cases m <;> decide

theorem hexVal_append (xs : List Char) (d : Char) :
    hexVal (xs ++ [d]) = hexVal xs * 16 + to_hex d := by
  simp [hexVal]

theorem hexStrAux_spec (fuel : Nat) : ∀ n : Nat, n ≤ fuel →
    (∀ d ∈ hexStrAux fuel n, isxdigitChar d = true) ∧
    hexVal (hexStrAux fuel n) = n ∨ n = 0 := by
  induction fuel with
  | zero => intro n h; right; omega
  | succ fuel ih =>
      intro n h
      by_cases h0 : n = 0
      · right; exact h0
      · left
        rw [hexStrAux, if_neg h0]
        have h16 : n / 16 ≤ fuel := by
          have := Nat.div_lt_self (by omega : 0 < n) (by omega : 1 < 16)
          omega
        rcases ih (n / 16) h16 with ⟨hd, hv⟩ | hz
        · constructor
          · intro d hdm
            rcases List.mem_append.mp hdm with hm | hm
            · exact hd d hm
            · simp at hm
              exact hm ▸ isxdigitChar_hexChar _ (Nat.mod_lt _ (by omega))
          · rw [hexVal_append, hv, to_hex_hexChar _ (Nat.mod_lt _ (by omega))]
            omega
        · have hnil : hexStrAux fuel (n / 16) = [] := by
            rw [hz]; exact hexStrAux_zero fuel
          rw [hnil]
          have hlt : n < 16 := by
            by_contra hc
            push_neg at hc
            have := Nat.div_le_div_right (c := 16) hc
            simp at this
            omega
          constructor
          · intro d hdm
            simp at hdm
            exact hdm ▸ isxdigitChar_hexChar _ (Nat.mod_lt _ (by omega))
          · simp [hexVal]
            rw [to_hex_hexChar _ (Nat.mod_lt _ (by omega))]
            omega

theorem hexStrAux_length (fuel : Nat) : ∀ n k : Nat, n ≤ fuel → n < 16 ^ k →
    (hexStrAux fuel n).length ≤ k := by
  induction fuel with
  | zero => intro n k h hk; simp [hexStrAux]
  | succ fuel ih =>
      intro n k h hk
      by_cases h0 : n = 0
      · simp [hexStrAux, h0]
      · rw [hexStrAux, if_neg h0]
        have hk1 : 1 ≤ k := by
          by_contra hc
          push_neg at hc
          interval_cases k
          simp at hk
          omega
        have h16 : n / 16 ≤ fuel := by
          have := Nat.div_lt_self (by omega : 0 < n) (by omega : 1 < 16)
          omega
        have hdiv : n / 16 < 16 ^ (k - 1) := by
          rw [Nat.div_lt_iff_lt_mul (by omega : 0 < 16)]
          have hpow : (16 : Nat) ^ (k - 1) * 16 = 16 ^ k := by
            rw [← Nat.pow_succ]
            congr 1
            omega
          rw [hpow]
          exact hk
        have := ih (n / 16) (k - 1) h16 hdiv
        simp only [List.length_append, List.length_cons, List.length_nil]
        omega

theorem hexStr_spec (n : Nat) :
    (∀ d ∈ hexStr n, isxdigitChar d = true) ∧ hexVal (hexStr n) = n ∧
    0 < (hexStr n).length := by
  by_cases h0 : n = 0
  · subst h0; refine ⟨?_, rfl, by simp [hexStr]⟩
    intro d hd
    simp [hexStr] at hd
    subst hd; decide
  · rw [hexStr, if_neg h0]
    rcases hexStrAux_spec n n (Nat.le_refl _) with ⟨hd, hv⟩ | hz
    · refine ⟨hd, hv, ?_⟩
      by_contra hc
      push_neg at hc
      interval_cases hlen : (hexStrAux n n).length
      rw [List.length_eq_zero] at hlen
      rw [hlen] at hv
      simp [hexVal] at hv
      omega
    · exact absurd hz h0

theorem hexStr_length_le (n : Nat) (h : n < 65536) : (hexStr n).length ≤ 4 := by
  by_cases h0 : n = 0
  · simp [hexStr, h0]
  · rw [hexStr, if_neg h0]
    exact hexStrAux_length n n 4 (Nat.le_refl _) (by norm_num; omega)

theorem hexVal_pad (k : Nat) (l : List Char) :
    hexVal (List.replicate k '0' ++ l) = hexVal l := by
  induction k with
  | zero => rfl
  | succ k ih =>
      simp only [List.replicate_succ, List.cons_append]
      show hexVal (List.replicate k '0' ++ l) = hexVal l
      exact ih

theorem hex4_spec (n : Nat) (h : n < 65536) :
    (∀ d ∈ hex4 n, isxdigitChar d = true) ∧ hexVal (hex4 n) = n ∧
    (hex4 n).length = 4 := by
  rcases hexStr_spec n with ⟨hd, hv, hp⟩
  have hle := hexStr_length_le n h
  refine ⟨?_, ?_, ?_⟩
  · intro d hdm
    rcases List.mem_append.mp hdm with hm | hm
    · rw [List.eq_of_mem_replicate hm]
      decide
    · exact hd d hm
  · rw [hex4, leftPad, hexVal_pad, hv]
  · simp [hex4, leftPad]
    omega

theorem octChar_toNat (m : Nat) (h : m < 8) : (octChar m).toNat = 48 + m := by
  rw [octChar, charToNat_ofNat _ (by omega)]

theorem isOctChar_octChar (m : Nat) (h : m < 8) :
    isOctChar (octChar m) = true := by
  interval_cases m <;> decide

theorem octVal_append (xs : List Char) (d : Char) :
    octVal (xs ++ [d]) = octVal xs * 8 + (d.toNat - 48) := by
  simp [octVal]

theorem octStrAux_zero (fuel : Nat) : octStrAux fuel 0 = [] := by
  cases fuel <;> simp [octStrAux]

theorem octStrAux_spec (fuel : Nat) : ∀ n : Nat, n ≤ fuel →
    (∀ d ∈ octStrAux fuel n, isOctChar d = true) ∧
    octVal (octStrAux fuel n) = n ∨ n = 0 := by
  induction fuel with
  | zero => intro n h; right; omega
  | succ fuel ih =>
      intro n h
      by_cases h0 : n = 0
      · right; exact h0
      · left
        rw [octStrAux, if_neg h0]
        have h8 : n / 8 ≤ fuel := by
          have := Nat.div_lt_self (by omega : 0 < n) (by omega : 1 < 8)
          omega
        have hm8 : n % 8 < 8 := Nat.mod_lt _ (by omega)
        rcases ih (n / 8) h8 with ⟨hd, hv⟩ | hz
        · constructor
          · intro d hdm
            rcases List.mem_append.mp hdm with hm | hm
            · exact hd d hm
            · simp at hm
              exact hm ▸ isOctChar_octChar _ hm8
          · rw [octVal_append, hv, octChar_toNat _ hm8]
            omega
        · have hnil : octStrAux fuel (n / 8) = [] := by
            rw [hz]; exact octStrAux_zero fuel
          rw [hnil]
          have hlt : n < 8 := by
            by_contra hc
            push_neg at hc
            have := Nat.div_le_div_right (c := 8) hc
            simp at this
            omega
          constructor
          · intro d hdm
            simp at hdm
            exact hdm ▸ isOctChar_octChar _ hm8
          · simp [octVal]
            rw [octChar_toNat _ hm8]
            omega

theorem octStrAux_length (fuel : Nat) : ∀ n k : Nat, n ≤ fuel → n < 8 ^ k →
    (octStrAux fuel n).length ≤ k := by
  induction fuel with
  | zero => intro n k h hk; simp [octStrAux]
  | succ fuel ih =>
      intro n k h hk
      by_cases h0 : n = 0
      · simp [octStrAux, h0]
      · rw [octStrAux, if_neg h0]
        have hk1 : 1 ≤ k := by
          by_contra hc
          push_neg at hc
          interval_cases k
          simp at hk
          omega
        have h8 : n / 8 ≤ fuel := by
          have := Nat.div_lt_self (by omega : 0 < n) (by omega : 1 < 8)
          omega
        have hdiv : n / 8 < 8 ^ (k - 1) := by
          rw [Nat.div_lt_iff_lt_mul (by omega : 0 < 8)]
          have hpow : (8 : Nat) ^ (k - 1) * 8 = 8 ^ k := by
            rw [← Nat.pow_succ]
            congr 1
            omega
          rw [hpow]
          exact hk
        have := ih (n / 8) (k - 1) h8 hdiv
        simp only [List.length_append, List.length_cons, List.length_nil]
        omega

theorem octStr_spec (n : Nat) :
    (∀ d ∈ octStr n, isOctChar d = true) ∧ octVal (octStr n) = n ∧
    0 < (octStr n).length := by
  by_cases h0 : n = 0
  · subst h0; refine ⟨?_, rfl, by simp [octStr]⟩
    intro d hd
    simp [octStr] at hd
    subst hd; decide
  · rw [octStr, if_neg h0]
    rcases octStrAux_spec n n (Nat.le_refl _) with ⟨hd, hv⟩ | hz
    · refine ⟨hd, hv, ?_⟩
      by_contra hc
      push_neg at hc
      interval_cases hlen : (octStrAux n n).length
      rw [List.length_eq_zero] at hlen
      rw [hlen] at hv
      simp [octVal] at hv
      omega
    · exact absurd hz h0

theorem octStr_length_le (n : Nat) (h : n < 512) : (octStr n).length ≤ 3 := by
  by_cases h0 : n = 0
  · simp [octStr, h0]
  · rw [octStr, if_neg h0]
    exact octStrAux_length n n 3 (Nat.le_refl _) (by norm_num; omega)

theorem octVal_pad (k : Nat) (l : List Char) :
    octVal (List.replicate k '0' ++ l) = octVal l := by
  induction k with
  | zero => rfl
  | succ k ih =>
      simp only [List.replicate_succ, List.cons_append]
      show octVal (List.replicate k '0' ++ l) = octVal l
      exact ih

theorem oct3_spec (n : Nat) (h : n < 512) :
    (∀ d ∈ oct3 n, isOctChar d = true) ∧ octVal (oct3 n) = n ∧
    (oct3 n).length = 3 := by
  rcases octStr_spec n with ⟨hd, hv, hp⟩
  have hle := octStr_length_le n h
  refine ⟨?_, ?_, ?_⟩
  · intro d hdm
    rcases List.mem_append.mp hdm with hm | hm
    · rw [List.eq_of_mem_replicate hm]
      decide
    · exact hd d hm
  · rw [oct3, leftPad, octVal_pad, hv]
  · simp [oct3, leftPad]
    omega

theorem parse_xesc_digits (ds r : List Char)
    (hd : ∀ d ∈ ds, isxdigitChar d = true) (h1 : 1 ≤ ds.length)
    (h4 : ds.length ≤ 4)
    (hstop : ds.length = 4 ∨ isxdigitChar (r.headD 'Z') = false) :
    parse_xesc (ds ++ r) = (hexVal ds, r) := by
  rcases ds with _ | ⟨d1, ds⟩
  · simp at h1
  rcases ds with _ | ⟨d2, ds⟩
  · have hx1 := hd d1 (by simp)
    have hr : isxdigitChar (r.headD 'Z') = false := by
      rcases hstop with hs | hs
      · simp at hs
      · exact hs
    rcases r with _ | ⟨c2, l2⟩ <;>
      simp_all [parse_xesc, hexVal]
  rcases ds with _ | ⟨d3, ds⟩
  · have hx1 := hd d1 (by simp)
    have hx2 := hd d2 (by simp)
    have hr : isxdigitChar (r.headD 'Z') = false := by
      rcases hstop with hs | hs
      · simp at hs
      · exact hs
    rcases r with _ | ⟨c3, l3⟩ <;>
      simp_all [parse_xesc, hexVal]
  rcases ds with _ | ⟨d4, ds⟩
  · have hx1 := hd d1 (by simp)
    have hx2 := hd d2 (by simp)
    have hx3 := hd d3 (by simp)
    have hr : isxdigitChar (r.headD 'Z') = false := by
      rcases hstop with hs | hs
      · simp at hs
      · exact hs
    rcases r with _ | ⟨c4, l4⟩ <;>
      simp_all [parse_xesc, hexVal]
  rcases ds with _ | ⟨d5, ds⟩
  · have hx1 := hd d1 (by simp)
    have hx2 := hd d2 (by simp)
    have hx3 := hd d3 (by simp)
    have hx4 := hd d4 (by simp)
    simp_all [parse_xesc, hexVal]
  · simp at h4

theorem parse_oesc_digits (d : Char) (ds r : List Char)
    (hd : ∀ c ∈ ds, isOctChar c = true)
    (h2 : ds.length ≤ 2)
    (hstop : ds.length = 2 ∨ isOctChar (r.headD 'Z') = false) :
    parse_oesc d (ds ++ r) = (octVal (d :: ds), r) := by
  rcases ds with _ | ⟨c2, ds⟩
  · have hr : isOctChar (r.headD 'Z') = false := by
      rcases hstop with hs | hs
      · simp at hs
      · exact hs
    rcases r with _ | ⟨x2, l2⟩ <;>
      simp_all [parse_oesc, octVal]
  rcases ds with _ | ⟨c3, ds⟩
  · have ho2 := hd c2 (by simp)
    have hr : isOctChar (r.headD 'Z') = false := by
      rcases hstop with hs | hs
      · simp at hs
      · exact hs
    rcases r with _ | ⟨x3, l3⟩ <;>
      simp_all [parse_oesc, octVal]
  rcases ds with _ | ⟨c4, ds⟩
  · have ho2 := hd c2 (by simp)
    have ho3 := hd c3 (by simp)
    simp_all [parse_oesc, octVal]
    ring
  · simp at h2

theorem goodDelim_elim (e : Char) (h : goodDelim e = true) :
    32 ≤ e.toNat ∧ e.toNat ≤ 127 ∧ isxdigitN e.toNat = false ∧
    e ≠ 'n' ∧ e ≠ 'r' ∧ e ≠ 't' ∧ e ≠ 'v' ∧ e ≠ 'x' ∧ e ≠ '\\' :=
  of_decide_eq_true h

theorem goodDelim_range (e : Char) (h : goodDelim e = true) :
    32 ≤ e.toNat ∧ e.toNat ≤ 127 :=
  ⟨(goodDelim_elim e h).1, (goodDelim_elim e h).2.1⟩

theorem goodDelim_not_xdigit (e : Char) (h : goodDelim e = true) :
    isxdigitChar e = false :=
  (goodDelim_elim e h).2.2.1

theorem goodDelim_not_oct (e : Char) (h : goodDelim e = true) :
    isOctChar e = false := by
  have hx := goodDelim_not_xdigit e h
  simp [isxdigitChar, isxdigitN] at hx
  simp [isOctChar]
  omega

theorem goodDelim_ne_backslash (e : Char) (h : goodDelim e = true) :
    e ≠ '\\' :=
  (goodDelim_elim e h).2.2.2.2.2.2.2.2

theorem goodDelim_toNat_ne_zero (e : Char) (h : goodDelim e = true) :
    e.toNat ≠ 0 := by
  have := goodDelim_range e h
  omega

theorem parse_esc_step_good (e : Char) (h : goodDelim e = true)
    (l : List Char) : parse_esc_step e l = (e.toNat, l) := by
  obtain ⟨h1, h2, hx, hn, hr, ht, hv, hxx, hbs⟩ := goodDelim_elim e h
  simp [isxdigitN] at hx
  have ha : e ≠ 'a' := fun hc => by subst hc; revert hx; decide
  have hb : e ≠ 'b' := fun hc => by subst hc; revert hx; decide
  have hee : e ≠ 'e' := fun hc => by subst hc; revert hx; decide
  have hf : e ≠ 'f' := fun hc => by subst hc; revert hx; decide
  have ho : isOctChar e = false := by simp [isOctChar]; omega
  simp [parse_esc_step, ha, hb, hee, hf, hn, hr, ht, hv, hxx, ho]

theorem parse_esc_step_backslash (l : List Char) :
    parse_esc_step '\\' l = (92, l) := rfl

theorem parse_esc_step_oct (d : Char) (l : List Char)
    (h : isOctChar d = true) : parse_esc_step d l = parse_oesc d l := by
  simp [isOctChar] at h
  have ha : d ≠ 'a' := fun hc => by subst hc; revert h; decide
  have hb : d ≠ 'b' := fun hc => by subst hc; revert h; decide
  have hee : d ≠ 'e' := fun hc => by subst hc; revert h; decide
  have hf : d ≠ 'f' := fun hc => by subst hc; revert h; decide
  have hn : d ≠ 'n' := fun hc => by subst hc; revert h; decide
  have hr : d ≠ 'r' := fun hc => by subst hc; revert h; decide
  have ht : d ≠ 't' := fun hc => by subst hc; revert h; decide
  have hv : d ≠ 'v' := fun hc => by subst hc; revert h; decide
  have hxx : d ≠ 'x' := fun hc => by subst hc; revert h; decide
  have ho : isOctChar d = true := by simp [isOctChar]; omega
  simp [parse_esc_step, ha, hb, hee, hf, hn, hr, ht, hv, hxx, ho]

theorem parse_esc_step_x (l : List Char) :
    parse_esc_step 'x' l = parse_xesc l := rfl

theorem out_head_not_xdigit (s : Wstr) (e1 e2 : Char) (tail : List Char)
    (h2 : goodDelim e2 = true)
    (hs : ¬(s ≠ [] ∧ s.headD 0 < 128 ∧ isxdigitN (s.headD 0) = true)) :
    isxdigitChar ((dump_strW s e1 e2 ++ e2 :: tail).headD 'Z') = false := by
  cases s with
  | nil =>
      simp only [dump_strW, List.nil_append, List.headD_cons]
      exact goodDelim_not_xdigit e2 h2
  | cons c rest =>
      rw [dump_strW]
      by_cases hc1 : 127 < c
      · rw [if_pos hc1]
        by_cases hn : rest ≠ [] ∧ rest.headD 0 < 128 ∧
            isxdigitN (rest.headD 0) = true
        · rw [if_pos hn]
          simp only [List.cons_append, List.headD_cons]
          decide
        · rw [if_neg hn]
          simp only [List.cons_append, List.headD_cons]
          decide
      · rw [if_neg hc1]
        by_cases hc2 : c < 32
        · rw [if_pos hc2]
          by_cases hc3 : c = 0 ∧ rest = []
          · rw [if_pos hc3]
            simp only [hc3.2, dump_strW, List.nil_append, List.headD_cons]
            exact goodDelim_not_xdigit e2 h2
          · rw [if_neg hc3]
            by_cases hc4 : escTable c ≠ '.'
            · rw [if_pos hc4]
              simp only [List.cons_append, List.headD_cons]
              decide
            · rw [if_neg hc4]
              by_cases hc5 : rest ≠ [] ∧ 48 ≤ rest.headD 0 ∧ rest.headD 0 ≤ 55
              · rw [if_pos hc5]
                simp only [List.cons_append, List.headD_cons]
                decide
              · rw [if_neg hc5]
                simp only [List.cons_append, List.headD_cons]
                decide
        · rw [if_neg hc2]
          by_cases hc6 : c = 92 ∨ c = e1.toNat ∨ c = e2.toNat
          · rw [if_pos hc6]
            simp only [List.cons_append, List.headD_cons]
            decide
          · rw [if_neg hc6]
            simp only [List.cons_append, List.headD_cons]
            have hcx : isxdigitN c = false := by
              by_contra hcc
              simp only [Bool.not_eq_false] at hcc
              exact hs ⟨by simp, by simp; omega, by simpa using hcc⟩
            show isxdigitN (Char.ofNat c).toNat = false
            rw [charToNat_ofNat c (by omega)]
            exact hcx

theorem out_head_not_oct (s : Wstr) (e1 e2 : Char) (tail : List Char)
    (h2 : goodDelim e2 = true)
    (hs : ¬(s ≠ [] ∧ 48 ≤ s.headD 0 ∧ s.headD 0 ≤ 55)) :
    isOctChar ((dump_strW s e1 e2 ++ e2 :: tail).headD 'Z') = false := by
  cases s with
  | nil =>
      simp only [dump_strW, List.nil_append, List.headD_cons]
      exact goodDelim_not_oct e2 h2
  | cons c rest =>
      rw [dump_strW]
      by_cases hc1 : 127 < c
      · rw [if_pos hc1]
        by_cases hn : rest ≠ [] ∧ rest.headD 0 < 128 ∧
            isxdigitN (rest.headD 0) = true
        · rw [if_pos hn]
          simp only [List.cons_append, List.headD_cons]
          decide
        · rw [if_neg hn]
          simp only [List.cons_append, List.headD_cons]
          decide
      · rw [if_neg hc1]
        by_cases hc2 : c < 32
        · rw [if_pos hc2]
          by_cases hc3 : c = 0 ∧ rest = []
          · rw [if_pos hc3]
            simp only [hc3.2, dump_strW, List.nil_append, List.headD_cons]
            exact goodDelim_not_oct e2 h2
          · rw [if_neg hc3]
            by_cases hc4 : escTable c ≠ '.'
            · rw [if_pos hc4]
              simp only [List.cons_append, List.headD_cons]
              decide
            · rw [if_neg hc4]
              by_cases hc5 : rest ≠ [] ∧ 48 ≤ rest.headD 0 ∧ rest.headD 0 ≤ 55
              · rw [if_pos hc5]
                simp only [List.cons_append, List.headD_cons]
                decide
              · rw [if_neg hc5]
                simp only [List.cons_append, List.headD_cons]
                decide
        · rw [if_neg hc2]
          by_cases hc6 : c = 92 ∨ c = e1.toNat ∨ c = e2.toNat
          · rw [if_pos hc6]
            simp only [List.cons_append, List.headD_cons]
            decide
          · rw [if_neg hc6]
            simp only [List.cons_append, List.headD_cons]
            have hcx : ¬(48 ≤ c ∧ c ≤ 55) := fun hcc =>
              hs ⟨by simp, by simp; omega, by simp; omega⟩
            show decide (48 ≤ (Char.ofNat c).toNat ∧ (Char.ofNat c).toNat ≤ 55)
                  = false
            rw [charToNat_ofNat c (by omega)]
            simpa using hcx

theorem parse_step_lit (fuel : Nat) (ch : Char) (src : List Char) (e : Char)
    (s : Wstr) (t : List Char) (h0 : ch.toNat ≠ 0) (h1 : ch ≠ e)
    (h2 : ch ≠ '\\') (hp : parse_strW_fuel fuel src e = some (s, t)) :
    parse_strW_fuel (fuel + 1) (ch :: src) e = some (ch.toNat :: s, t) := by
  simp [parse_strW_fuel, h0, h1, h2, hp]

theorem parse_step_esc (fuel : Nat) (d : Char) (rest2 : List Char) (e : Char)
    (s : Wstr) (t : List Char) (he : ('\\' : Char) ≠ e)
    (hp : parse_strW_fuel fuel (parse_esc_step d rest2).2 e = some (s, t)) :
    parse_strW_fuel (fuel + 1) ('\\' :: d :: rest2) e
      = some ((parse_esc_step d rest2).1 :: s, t) := by
  simp [parse_strW_fuel, he, hp]

theorem parse_step_lit2 (fuel : Nat) (ch : Char) (src : List Char) (e : Char)
    (h0 : ch.toNat ≠ 0) (h1 : ch ≠ e) (h2 : ch ≠ '\\') :
    parse_strW_fuel (fuel + 1) (ch :: src) e
      = Option.map (fun p => (ch.toNat :: p.1, p.2))
          (parse_strW_fuel fuel src e) := by
  rcases hp : parse_strW_fuel fuel src e with _ | ⟨s, t⟩ <;>
    simp [parse_strW_fuel, h0, h1, h2, hp]

theorem parse_step_esc2 (fuel : Nat) (d : Char) (rest2 : List Char) (e : Char)
    (he : ('\\' : Char) ≠ e) :
    parse_strW_fuel (fuel + 1) ('\\' :: d :: rest2) e
      = Option.map (fun p => ((parse_esc_step d rest2).1 :: p.1, p.2))
          (parse_strW_fuel fuel (parse_esc_step d rest2).2 e) := by
  rcases hp : parse_strW_fuel fuel (parse_esc_step d rest2).2 e
    with _ | ⟨s, t⟩ <;> simp [parse_strW_fuel, he, hp]

theorem isOctChar_imp_isxdigitChar (d : Char) (h : isOctChar d = true) :
    isxdigitChar d = true := by
  simp only [isOctChar, decide_eq_true_eq] at h
  simp only [isxdigitChar, isxdigitN, decide_eq_true_eq]
  omega

theorem out_head_not_xdigit2 (s : Wstr) (e1 e2 : Char) (cont : List Char)
    (hc : isxdigitChar (cont.headD 'Z') = false)
    (hs : ¬(s ≠ [] ∧ s.headD 0 < 128 ∧ isxdigitN (s.headD 0) = true)) :
    isxdigitChar ((dump_strW s e1 e2 ++ cont).headD 'Z') = false := by
  cases s with
  | nil =>
      simpa only [dump_strW, List.nil_append] using hc
  | cons c rest =>
      rw [dump_strW]
      by_cases hc1 : 127 < c
      · rw [if_pos hc1]
        by_cases hn : rest ≠ [] ∧ rest.headD 0 < 128 ∧
            isxdigitN (rest.headD 0) = true
        · rw [if_pos hn]
          simp only [List.cons_append, List.headD_cons]
          decide
        · rw [if_neg hn]
          simp only [List.cons_append, List.headD_cons]
          decide
      · rw [if_neg hc1]
        by_cases hc2 : c < 32
        · rw [if_pos hc2]
          by_cases hc3 : c = 0 ∧ rest = []
          · rw [if_pos hc3]
            simpa only [hc3.2, dump_strW, List.nil_append] using hc
          · rw [if_neg hc3]
            by_cases hc4 : escTable c ≠ '.'
            · rw [if_pos hc4]
              simp only [List.cons_append, List.headD_cons]
              decide
            · rw [if_neg hc4]
              by_cases hc5 : rest ≠ [] ∧ 48 ≤ rest.headD 0 ∧ rest.headD 0 ≤ 55
              · rw [if_pos hc5]
                simp only [List.cons_append, List.headD_cons]
                decide
              · rw [if_neg hc5]
                simp only [List.cons_append, List.headD_cons]
                decide
        · rw [if_neg hc2]
          by_cases hc6 : c = 92 ∨ c = e1.toNat ∨ c = e2.toNat
          · rw [if_pos hc6]
            simp only [List.cons_append, List.headD_cons]
            decide
          · rw [if_neg hc6]
            simp only [List.cons_append, List.headD_cons]
            have hcx : isxdigitN c = false := by
              by_contra hcc
              simp only [Bool.not_eq_false] at hcc
              exact hs ⟨by simp, by simp; omega, by simpa using hcc⟩
            show isxdigitN (Char.ofNat c).toNat = false
            rw [charToNat_ofNat c (by omega)]
            exact hcx

theorem out_head_not_oct2 (s : Wstr) (e1 e2 : Char) (cont : List Char)
    (hc : isxdigitChar (cont.headD 'Z') = false)
    (hs : ¬(s ≠ [] ∧ 48 ≤ s.headD 0 ∧ s.headD 0 ≤ 55)) :
    isOctChar ((dump_strW s e1 e2 ++ cont).headD 'Z') = false := by
  cases s with
  | nil =>
      simp only [dump_strW, List.nil_append]
      by_contra hcc
      simp only [Bool.not_eq_false] at hcc
      rw [isOctChar_imp_isxdigitChar _ hcc] at hc
      exact absurd hc (by simp)
  | cons c rest =>
      rw [dump_strW]
      by_cases hc1 : 127 < c
      · rw [if_pos hc1]
        by_cases hn : rest ≠ [] ∧ rest.headD 0 < 128 ∧
            isxdigitN (rest.headD 0) = true
        · rw [if_pos hn]
          simp only [List.cons_append, List.headD_cons]
          decide
        · rw [if_neg hn]
          simp only [List.cons_append, List.headD_cons]
          decide
      · rw [if_neg hc1]
        by_cases hc2 : c < 32
        · rw [if_pos hc2]
          by_cases hc3 : c = 0 ∧ rest = []
          · rw [if_pos hc3]
            simp only [hc3.2, dump_strW, List.nil_append]
            by_contra hcc
            simp only [Bool.not_eq_false] at hcc
            rw [isOctChar_imp_isxdigitChar _ hcc] at hc
            exact absurd hc (by simp)
          · rw [if_neg hc3]
            by_cases hc4 : escTable c ≠ '.'
            · rw [if_pos hc4]
              simp only [List.cons_append, List.headD_cons]
              decide
            · rw [if_neg hc4]
              by_cases hc5 : rest ≠ [] ∧ 48 ≤ rest.headD 0 ∧ rest.headD 0 ≤ 55
              · rw [if_pos hc5]
                simp only [List.cons_append, List.headD_cons]
                decide
              · rw [if_neg hc5]
                simp only [List.cons_append, List.headD_cons]
                decide
        · rw [if_neg hc2]
          by_cases hc6 : c = 92 ∨ c = e1.toNat ∨ c = e2.toNat
          · rw [if_pos hc6]
            simp only [List.cons_append, List.headD_cons]
            decide
          · rw [if_neg hc6]
            simp only [List.cons_append, List.headD_cons]
            have hcx : ¬(48 ≤ c ∧ c ≤ 55) := fun hcc =>
              hs ⟨by simp, by simp; omega, by simp; omega⟩
            show decide (48 ≤ (Char.ofNat c).toNat ∧ (Char.ofNat c).toNat ≤ 55)
                  = false
            rw [charToNat_ofNat c (by omega)]
            simpa using hcx

theorem noTrailNul_tail (c : Nat) (rest : Wstr)
    (h : (c :: rest).getLast? ≠ some 0) : rest.getLast? ≠ some 0 := by
  cases rest with
  | nil => simp
  | cons r rs => exact h

theorem dump_length_ge (e1 e2 : Char) : ∀ s : Wstr,
    s.getLast? ≠ some 0 → s.length ≤ (dump_strW s e1 e2).length := by
  intro s
  induction s with
  | nil => simp [dump_strW]
  | cons c rest ih =>
      intro hlast
      rw [dump_strW]
      have hr := ih (noTrailNul_tail c rest hlast)
      have henc : ∀ l : List Char, l ≠ [] →
          (c :: rest).length ≤ (l ++ dump_strW rest e1 e2).length := by
        intro l hl
        have : 1 ≤ l.length := by
          cases l with
          | nil => exact absurd rfl hl
          | cons a b => simp
        simp only [List.length_append, List.length_cons]
        omega
      by_cases hc1 : 127 < c
      · rw [if_pos hc1]
        by_cases hn : rest ≠ [] ∧ rest.headD 0 < 128 ∧
            isxdigitN (rest.headD 0) = true
        · rw [if_pos hn]; exact henc _ (by simp)
        · rw [if_neg hn]; exact henc _ (by simp)
      · rw [if_neg hc1]
        by_cases hc2 : c < 32
        · rw [if_pos hc2]
          by_cases hc3 : c = 0 ∧ rest = []
          · exfalso
            apply hlast
            rw [hc3.1, hc3.2]
            rfl
          · rw [if_neg hc3]
            by_cases hc4 : escTable c ≠ '.'
            · rw [if_pos hc4]; exact henc _ (by simp)
            · rw [if_neg hc4]
              by_cases hc5 : rest ≠ [] ∧ 48 ≤ rest.headD 0 ∧ rest.headD 0 ≤ 55
              · rw [if_pos hc5]; exact henc _ (by simp)
              · rw [if_neg hc5]; exact henc _ (by simp)
        · rw [if_neg hc2]
          by_cases hc6 : c = 92 ∨ c = e1.toNat ∨ c = e2.toNat
          · rw [if_pos hc6]; exact henc _ (by simp)
          · rw [if_neg hc6]; exact henc _ (by simp)

theorem parse_dump_append (e1 e2 : Char) (h1 : goodDelim e1 = true)
    (h2 : goodDelim e2 = true) : ∀ (s : Wstr) (cont : List Char) (fuel : Nat),
    (∀ c ∈ s, c < 65536) → s.getLast? ≠ some 0 →
    isxdigitChar (cont.headD 'Z') = false →
    parse_strW_fuel (s.length + fuel) (dump_strW s e1 e2 ++ cont) e2
      = Option.map (fun p => (s ++ p.1, p.2)) (parse_strW_fuel fuel cont e2) := by
  intro s
  induction s with
  | nil =>
      intro cont fuel _ _ _
      rcases hp : parse_strW_fuel fuel cont e2 with _ | ⟨t, r⟩ <;>
        simp [dump_strW, hp]
  | cons c rest ih =>
      intro cont fuel hcs hlast hx
      have hc65 : c < 65536 := hcs c (by simp)
      have hp : parse_strW_fuel (rest.length + fuel)
          (dump_strW rest e1 e2 ++ cont) e2
          = Option.map (fun p => (rest ++ p.1, p.2))
              (parse_strW_fuel fuel cont e2) :=
        ih cont fuel (fun x hxm => hcs x (by simp [hxm]))
          (noTrailNul_tail c rest hlast) hx
      have hbs : ('\\' : Char) ≠ e2 :=
        Ne.symm (goodDelim_ne_backslash e2 h2)
      have hflen : (c :: rest).length + fuel = rest.length + fuel + 1 := by
        simp; omega
      rw [dump_strW, hflen]
      by_cases hc1 : 127 < c
      · rw [if_pos hc1]
        by_cases hn : rest ≠ [] ∧ rest.headD 0 < 128 ∧
            isxdigitN (rest.headD 0) = true
        · rw [if_pos hn]
          obtain ⟨hxd, hxv, hxl⟩ := hex4_spec c hc65
          have hxe : parse_esc_step 'x'
              (hex4 c ++ (dump_strW rest e1 e2 ++ cont))
                = (c, dump_strW rest e1 e2 ++ cont) := by
            rw [parse_esc_step_x,
                parse_xesc_digits _ _ hxd (by omega) (by omega)
                  (Or.inl hxl), hxv]
          have hres := parse_step_esc2 (rest.length + fuel) 'x'
            (hex4 c ++ (dump_strW rest e1 e2 ++ cont)) e2 hbs
          rw [hxe, hp] at hres
          rcases hpc : parse_strW_fuel fuel cont e2 with _ | ⟨t, r⟩ <;>
            rw [hpc] at hres <;>
            simpa [List.append_assoc] using hres
        · rw [if_neg hn]
          obtain ⟨hxd, hxv, hxl⟩ := hexStr_spec c
          have hxle := hexStr_length_le c hc65
          have hstop : isxdigitChar
              ((dump_strW rest e1 e2 ++ cont).headD 'Z') = false :=
            out_head_not_xdigit2 rest e1 e2 cont hx hn
          have hxe : parse_esc_step 'x'
              (hexStr c ++ (dump_strW rest e1 e2 ++ cont))
                = (c, dump_strW rest e1 e2 ++ cont) := by
            rw [parse_esc_step_x,
                parse_xesc_digits _ _ hxd (by omega) (by omega)
                  (Or.inr hstop), hxv]
          have hres := parse_step_esc2 (rest.length + fuel) 'x'
            (hexStr c ++ (dump_strW rest e1 e2 ++ cont)) e2 hbs
          rw [hxe, hp] at hres
          rcases hpc : parse_strW_fuel fuel cont e2 with _ | ⟨t, r⟩ <;>
            rw [hpc] at hres <;>
            simpa [List.append_assoc] using hres
      · rw [if_neg hc1]
        by_cases hc2 : c < 32
        · rw [if_pos hc2]
          by_cases hc3 : c = 0 ∧ rest = []
          · exfalso
            apply hlast
            rw [hc3.1, hc3.2]
            rfl
          · rw [if_neg hc3]
            by_cases hc4 : escTable c ≠ '.'
            · rw [if_pos hc4]
              have hnamed : ∀ X : List Char,
                  parse_esc_step (escTable c) X = (c, X) := by
                interval_cases c <;>
                  first
                    | (exfalso; exact hc4 rfl)
                    | (intro X; rfl)
              have hres := parse_step_esc2 (rest.length + fuel) (escTable c)
                (dump_strW rest e1 e2 ++ cont) e2 hbs
              rw [hnamed, hp] at hres
              rcases hpc : parse_strW_fuel fuel cont e2 with _ | ⟨t, r⟩ <;>
                rw [hpc] at hres <;>
                simpa using hres
            · rw [if_neg hc4]
              by_cases hc5 : rest ≠ [] ∧ 48 ≤ rest.headD 0 ∧
                  rest.headD 0 ≤ 55
              · rw [if_pos hc5]
                obtain ⟨hod, hov, holen⟩ := oct3_spec c (by omega)
                rcases hoc : oct3 c with _ | ⟨d0, ds⟩
                · rw [hoc] at holen; simp at holen
                · have hds : ds.length = 2 := by
                    rw [hoc] at holen; simp at holen; omega
                  have hstep : parse_esc_step d0
                      (ds ++ (dump_strW rest e1 e2 ++ cont))
                        = (c, dump_strW rest e1 e2 ++ cont) := by
                    rw [parse_esc_step_oct d0 _
                          (hod d0 (by rw [hoc]; simp)),
                        parse_oesc_digits d0 ds _
                          (fun x hxm => hod x (by rw [hoc]; simp [hxm]))
                          (by omega) (Or.inl hds)]
                    rw [show d0 :: ds = oct3 c from hoc.symm, hov]
                  have hres := parse_step_esc2 (rest.length + fuel) d0
                    (ds ++ (dump_strW rest e1 e2 ++ cont)) e2 hbs
                  rw [hstep, hp] at hres
                  rcases hpc : parse_strW_fuel fuel cont e2 with _ | ⟨t, r⟩ <;>
                    rw [hpc] at hres <;>
                    simpa [List.append_assoc] using hres
              · rw [if_neg hc5]
                obtain ⟨hod, hov, holen⟩ := octStr_spec c
                have hole := octStr_length_le c (by omega)
                have hstop : isOctChar
                    ((dump_strW rest e1 e2 ++ cont).headD 'Z') = false :=
                  out_head_not_oct2 rest e1 e2 cont hx hc5
                rcases hoc : octStr c with _ | ⟨d0, ds⟩
                · rw [hoc] at holen; simp at holen
                · have hds : ds.length ≤ 2 := by
                    rw [hoc] at hole; simp at hole; omega
                  have hstep : parse_esc_step d0
                      (ds ++ (dump_strW rest e1 e2 ++ cont))
                        = (c, dump_strW rest e1 e2 ++ cont) := by
                    rw [parse_esc_step_oct d0 _
                          (hod d0 (by rw [hoc]; simp)),
                        parse_oesc_digits d0 ds _
                          (fun x hxm => hod x (by rw [hoc]; simp [hxm]))
                          hds (Or.inr hstop)]
                    rw [show d0 :: ds = octStr c from hoc.symm, hov]
                  have hres := parse_step_esc2 (rest.length + fuel) d0
                    (ds ++ (dump_strW rest e1 e2 ++ cont)) e2 hbs
                  rw [hstep, hp] at hres
                  rcases hpc : parse_strW_fuel fuel cont e2 with _ | ⟨t, r⟩ <;>
                    rw [hpc] at hres <;>
                    simpa [List.append_assoc] using hres
        · rw [if_neg hc2]
          by_cases hc6 : c = 92 ∨ c = e1.toNat ∨ c = e2.toNat
          · rw [if_pos hc6]
            have hstep : parse_esc_step (Char.ofNat c)
                (dump_strW rest e1 e2 ++ cont)
                  = (c, dump_strW rest e1 e2 ++ cont) := by
              rcases hc6 with hcc | hcc | hcc
              · subst hcc
                rw [show Char.ofNat 92 = '\\' from rfl,
                    parse_esc_step_backslash]
              · subst hcc
                rw [Char.ofNat_toNat, parse_esc_step_good e1 h1]
              · subst hcc
                rw [Char.ofNat_toNat, parse_esc_step_good e2 h2]
            have hres := parse_step_esc2 (rest.length + fuel) (Char.ofNat c)
              (dump_strW rest e1 e2 ++ cont) e2 hbs
            rw [hstep, hp] at hres
            rcases hpc : parse_strW_fuel fuel cont e2 with _ | ⟨t, r⟩ <;>
              rw [hpc] at hres <;>
              simpa using hres
          · rw [if_neg hc6]
            push_neg at hc6
            have hres := parse_step_lit2 (rest.length + fuel) (Char.ofNat c)
              (dump_strW rest e1 e2 ++ cont) e2
              (by rw [charToNat_ofNat c (by omega)]; omega)
              (charOfNat_ne c e2 (by omega) hc6.2.2)
              (charOfNat_ne c '\\' (by omega) (by simpa using hc6.1))
            rw [hp] at hres
            rw [charToNat_ofNat c (by omega)] at hres
            rcases hpc : parse_strW_fuel fuel cont e2 with _ | ⟨t, r⟩ <;>
              rw [hpc] at hres <;>
              simpa using hres

theorem parse_delim_stop (e : Char) (tail : List Char) (fuel : Nat)
    (h : e.toNat ≠ 0) :
    parse_strW_fuel (fuel + 1) (e :: tail) e = some ([], tail) := by
  simp [parse_strW_fuel, h]

theorem dump_parse_roundtrip (e1 e2 : Char) (h1 : goodDelim e1 = true)
    (h2 : goodDelim e2 = true) : ∀ (s : Wstr) (tail : List Char) (fuel : Nat),
    (∀ c ∈ s, c < 65536) → s.getLast? ≠ some 0 → s.length < fuel →
    parse_strW_fuel fuel (dump_strW s e1 e2 ++ e2 :: tail) e2
      = some (s, tail) := by
  intro s tail fuel hcs hlast hf
  have hh := parse_dump_append e1 e2 h1 h2 s (e2 :: tail) (fuel - s.length)
    hcs hlast (by simpa using goodDelim_not_xdigit e2 h2)
  rw [show s.length + (fuel - s.length) = fuel by omega] at hh
  obtain ⟨f2, hf2⟩ : ∃ f2, fuel - s.length = f2 + 1 :=
    ⟨fuel - s.length - 1, by omega⟩
  rw [hf2, parse_delim_stop e2 tail f2 (goodDelim_toNat_ne_zero e2 h2)] at hh
  simpa using hh

/-- C4 counterexample: the claim fails for the one-unit string containing
NUL, already with the active string delimiters `""`: `dump_strW` does not
write a terminating NUL in the final position, so parsing its output yields
the empty string, not `[0]`. -/
theorem claim_C4_counterexample :
    parse_strW (dump_strW [0] '\"' '\"' ++ ['\"']) '\"' = some ([], [])
    ∧ ([0] : Wstr) ≠ [] :=
  ⟨rfl, by decide⟩

/-- C4 (amended): the escape round-trip holds for every string of 16-bit
units that does not end in a NUL unit (interior NULs are fine), for both
delimiter pairs the code activates (`""` for strings, `[]` for key paths) —
and in general for any delimiters that are printable ASCII, not hex digits,
not one of `n r t v x`, and not the backslash: parsing the escaped text
followed by the closing delimiter yields exactly the original string. -/
theorem claim_C4_amended (s : Wstr) (e1 e2 : Char)
    (h1 : goodDelim e1 = true) (h2 : goodDelim e2 = true)
    (hs : ∀ c ∈ s, c < 65536) (hlast : s.getLast? ≠ some 0) :
    parse_strW (dump_strW s e1 e2 ++ [e2]) e2 = some (s, []) := by
  rw [parse_strW]
  have hlen := dump_length_ge e1 e2 s hlast
  have hrt := dump_parse_roundtrip e1 e2 h1 h2 s []
    ((dump_strW s e1 e2 ++ [e2]).length + 1) hs hlast (by simp; omega)
  simpa using hrt

/-- C4 witness: the amended round-trip at the concrete string
`[104, 0, 233, 10]` with the key-path delimiters. -/
theorem claim_C4_witness :
    goodDelim '[' = true ∧ goodDelim ']' = true
  ∧ (∀ c ∈ ([104, 0, 233, 10] : Wstr), c < 65536)
  ∧ ([104, 0, 233, 10] : Wstr).getLast? ≠ some 0
  ∧ parse_strW (dump_strW [104, 0, 233, 10] '[' ']' ++ [']']) ']'
      = some ([104, 0, 233, 10], []) :=
  ⟨by decide, by decide, by decide, by decide,
   claim_C4_amended [104, 0, 233, 10] '[' ']' (by decide) (by decide)
     (by decide) (by decide)⟩

/-- C7 counterexample: `saving_version` is initialized to 1 and never
assigned, so by default `save_registry` emits the `WINE REGISTRY Version 1`
header and the v1 body — not the v2 format the claim states. -/
theorem claim_C7_counterexample :
    saving_version_init = 1
  ∧ (save_registry_lines saving_version_init c7key [] 0).head?
      = some "WINE REGISTRY Version 1".toList
  ∧ "WINE REGISTRY Version 1".toList ≠ "WINE REGISTRY Version 2".toList
  ∧ save_registry_lines saving_version_init c7key [] 0
      ≠ "WINE REGISTRY Version 2".toList :: save_subkeys c7key [] 0 :=
  ⟨rfl, rfl, by decide, by decide⟩

/-- C7 (amended): the v1 indentation format is the default for
`save_registry` (`saving_version` is initialized to 1 and nothing assigns
it); the `WINE REGISTRY Version 2` header and the v2 key-block body are
emitted exactly when `saving_version` is 2, and for every other version
value the v1 body follows a header naming that version. -/
theorem claim_C7_amended (k : Key) (pfx : List Char) (slvl : Int) (v : Int) :
    saving_version_init = 1
  ∧ save_registry_lines saving_version_init k pfx slvl
      = "WINE REGISTRY Version 1".toList
          :: save_subkeys_v1 (update_level k).1 0 slvl
  ∧ (v = 2 → save_registry_lines v k pfx slvl
      = "WINE REGISTRY Version 2".toList :: save_subkeys k pfx slvl)
  ∧ (v ≠ 2 → save_registry_lines v k pfx slvl
      = ("WINE REGISTRY Version ".toList ++ decInt v)
          :: save_subkeys_v1 (update_level k).1 0 slvl) := by
  refine ⟨rfl, ?_, ?_, ?_⟩
  · rw [show saving_version_init = 1 from rfl, save_registry_lines,
        if_neg (by decide)]
    congr 1
  · intro hv
    subst hv
    rw [save_registry_lines, if_pos rfl]
    congr 1
  · intro hv
    rw [save_registry_lines, if_neg hv]

/-- C7 witness: the amended dispatch at version 2 on the concrete key. -/
theorem claim_C7_witness :
    save_registry_lines 2 c7key [] 0
      = "WINE REGISTRY Version 2".toList :: save_subkeys c7key [] 0 :=
  (claim_C7_amended c7key [] 0 2).2.2.1 rfl

/-- C9: `set_value` is atomic on allocation failure and correct on success.
On failure (the data copy, the value-array growth, or the name duplication
failing) the key's value array contents, its modif and level, and all other
key fields are unchanged.  On success the key is touched and the value array
holds the new `(type, len, data)` at the existing slot (keeping the stored
name) or at the sorted insertion point with the given name; all other
entries are untouched by `set`/`listInsertAt`. -/
theorem claim_C9_set_value (key : Key) (name : Wstr) (ty : Nat)
    (data : List Nat) (dataOk growOk nameOk : Bool) (now clvl : Int) :
    ((set_value key name ty data dataOk growOk nameOk now clvl).2 = false →
        ((set_value key name ty data dataOk growOk nameOk now clvl).1.values
            = key.values
        ∧ (set_value key name ty data dataOk growOk nameOk now clvl).1.modif
            = key.modif
        ∧ (set_value key name ty data dataOk growOk nameOk now clvl).1.level
            = key.level
        ∧ (set_value key name ty data dataOk growOk nameOk now clvl).1.name
            = key.name
        ∧ (set_value key name ty data dataOk growOk nameOk now clvl).1.kclass
            = key.kclass
        ∧ (set_value key name ty data dataOk growOk nameOk now clvl).1.subkeys
            = key.subkeys
        ∧ (set_value key name ty data dataOk growOk nameOk now clvl).1.flags
            = key.flags))
  ∧ ((set_value key name ty data dataOk growOk nameOk now clvl).2 = true →
        ((set_value key name ty data dataOk growOk nameOk now clvl).1.modif
            = now
        ∧ (set_value key name ty data dataOk growOk nameOk now clvl).1.level
            = max key.level clvl
        ∧ (set_value key name ty data dataOk growOk nameOk now clvl).1.name
            = key.name
        ∧ (set_value key name ty data dataOk growOk nameOk now clvl).1.kclass
            = key.kclass
        ∧ (set_value key name ty data dataOk growOk nameOk now clvl).1.subkeys
            = key.subkeys
        ∧ (set_value key name ty data dataOk growOk nameOk now clvl).1.flags
            = key.flags
        ∧ (∀ i, find_value key name = (true, i) →
            (set_value key name ty data dataOk growOk nameOk now clvl).1.values
              = key.values.set i ⟨(key.values.getD i default).name, ty, data⟩)
        ∧ (∀ i, find_value key name = (false, i) →
            (set_value key name ty data dataOk growOk nameOk now clvl).1.values
              = listInsertAt key.values i ⟨name, ty, data⟩))) := by
  unfold set_value
  by_cases h0 : data.length ≠ 0 ∧ ¬dataOk
  · simp [h0]
  · rw [if_neg h0]
    unfold insert_value
    rcases hf : find_value key name with ⟨found, idx⟩
    cases found
    · dsimp only
      by_cases h1 : key.values.length = key.nbValues ∧ ¬growOk
      · simp [h1]
      · rw [if_neg h1]
        by_cases h2 : nameOk
        · simp only [h2, not_true_eq_false, if_false]
          have hle : idx ≤ key.values.length := by
            have h4 := find_value_index_le key name
            rw [hf] at h4
            exact h4
          constructor
          · intro hcon
            simp at hcon
          · intro _
            refine ⟨by simp, by simp, by simp, by simp, by simp, by simp,
                    ?_, ?_⟩
            · intro i hi
              simp at hi
            · intro i hi
              simp only [Prod.mk.injEq, true_and] at hi
              subst hi
              simp [hle, listInsertAt_getElem_self, listInsertAt_set_self]
        · simp [h2]
    · dsimp only
      refine ⟨?_, ?_⟩
      · intro hcon
        simp at hcon
      · intro _
        refine ⟨by simp, by simp, by simp, by simp, by simp, by simp, ?_, ?_⟩
        · intro i hi
          simp only [Prod.mk.injEq, true_and] at hi
          subst hi
          simp
        · intro i hi
          simp at hi

/-- C9 witness: a concrete successful `set_value` touches the key. -/
theorem claim_C9_witness :
    (set_value (.mk none none [] 0 [] 0 0 0 0) [65] 4 [1, 2, 3, 4]
        true true true 9 2).1.modif = 9 := by
  have h := (claim_C9_set_value (.mk none none [] 0 [] 0 0 0 0) [65] 4
    [1, 2, 3, 4] true true true 9 2).2
  exact (h rfl).1

/-- C5 counterexample: on a key with two subkeys named `A` and `BB`,
`query_key` reports `max_subkey = 1`, not the maximum (2) over every
subkey — the scan's `i < last_subkey` bound omits the last element. -/
theorem claim_C5_counterexample :
    (query_key (.mk none none [.mk (some [65]) none [] 0 [] 0 0 0 0,
                               .mk (some [66, 66]) none [] 0 [] 0 0 0 0]
                  8 [] 0 0 0 0)).max_subkey
      ≠ listMax (([.mk (some [65]) none [] 0 [] 0 0 0 0,
                   .mk (some [66, 66]) none [] 0 [] 0 0 0 0] : List Key).map
                    fun s => (s.name.getD []).length) := by
  decide

/-- C5 (amended): `query_key` reports the maxima over every subkey/value
*except the last one* (the scans run `i < last_subkey` / `i < last_value`),
as code-unit lengths of names/classes and byte lengths of value data; the
counts and modif are reported in full. -/
theorem claim_C5_amended (k : Key) :
    (query_key k).max_subkey
        = listMax (k.subkeys.dropLast.map fun s => (s.name.getD []).length)
  ∧ (query_key k).max_class
        = listMax ((k.subkeys.dropLast.filterMap Key.kclass).map List.length)
  ∧ (query_key k).max_value
        = listMax (k.values.dropLast.map fun v => v.name.length)
  ∧ (query_key k).max_data
        = listMax (k.values.dropLast.map fun v => v.data.length)
  ∧ (query_key k).subkeys = k.subkeys.length
  ∧ (query_key k).values = k.values.length
  ∧ (query_key k).modif = k.modif := by
  have h1 := query_key_subkey_scan_eq k.subkeys.dropLast 0 0
  have h2 := query_key_value_scan_eq k.values.dropLast 0 0
  simp at h1 h2
  simp [query_key, h1, h2]

theorem create_key_rec_err (toks : List Wstr) : ∀ (key : Key) (flags : Nat)
    (cls : Option Wstr) (modif : Int) (oracle : List Bool) (clvl : Int),
    (create_key_rec key toks flags cls modif oracle clvl).err = none ∨
    (create_key_rec key toks flags cls modif oracle clvl).err
      = some RegError.outOfMemory := by
  induction toks with
  | nil =>
      intro key flags cls modif oracle clvl
      left
      cases cls <;> rfl
  | cons tok rest ih =>
      intro key flags cls modif oracle clvl
      rw [create_key_rec]
      rcases hf : find_subkey key tok with ⟨found, i⟩
      cases found
      · simp only [create_phase2]
        rcases ha : alloc_subkey key tok i modif (oracle.getD 0 true) clvl with
          _ | ⟨base1, child⟩
        · simp
        · dsimp only
          rcases hc : create_chain child rest flags cls modif (oracle.tail)
            clvl with _ | ⟨child1, p⟩ <;> simp
      · simpa using ih (key.subkeys.getD i default) flags cls modif oracle clvl

/-- C2: evaluation of `create_key` at the failing input.  The base key has
one existing subkey `B`; creating the missing path `A` with the very first
segment allocation failing removes the existing subkey `B` — the rollback
`if (base_idx != -1) free_subkey(base, base_idx)` runs even though nothing
was created, because `base_idx` holds the insertion index (never -1). -/
theorem claim_C2_code_eval :
    c2base.subkeys.length = 1
  ∧ (c2base.subkeys.getD 0 default).name = some [66]
  ∧ c2res.okPath = none
  ∧ c2res.err = some RegError.outOfMemory
  ∧ c2res.tree.subkeys = [] :=
  ⟨rfl, rfl, rfl, rfl, rfl⟩

/-- C3 counterexample: starting from a fresh root, `create_key(root, "A",
VOLATILE)` then `create_key(root, "A\B", non-volatile)` succeeds (no
`CHILD_MUST_BE_VOLATILE` error) and leaves the reachable tree with the
volatile key `A` holding the non-volatile child `B`, contradicting both the
claimed invariant and the claimed failure. -/
theorem claim_C3_counterexample :
    (c3tree1.subkeys.getD 0 default).isVolatile = true
  ∧ c3res.err = none
  ∧ c3res.okPath = some [[65], [66]]
  ∧ (c3res.tree.subkeys.getD 0 default).isVolatile = true
  ∧ ((c3res.tree.subkeys.getD 0 default).subkeys.getD 0 default).isVolatile
      = false :=
  ⟨rfl, rfl, rfl, rfl, rfl⟩

/-- C3 (amended): the volatility check of `create_key` is local to the base
key: the call fails with `CHILD_MUST_BE_VOLATILE` exactly when the base key
itself is volatile, not deleted, and the VOLATILE option is absent.  Keys
reached by descending the path are not checked, so a non-volatile child can
be created under a volatile key reached through the path (see the recorded
counterexample). -/
theorem claim_C3_amended (base : Key) (path : Wstr) (cls : Option Wstr)
    (options : Nat) (modif : Int) (oracle : List Bool) (clvl : Int) :
    (create_key base path cls options modif oracle clvl).err
        = some RegError.childMustBeVolatile
      ↔ (base.isDeleted = false ∧ options &&& REG_OPTION_VOLATILE = 0
          ∧ base.isVolatile = true) := by
  rw [create_key]
  by_cases h1 : base.isDeleted
  · simp [h1]
  · rw [Bool.not_eq_true] at h1
    by_cases h2 : options &&& REG_OPTION_VOLATILE = 0 ∧ base.isVolatile
    · simp [h1, h2.1, h2.2]
    · rw [if_neg (by simp [h1]), if_neg h2]
      rcases create_key_rec_err (get_path_tokens path) base
          (if options &&& REG_OPTION_VOLATILE ≠ 0 then KEY_VOLATILE else 0)
          cls modif oracle clvl with h | h <;> rw [h] <;> simp [h1] <;>
        intro hA <;>
        exact Bool.not_eq_true _ ▸ fun hB => h2 ⟨hA, hB⟩

/-- C6: evaluation of `free_subkey` at the failing input.  Removing index 0
from a parent whose array has capacity 12 and 5 entries leaves 4 entries,
which is below half the capacity with the capacity above the floor of 8 —
yet the parent's capacity stays 12: the shrink block reads and reallocates
the *removed child's* array (which here shrinks from 12 to 8) instead of the
parent's. -/
theorem claim_C6_code_eval :
    (free_subkey c6parent 0).1.nbSubkeys = 12
  ∧ (free_subkey c6parent 0).1.subkeys.length = 4
  ∧ MIN_SUBKEYS < (free_subkey c6parent 0).1.nbSubkeys
  ∧ (free_subkey c6parent 0).1.subkeys.length
      < (free_subkey c6parent 0).1.nbSubkeys / 2
  ∧ (free_subkey c6parent 0).1.subkeys
      = [c6child 66 0, c6child 67 0, c6child 68 0, c6child 69 0]
  ∧ (free_subkey c6parent 0).2.flags = KEY_DELETED
  ∧ (free_subkey c6parent 0).2.nbSubkeys = 8 :=
  ⟨rfl, rfl, by decide, by decide, rfl, rfl, rfl⟩

/-- `insert_value` on the load path (both allocations succeed): the slot
index is within bounds, the value array is unchanged (slot found) or gains
one zero-initialized entry at the index, and every other structural field
of the key is unchanged. -/
theorem insert_value_load_spec (key : Key) (nm : Wstr) (key1 : Key)
    (idx : Nat) (h : insert_value key nm true true = (key1, some idx)) :
    key1.name = key.name ∧ key1.kclass = key.kclass
  ∧ key1.subkeys = key.subkeys ∧ key1.flags = key.flags
  ∧ key1.level = key.level ∧ key1.modif = key.modif
  ∧ idx ≤ key.values.length
  ∧ (key1.values = key.values
      ∨ key1.values = listInsertAt key.values idx ⟨nm, 0, []⟩) := by
  unfold insert_value at h
  rcases hf : find_value key nm with ⟨found, i⟩
  rw [hf] at h
  have hle : i ≤ key.values.length := by
    have h4 := find_value_index_le key nm
    rw [hf] at h4
    exact h4
  cases found
  · dsimp only at h
    rw [if_neg (by simp), if_neg (by simp)] at h
    simp only [Prod.mk.injEq, Option.some.injEq] at h
    obtain ⟨h1, h2⟩ := h
    subst h2
    subst h1
    refine ⟨by simp, by simp, by simp, by simp, by simp, by simp, hle, ?_⟩
    right
    simp
  · dsimp only at h
    simp only [Prod.mk.injEq, Option.some.injEq] at h
    obtain ⟨h1, h2⟩ := h
    subst h2
    subst h1
    exact ⟨rfl, rfl, rfl, rfl, rfl, rfl, hle, Or.inl rfl⟩

/-- `parse_value_name` frame: the key it returns differs from the input key
at most by one zero-initialized slot inserted at a within-bounds index. -/
theorem parse_value_name_spec (key : Key) (line : List Char) (key1 : Key)
    (idx : Nat) (buf : List Char)
    (h : parse_value_name key line = some (key1, idx, buf)) :
    key1.name = key.name ∧ key1.kclass = key.kclass
  ∧ key1.subkeys = key.subkeys ∧ key1.flags = key.flags
  ∧ key1.level = key.level ∧ key1.modif = key.modif
  ∧ idx ≤ key.values.length
  ∧ (key1.values = key.values
      ∨ ∃ nm, key1.values = listInsertAt key.values idx ⟨nm, 0, []⟩) := by
  unfold parse_value_name at h
  rcases hs : parse_value_name_str line with _ | ⟨nm, buf1⟩
  · rw [hs] at h
    simp at h
  · rw [hs] at h
    dsimp only at h
    rcases hi : insert_value key nm true true with ⟨key2, oidx⟩
    rw [hi] at h
    cases oidx with
    | none => simp at h
    | some j =>
        dsimp only at h
        simp only [Option.some.injEq, Prod.mk.injEq] at h
        obtain ⟨h1, h2, h3⟩ := h
        subst h1
        subst h2
        subst h3
        obtain ⟨f1, f2, f3, f4, f5, f6, f7, f8⟩ :=
          insert_value_load_spec key nm _ _ hi
        exact ⟨f1, f2, f3, f4, f5, f6, f7, f8.imp id (fun hx => ⟨nm, hx⟩)⟩

/-- C10: a successful `load_value` leaves the key's modification time and
all of name/class/subkeys/flags unchanged, raises the level to
`max level current_level`, and changes the value array only at a single
within-bounds slot — overwriting an existing slot's type and data while
keeping its stored name, or inserting exactly one new value; every other
value of the key keeps its contents. -/
theorem claim_C10_load_value (key : Key) (line : List Char)
    (restLines : List (List Char)) (clvl : Int)
    (h : (load_value key line restLines clvl).2.2 = true) :
    (load_value key line restLines clvl).1.modif = key.modif
  ∧ (load_value key line restLines clvl).1.name = key.name
  ∧ (load_value key line restLines clvl).1.kclass = key.kclass
  ∧ (load_value key line restLines clvl).1.subkeys = key.subkeys
  ∧ (load_value key line restLines clvl).1.flags = key.flags
  ∧ (load_value key line restLines clvl).1.level = max key.level clvl
  ∧ ∃ i ty data, i ≤ key.values.length
      ∧ ((load_value key line restLines clvl).1.values
            = key.values.set i ⟨(key.values.getD i default).name, ty, data⟩
        ∨ ∃ nm, (load_value key line restLines clvl).1.values
            = listInsertAt key.values i ⟨nm, ty, data⟩) := by
  unfold load_value at h ⊢
  rcases hpv : parse_value_name key line with _ | ⟨key1, idx, buf1⟩
  · rw [hpv] at h
    simp at h
  · rw [hpv] at h
    dsimp only at h ⊢
    rcases hdt : get_data_type buf1 with _ | ⟨ty, pty, res⟩
    · rw [hdt] at h
      simp at h
    · rw [hdt] at h
      dsimp only at h ⊢
      rcases hpd : parse_value_data pty (buf1.drop res) restLines
        with _ | ⟨data, rl1⟩
      · rw [hpd] at h
        simp at h
      · rw [hpd] at h
        dsimp only at h ⊢
        obtain ⟨f1, f2, f3, f4, f5, f6, f7, f8⟩ :=
          parse_value_name_spec key line key1 idx buf1 hpv
        refine ⟨by simp [f6], by simp [f1], by simp [f2], by simp [f3],
                by simp [f4], by simp [f5], idx, ty, data, f7, ?_⟩
        rcases f8 with hv | ⟨nm, hv⟩
        · left
          simp [hv]
        · right
          refine ⟨nm, ?_⟩
          have hget : (key1.values.getD idx default) = ⟨nm, 0, []⟩ := by
            rw [hv, List.getD_eq_getElem?_getD, listInsertAt_getElem_self _ _ _ f7]
            rfl
          simp only [Key.values_withLevel, Key.values_withValues]
          rw [hget, hv, listInsertAt_set_self _ _ _ _ f7]

/-- C10 witness: loading `@=dword:1f` into a key with one existing value
keeps the key's modification time. -/
theorem claim_C10_witness :
    (load_value (Key.mk none none [] 0 [⟨[65], 1, [66, 0, 0, 0]⟩] 8 0 3 5)
        "@=dword:1f".toList [] 7).1.modif = 5 :=
  (claim_C10_load_value
    (Key.mk none none [] 0 [⟨[65], 1, [66, 0, 0, 0]⟩] 8 0 3 5)
    "@=dword:1f".toList [] 7 (by rfl)).1

/-- C8: when the first line of the input is not exactly
`WINE REGISTRY Version 2` — including an empty file — `load_keys` reports
`notRegistryFile` and returns the target tree unchanged, so no key or value
is created and a fresh target stays empty. -/
theorem claim_C8_load_keys (base : Key) (lines : List (List Char))
    (now clvl : Int)
    (h : lines.head? ≠ some ("WINE REGISTRY Version 2".toList)) :
    load_keys base lines now clvl = (base, some RegError.notRegistryFile) := by
  cases lines with
  | nil => rfl
  | cons first rest =>
      simp only [List.head?_cons, ne_eq, Option.some.injEq] at h
      unfold load_keys
      dsimp only
      rw [if_pos h]

/-- C8 witness: a file with the v1 header is rejected and the fresh root is
returned unchanged with `notRegistryFile`. -/
theorem claim_C8_witness :
    load_keys (Key.mk none none [] 0 [] 0 0 0 0)
        ["WINE REGISTRY Version 1".toList] 3 1
      = (Key.mk none none [] 0 [] 0 0 0 0, some RegError.notRegistryFile) :=
  claim_C8_load_keys (Key.mk none none [] 0 [] 0 0 0 0)
    ["WINE REGISTRY Version 1".toList] 3 1 (by decide)

/-! ### Case-insensitive ordering theory for the sorted arrays -/

theorem lowerW_ne_zero (c : Nat) (h : c ≠ 0) : lowerW c ≠ 0 := by
  simp only [lowerW]
  split <;> omega

theorem strcmpiW_refl : ∀ a : Wstr, strcmpiW a a = 0 := by
  intro a
  induction a with
  | nil => rfl
  | cons x xs ih => simp [strcmpiW, ih]

theorem strcmpiW_antisymm : ∀ a b : Wstr, strcmpiW a b = - strcmpiW b a := by
  intro a
  induction a with
  | nil =>
      intro b
      cases b with
      | nil => rfl
      | cons y ys => simp [strcmpiW]
  | cons x xs ih =>
      intro b
      cases b with
      | nil => simp [strcmpiW]
      | cons y ys =>
          simp only [strcmpiW]
          by_cases he : lowerW x = lowerW y
          · rw [if_pos he, if_pos he.symm]
            exact ih ys
          · rw [if_neg he, if_neg (fun hc => he hc.symm)]
            omega

theorem strcmpiW_lt_trans : ∀ a b c : Wstr,
    strcmpiW a b < 0 → strcmpiW b c < 0 → strcmpiW a c < 0 := by
  intro a
  induction a with
  | nil =>
      intro b c h1 h2
      cases b with
      | nil => simp [strcmpiW] at h1
      | cons y ys =>
          cases c with
          | nil => simp [strcmpiW] at h2; omega
          | cons z zs =>
              simp only [strcmpiW] at h1 h2 ⊢
              by_cases he : lowerW y = lowerW z
              · rw [if_pos he] at h2
                omega
              · rw [if_neg he] at h2
                omega
  | cons x xs ih =>
      intro b c h1 h2
      cases b with
      | nil => simp [strcmpiW] at h1; omega
      | cons y ys =>
          cases c with
          | nil => simp [strcmpiW] at h2; omega
          | cons z zs =>
              simp only [strcmpiW] at h1 h2 ⊢
              by_cases hxy : lowerW x = lowerW y <;>
                by_cases hyz : lowerW y = lowerW z
              · rw [if_pos hxy] at h1
                rw [if_pos hyz] at h2
                rw [if_pos (hxy.trans hyz)]
                exact ih ys zs h1 h2
              · rw [if_pos hxy] at h1
                rw [if_neg hyz] at h2
                have hne : lowerW x ≠ lowerW z := by omega
                rw [if_neg hne]
                omega
              · rw [if_neg hxy] at h1
                rw [if_pos hyz] at h2
                have hne : lowerW x ≠ lowerW z := by omega
                rw [if_neg hne]
                omega
              · rw [if_neg hxy] at h1
                rw [if_neg hyz] at h2
                have hne : lowerW x ≠ lowerW z := by omega
                rw [if_neg hne]
                omega

theorem strcmpiW_lt_of_lt_of_eq : ∀ a b c : Wstr, (∀ u ∈ b, u ≠ 0) →
    strcmpiW a b < 0 → strcmpiW b c = 0 → strcmpiW a c < 0 := by
  intro a
  induction a with
  | nil =>
      intro b c hb h1 h2
      cases b with
      | nil => simp [strcmpiW] at h1
      | cons y ys =>
          cases c with
          | nil =>
              exfalso
              simp only [strcmpiW] at h2
              exact lowerW_ne_zero y (hb y (by simp)) (by omega)
          | cons z zs =>
              simp only [strcmpiW] at h1 h2 ⊢
              by_cases he : lowerW y = lowerW z
              · omega
              · rw [if_neg he] at h2
                omega
  | cons x xs ih =>
      intro b c hb h1 h2
      cases b with
      | nil => simp [strcmpiW] at h1; omega
      | cons y ys =>
          cases c with
          | nil =>
              exfalso
              simp only [strcmpiW] at h2
              exact lowerW_ne_zero y (hb y (by simp)) (by omega)
          | cons z zs =>
              simp only [strcmpiW] at h1 h2 ⊢
              by_cases hxy : lowerW x = lowerW y <;>
                by_cases hyz : lowerW y = lowerW z
              · rw [if_pos hxy] at h1
                rw [if_pos hyz] at h2
                rw [if_pos (hxy.trans hyz)]
                exact ih ys zs (fun u hu => hb u (by simp [hu])) h1 h2
              · rw [if_pos hxy] at h1
                rw [if_neg hyz] at h2
                omega
              · rw [if_neg hxy] at h1
                rw [if_pos hyz] at h2
                have hne : lowerW x ≠ lowerW z := by omega
                rw [if_neg hne]
                omega
              · rw [if_neg hxy] at h1
                rw [if_neg hyz] at h2
                omega

theorem strcmpiW_lt_of_eq_of_lt : ∀ a b c : Wstr, (∀ u ∈ b, u ≠ 0) →
    strcmpiW a b = 0 → strcmpiW b c < 0 → strcmpiW a c < 0 := by
  intro a
  induction a with
  | nil =>
      intro b c hb h1 h2
      cases b with
      | nil =>
          cases c with
          | nil => simp [strcmpiW] at h2
          | cons z zs => exact h2
      | cons y ys =>
          exfalso
          simp only [strcmpiW] at h1
          exact lowerW_ne_zero y (hb y (by simp)) (by omega)
  | cons x xs ih =>
      intro b c hb h1 h2
      cases b with
      | nil =>
          cases c with
          | nil => simp [strcmpiW] at h2
          | cons z zs =>
              simp only [strcmpiW] at h1 h2 ⊢
              have hne : lowerW x ≠ lowerW z := by omega
              rw [if_neg hne]
              omega
      | cons y ys =>
          cases c with
          | nil => simp [strcmpiW] at h2; omega
          | cons z zs =>
              simp only [strcmpiW] at h1 h2 ⊢
              by_cases hxy : lowerW x = lowerW y <;>
                by_cases hyz : lowerW y = lowerW z
              · rw [if_pos hxy] at h1
                rw [if_pos hyz] at h2
                rw [if_pos (hxy.trans hyz)]
                exact ih ys zs (fun u hu => hb u (by simp [hu])) h1 h2
              · rw [if_pos hxy] at h1
                rw [if_neg hyz] at h2
                have hne : lowerW x ≠ lowerW z := by omega
                rw [if_neg hne]
                omega
              · rw [if_neg hxy] at h1
                rw [if_pos hyz] at h2
                omega
              · rw [if_neg hxy] at h1
                rw [if_neg hyz] at h2
                omega

/-! ### Generic list-scanning helpers -/

theorem takeWhile_all {α : Type} (p : α → Bool) :
    ∀ l : List α, (∀ a ∈ l, p a = true) → l.takeWhile p = l := by
  intro l
  induction l with
  | nil => intro _; rfl
  | cons a r ih =>
      intro h
      rw [List.takeWhile_cons, h a (by simp)]
      simp [ih (fun x hx => h x (by simp [hx]))]

theorem takeWhile_append_stop {α : Type} (p : α → Bool) :
    ∀ (l r : List α), (∀ a ∈ l, p a = true) → r.takeWhile p = [] →
    (l ++ r).takeWhile p = l := by
  intro l r hl hr
  induction l with
  | nil => simpa using hr
  | cons a t ih =>
      rw [List.cons_append, List.takeWhile_cons, hl a (by simp)]
      simp only [if_true]
      rw [ih (fun x hx => hl x (by simp [hx]))]

theorem dropWhile_append_stop {α : Type} (p : α → Bool) :
    ∀ (l r : List α), (∀ a ∈ l, p a = true) → r.dropWhile p = r →
    (l ++ r).dropWhile p = r := by
  intro l r hl hr
  induction l with
  | nil => simpa using hr
  | cons a t ih =>
      rw [List.cons_append, List.dropWhile_cons, hl a (by simp)]
      simp only [if_true]
      exact ih (fun x hx => hl x (by simp [hx]))

theorem dropWhile_of_head_false {α : Type} (p : α → Bool) :
    ∀ l : List α, (∀ a, l.head? = some a → p a = false) →
    l.dropWhile p = l := by
  intro l h
  cases l with
  | nil => rfl
  | cons a t =>
      rw [List.dropWhile_cons, h a (by simp)]
      simp

/-! ### Decimal rendering round-trip (`%ld` and `sscanf %d` / `atoi`) -/

theorem isdigitChar_digit (m : Nat) (h : m < 10) :
    isdigitChar (Char.ofNat (48 + m)) = true := by
  simp only [isdigitChar, decide_eq_true_eq]
  rw [charToNat_ofNat _ (by omega)]
  omega

theorem digit_toNat (m : Nat) (h : m < 10) :
    (Char.ofNat (48 + m)).toNat = 48 + m :=
  charToNat_ofNat _ (by omega)

theorem decVal_append (xs : List Char) (d : Char) :
    decVal (xs ++ [d]) = decVal xs * 10 + (d.toNat - 48) := by
  simp [decVal]

theorem decStrAux_zero (fuel : Nat) : decStrAux fuel 0 = [] := by
  cases fuel <;> simp [decStrAux]

theorem decStrAux_spec (fuel : Nat) : ∀ n : Nat, n ≤ fuel →
    (∀ d ∈ decStrAux fuel n, isdigitChar d = true) ∧
    decVal (decStrAux fuel n) = n ∨ n = 0 := by
  induction fuel with
  | zero => intro n h; right; omega
  | succ fuel ih =>
      intro n h
      by_cases h0 : n = 0
      · right; exact h0
      · left
        rw [decStrAux, if_neg h0]
        have h10 : n / 10 ≤ fuel := by
          have := Nat.div_lt_self (by omega : 0 < n) (by omega : 1 < 10)
          omega
        rcases ih (n / 10) h10 with ⟨hd, hv⟩ | hz
        · constructor
          · intro d hdm
            rcases List.mem_append.mp hdm with hm | hm
            · exact hd d hm
            · simp at hm
              exact hm ▸ isdigitChar_digit _ (Nat.mod_lt _ (by omega))
          · rw [decVal_append, hv, digit_toNat _ (Nat.mod_lt _ (by omega))]
            omega
        · have hnil : decStrAux fuel (n / 10) = [] := by
            rw [hz]; exact decStrAux_zero fuel
          rw [hnil]
          have hlt : n < 10 := by
            by_contra hc
            push_neg at hc
            have := Nat.div_le_div_right (c := 10) hc
            simp at this
            omega
          constructor
          · intro d hdm
            simp at hdm
            exact hdm ▸ isdigitChar_digit _ (Nat.mod_lt _ (by omega))
          · simp only [List.nil_append]
            show decVal [Char.ofNat (48 + n % 10)] = n
            simp only [decVal, List.foldl_cons, List.foldl_nil]
            rw [digit_toNat _ (Nat.mod_lt _ (by omega))]
            omega

theorem natDec_spec (n : Nat) :
    (∀ d ∈ natDec n, isdigitChar d = true) ∧ decVal (natDec n) = n ∧
    natDec n ≠ [] := by
  by_cases h0 : n = 0
  · subst h0
    refine ⟨?_, rfl, by simp [natDec]⟩
    intro d hd
    simp [natDec] at hd
    subst hd; decide
  · rw [natDec, if_neg h0]
    rcases decStrAux_spec n n (Nat.le_refl _) with ⟨hd, hv⟩ | hz
    · refine ⟨hd, hv, ?_⟩
      intro hc
      rw [hc] at hv
      simp [decVal] at hv
      omega
    · exact absurd hz h0

theorem isspaceChar_of_digit (d : Char) (h : isdigitChar d = true) :
    isspaceChar d = false := by
  simp only [isdigitChar, decide_eq_true_eq] at h
  simp only [isspaceChar, decide_eq_false_iff_not]
  omega

theorem parse_modif_nat (m : Nat) (now : Int) :
    parse_modif (' ' :: natDec m) now = (m : Int) := by
  obtain ⟨hdig, hval, hne⟩ := natDec_spec m
  rw [parse_modif]
  have hdw : (' ' :: natDec m).dropWhile isspaceChar = natDec m := by
    rw [List.dropWhile_cons]
    rw [show isspaceChar ' ' = true by decide]
    simp only [if_true]
    apply dropWhile_of_head_false
    intro a ha
    apply isspaceChar_of_digit
    apply hdig
    cases hh : natDec m with
    | nil => rw [hh] at ha; simp at ha
    | cons x xs =>
        rw [hh] at ha
        simp only [List.head?_cons, Option.some.injEq] at ha
        subst ha
        simp
  rw [hdw]
  have htw : (natDec m).takeWhile isdigitChar = natDec m :=
    takeWhile_all isdigitChar (natDec m) hdig
  have hhead : (natDec m).headD 'Z' ≠ '-' := by
    cases hh : natDec m with
    | nil => exact absurd hh hne
    | cons x xs =>
        have hx := hdig x (by rw [hh]; simp)
        simp only [List.headD_cons]
        intro hc
        rw [hc] at hx
        simp [isdigitChar] at hx
  rw [if_neg hhead, htw, if_neg hne, hval]

theorem decInt_nonneg (m : Int) (h : 0 ≤ m) :
    decInt m = natDec m.toNat := by
  rw [decInt, if_neg (by omega)]

theorem parse_modif_roundtrip (m : Int) (h : 0 ≤ m) (now : Int) :
    parse_modif (' ' :: decInt m) now = m := by
  rw [decInt_nonneg m h, parse_modif_nat]
  omega

/-! ### DWORD rendering round-trip (`dword:%08lx` and `strtoul(16)`) -/

theorem hexStr_length_le8 (n : Nat) (h : n < 4294967296) :
    (hexStr n).length ≤ 8 := by
  by_cases h0 : n = 0
  · simp [hexStr, h0]
  · rw [hexStr, if_neg h0]
    exact hexStrAux_length n n 8 (Nat.le_refl _) (by norm_num; omega)

theorem isxdigitChar_zero : isxdigitChar '0' = true := by decide

theorem strtoulHex_hex8 (n : Nat) :
    strtoulHex (hex8 n) = n := by
  obtain ⟨hdig, hval, _⟩ := hexStr_spec n
  rw [strtoulHex, hex8, leftPad]
  have hall : ∀ d ∈ List.replicate (8 - (hexStr n).length) '0' ++ hexStr n,
      isxdigitChar d = true := by
    intro d hd
    rcases List.mem_append.mp hd with hm | hm
    · rw [List.eq_of_mem_replicate hm]; decide
    · exact hdig d hm
  rw [takeWhile_all isxdigitChar _ hall, hexVal_pad, hval]

theorem dwordBytes_dwordOfBytes (d : List Nat) (h4 : d.length = 4)
    (hb : ∀ b ∈ d, b < 256) : dwordBytes (dwordOfBytes d) = d := by
  match d, h4 with
  | [a, b, c, e], _ =>
      have ha := hb a (by simp)
      have hbb := hb b (by simp)
      have hc := hb c (by simp)
      have he := hb e (by simp)
      refine List.ext_getElem (by simp [dwordBytes]) ?_
      intro i hi1 hi2
      simp only [List.length_cons, List.length_nil] at hi2
      interval_cases i <;>
        (simp only [dwordBytes, dwordOfBytes, List.getD_cons_zero,
          List.getD_cons_succ, List.getElem_cons_zero,
          List.getElem_cons_succ]; omega)

theorem dwordOfBytes_lt (d : List Nat) (h4 : d.length = 4)
    (hb : ∀ b ∈ d, b < 256) : dwordOfBytes d < 4294967296 := by
  match d, h4 with
  | [a, b, c, e], _ =>
      have ha := hb a (by simp)
      have hbb := hb b (by simp)
      have hc := hb c (by simp)
      have he := hb e (by simp)
      simp only [dwordOfBytes, List.getD_cons_zero, List.getD_cons_succ]
      omega

/-! ### Hex byte-list round-trip (`%02x` lists and parse_hex) -/

theorem hexStr_length_le2 (n : Nat) (h : n < 256) :
    (hexStr n).length ≤ 2 := by
  by_cases h0 : n = 0
  · simp [hexStr, h0]
  · rw [hexStr, if_neg h0]
    exact hexStrAux_length n n 2 (Nat.le_refl _) (by norm_num; omega)

theorem hex2_spec (b : Nat) (h : b < 256) :
    (hex2 b).length = 2 ∧ (∀ d ∈ hex2 b, isxdigitChar d = true) ∧
    hexVal (hex2 b) = b := by
  obtain ⟨hdig, hval, hpos⟩ := hexStr_spec b
  have hle := hexStr_length_le2 b h
  refine ⟨?_, ?_, ?_⟩
  · simp only [hex2, leftPad, List.length_append, List.length_replicate]
    omega
  · intro d hd
    simp only [hex2, leftPad] at hd
    rcases List.mem_append.mp hd with hm | hm
    · rw [List.eq_of_mem_replicate hm]; decide
    · exact hdig d hm
  · simp only [hex2, leftPad]
    rw [hexVal_pad, hval]

theorem isspaceChar_of_xdigit (d : Char) (h : isxdigitChar d = true) :
    isspaceChar d = false := by
  simp only [isxdigitChar, isxdigitN, decide_eq_true_eq] at h
  simp only [isspaceChar, decide_eq_false_iff_not]
  omega

theorem parse_hex_nil (fuel : Nat) : parse_hex fuel [] = ([], []) := by
  cases fuel <;> rfl

theorem parse_hex_fuel : ∀ (n fuel1 fuel2 : Nat) (l : List Char),
    l.length ≤ n → l.length ≤ fuel1 → l.length ≤ fuel2 →
    parse_hex fuel1 l = parse_hex fuel2 l := by
  intro n
  induction n with
  | zero =>
      intro fuel1 fuel2 l h _ _
      have : l = [] := by
        cases l with
        | nil => rfl
        | cons c cs => simp at h
      subst this
      rw [parse_hex_nil, parse_hex_nil]
  | succ n ih =>
      intro fuel1 fuel2 l h h1 h2
      cases l with
      | nil => rw [parse_hex_nil, parse_hex_nil]
      | cons c cs =>
          obtain ⟨g1, rfl⟩ : ∃ g1, fuel1 = g1 + 1 :=
            ⟨fuel1 - 1, by simp at h1; omega⟩
          obtain ⟨g2, rfl⟩ : ∃ g2, fuel2 = g2 + 1 :=
            ⟨fuel2 - 1, by simp at h2; omega⟩
          rw [parse_hex, parse_hex]
          by_cases hx : isxdigitChar c
          · rw [if_pos hx, if_pos hx]
            have hlen : (if (cs.drop 1).headD 'Z' = ','
                then (cs.drop 1).tail else cs.drop 1).length ≤ cs.length := by
              split
              · simp
                omega
              · simp
            have hrec := ih g1 g2
              (if (cs.drop 1).headD 'Z' = ',' then (cs.drop 1).tail
               else cs.drop 1)
              (by simp at h; omega) (by simp at h1; omega)
              (by simp at h2; omega)
            dsimp only
            rw [hrec]
          · rw [if_neg hx, if_neg hx]

theorem parse_hex_hex2 (b : Nat) (hb : b < 256) (tl : List Char)
    (fuel : Nat) :
    parse_hex (fuel + 1) (hex2 b ++ tl)
      = (b :: (parse_hex fuel
            (if tl.headD 'Z' = ',' then tl.tail else tl)).1,
         (parse_hex fuel
            (if tl.headD 'Z' = ',' then tl.tail else tl)).2) := by
  obtain ⟨hlen, hdig, hval⟩ := hex2_spec b hb
  match hh : hex2 b, hlen with
  | [d1, d2], _ =>
      have hd1 : isxdigitChar d1 = true := hdig d1 (by rw [hh]; simp)
      have hd2 : isxdigitChar d2 = true := hdig d2 (by rw [hh]; simp)
      rw [hh] at hval
      simp only [List.cons_append, List.nil_append]
      rw [parse_hex]
      rw [if_pos hd1]
      have htake : ((d1 :: (d2 :: tl).take 1).takeWhile isxdigitChar)
          = [d1, d2] := by
        simp only [List.take_succ_cons, List.take_zero]
        rw [List.takeWhile_cons, hd1]
        simp only [if_true]
        rw [List.takeWhile_cons, hd2]
        simp
      rw [htake, hval]
      simp

theorem parse_hex_hex2_comma (b : Nat) (hb : b < 256) (suf : List Char)
    (fuel : Nat) :
    parse_hex (fuel + 1) (hex2 b ++ ',' :: suf)
      = (b :: (parse_hex fuel suf).1, (parse_hex fuel suf).2) := by
  have := parse_hex_hex2 b hb (',' :: suf) fuel
  simpa using this

theorem parse_hex_hex2_nc (b : Nat) (hb : b < 256) (tl : List Char)
    (fuel : Nat) (h : tl.headD 'Z' ≠ ',') :
    parse_hex (fuel + 1) (hex2 b ++ tl)
      = (b :: (parse_hex fuel tl).1, (parse_hex fuel tl).2) := by
  have := parse_hex_hex2 b hb tl fuel
  rw [if_neg h] at this
  exact this

theorem load_hex_lines_nilbuf (lines : List (List Char)) :
    load_hex_lines [] lines = some ([], lines) := by
  cases lines <;> simp [load_hex_lines, parse_hex_nil]

theorem load_hex_lines_done (buf : List Char) (bs : List Nat)
    (r : List Char) (lines : List (List Char))
    (hp : parse_hex (buf.length + 1) buf = (bs, r))
    (hr : r.dropWhile isspaceChar = []) :
    load_hex_lines buf lines = some (bs, lines) := by
  cases lines <;> simp [load_hex_lines, hp, hr]

theorem load_hex_lines_last (b : Nat) (hb : b < 256)
    (lines : List (List Char)) :
    load_hex_lines (hex2 b) lines = some ([b], lines) := by
  obtain ⟨hlen, _, _⟩ := hex2_spec b hb
  apply load_hex_lines_done (hex2 b) [b] []
  · have := parse_hex_hex2_nc b hb [] ((hex2 b).length) (by decide)
    simp only [List.append_nil] at this
    rw [this]
    simp [parse_hex_nil]
  · rfl

theorem load_hex_lines_hex2 (b : Nat) (hb : b < 256) (suf : List Char)
    (lines : List (List Char)) (bs : List Nat) (rest : List (List Char))
    (hload : load_hex_lines suf lines = some (bs, rest)) :
    load_hex_lines (hex2 b ++ ',' :: suf) lines = some (b :: bs, rest) := by
  obtain ⟨hlen, _, _⟩ := hex2_spec b hb
  have hplen : (hex2 b ++ ',' :: suf).length + 1 = (suf.length + 3) + 1 := by
    rw [List.length_append, hlen, List.length_cons]
    omega
  have hstep := parse_hex_hex2_comma b hb suf (suf.length + 3)
  have hfuel : parse_hex (suf.length + 3) suf
      = parse_hex (suf.length + 1) suf :=
    parse_hex_fuel suf.length _ _ suf (Nat.le_refl _) (by omega) (by omega)
  rw [hfuel] at hstep
  rcases hq : parse_hex (suf.length + 1) suf with ⟨qbs, qr⟩
  rw [hq] at hstep
  cases lines with
  | nil =>
      simp only [load_hex_lines, hq] at hload
      simp only [load_hex_lines, hplen, hstep]
      by_cases he : (qr.dropWhile isspaceChar).isEmpty
      · rw [if_pos he] at hload ⊢
        simp only [Option.some.injEq, Prod.mk.injEq] at hload ⊢
        exact ⟨by rw [hload.1], hload.2⟩
      · rw [if_neg he] at hload
        simp at hload
  | cons l ls =>
      simp only [load_hex_lines, hq] at hload
      simp only [load_hex_lines, hplen, hstep]
      by_cases he : (qr.dropWhile isspaceChar).isEmpty
      · rw [if_pos he] at hload ⊢
        simp only [Option.some.injEq, Prod.mk.injEq] at hload ⊢
        exact ⟨by rw [hload.1], hload.2⟩
      · rw [if_neg he] at hload ⊢
        by_cases hbsl : (qr.dropWhile isspaceChar).headD 'Z' ≠ '\\'
        · rw [if_pos hbsl] at hload
          simp at hload
        · rw [if_neg hbsl] at hload ⊢
          rcases hrec : load_hex_lines (l.dropWhile isspaceChar) ls
            with _ | ⟨bs2, rest2⟩
          · rw [hrec] at hload
            simp at hload
          · rw [hrec] at hload
            have h1 := Option.some.inj hload
            injection h1 with h1a h1b
            subst h1a
            subst h1b
            rfl

theorem load_hex_lines_break (b : Nat) (hb : b < 256) (l : List Char)
    (ls : List (List Char)) (bs : List Nat) (rest : List (List Char))
    (hload : load_hex_lines (l.dropWhile isspaceChar) ls = some (bs, rest)) :
    load_hex_lines (hex2 b ++ [',', '\\']) (l :: ls)
      = some (b :: bs, rest) := by
  obtain ⟨hlen, _, _⟩ := hex2_spec b hb
  have hplen : (hex2 b ++ [',', '\\']).length + 1 = 4 + 1 := by
    rw [List.length_append, hlen]
    rfl
  have hstep := parse_hex_hex2_comma b hb ['\\'] 4
  have hbs : parse_hex 4 ['\\'] = ([], ['\\']) := by decide
  rw [hbs] at hstep
  simp only [load_hex_lines, hplen, hstep]
  rw [show (['\\'].dropWhile isspaceChar) = ['\\'] by decide]
  simp only [List.isEmpty_cons, List.headD_cons]
  rw [if_neg (by simp), if_neg (by simp), hload]
  simp

theorem dump_hex_roundtrip : ∀ (bytes : List Nat) (cur : List Char)
    (count : Nat), (∀ b ∈ bytes, b < 256) →
    ∃ suf cont, dump_hex_lines bytes cur count = (cur ++ suf) :: cont
      ∧ (∀ rest, load_hex_lines suf (cont ++ rest) = some (bytes, rest))
      ∧ suf.dropWhile isspaceChar = suf := by
  intro bytes
  induction bytes with
  | nil =>
      intro cur count _
      refine ⟨[], [], by simp [dump_hex_lines], ?_, rfl⟩
      intro rest
      simpa using load_hex_lines_nilbuf rest
  | cons b bs ih =>
      intro cur count hb
      have hb1 : b < 256 := hb b (by simp)
      have hheadfix : ∀ tl : List Char,
          (hex2 b ++ tl).dropWhile isspaceChar = hex2 b ++ tl := by
        intro tl
        obtain ⟨hlen, hdig, _⟩ := hex2_spec b hb1
        apply dropWhile_of_head_false
        intro a ha
        match hh : hex2 b, hlen with
        | [d1, d2], _ =>
            rw [hh] at ha
            simp only [List.cons_append, List.head?_cons,
              Option.some.injEq] at ha
            subst ha
            exact isspaceChar_of_xdigit d1 (hdig d1 (by rw [hh]; simp))
      cases bs with
      | nil =>
          refine ⟨hex2 b, [], by simp [dump_hex_lines], ?_, ?_⟩
          · intro rest
            simpa using load_hex_lines_last b hb1 rest
          · have := hheadfix []
            simpa using this
      | cons b2 bs2 =>
          by_cases hc : count + 3 > 76
          · obtain ⟨suf', cont', hd', hl', hw'⟩ :=
              ih "  ".toList 2 (fun x hx => hb x (by simp [hx]))
            refine ⟨hex2 b ++ [',', '\\'], ("  ".toList ++ suf') :: cont',
                    ?_, ?_, hheadfix _⟩
            · rw [dump_hex_lines, if_pos hc, hd']
              simp [List.append_assoc]
            · intro rest
              rw [List.cons_append]
              apply load_hex_lines_break b hb1 _ _ _ _ ?_
              have hdw2 : ("  ".toList ++ suf').dropWhile isspaceChar
                  = suf' := by
                apply dropWhile_append_stop
                · intro a ha
                  rw [show ("  ".toList) = [' ', ' '] from rfl] at ha
                  simp at ha
                  rw [ha]
                  decide
                · exact hw'
              rw [hdw2]
              exact hl' rest
          · obtain ⟨suf', cont', hd', hl', hw'⟩ :=
              ih (cur ++ hex2 b ++ [',']) (count + 3)
                (fun x hx => hb x (by simp [hx]))
            refine ⟨hex2 b ++ ',' :: suf', cont', ?_, ?_, hheadfix _⟩
            · rw [dump_hex_lines, if_neg hc, hd']
              simp [List.append_assoc]
            · intro rest
              exact load_hex_lines_hex2 b hb1 suf' _ _ _ (hl' rest)

/-! ### Wide-character/byte view round-trips and small list facts -/

theorem bytesOfWchars_wcharsOfData : ∀ (n : Nat) (d : List Nat),
    d.length ≤ n → d.length % 2 = 0 → (∀ b ∈ d, b < 256) →
    bytesOfWchars (wcharsOfData d) = d := by
  intro n
  induction n with
  | zero =>
      intro d h _ _
      have : d = [] := by
        cases d with
        | nil => rfl
        | cons b tl => simp at h
      subst this
      rfl
  | succ n ih =>
      intro d h heven hb
      cases d with
      | nil => rfl
      | cons b0 tl =>
          cases tl with
          | nil => simp at heven
          | cons b1 rest =>
              have hb0 : b0 < 256 := hb b0 (by simp)
              have hb1 : b1 < 256 := hb b1 (by simp)
              rw [wcharsOfData]
              rw [show bytesOfWchars ((b0 + 256 * b1) :: wcharsOfData rest)
                  = [(b0 + 256 * b1) % 256, (b0 + 256 * b1) / 256 % 256]
                    ++ bytesOfWchars (wcharsOfData rest) from rfl]
              rw [ih rest (by simp at h; omega) (by simp at heven; omega)
                  (fun x hx => hb x (by simp [hx]))]
              have e1 : (b0 + 256 * b1) % 256 = b0 := by omega
              have e2 : (b0 + 256 * b1) / 256 % 256 = b1 := by omega
              rw [e1, e2]
              rfl

theorem wcharsOfData_lt : ∀ (n : Nat) (d : List Nat),
    d.length ≤ n → (∀ b ∈ d, b < 256) →
    ∀ c ∈ wcharsOfData d, c < 65536 := by
  intro n
  induction n with
  | zero =>
      intro d h _ c hc
      have : d = [] := by
        cases d with
        | nil => rfl
        | cons b tl => simp at h
      subst this
      simp [wcharsOfData] at hc
  | succ n ih =>
      intro d h hb c hc
      cases d with
      | nil => simp [wcharsOfData] at hc
      | cons b0 tl =>
          cases tl with
          | nil => simp [wcharsOfData] at hc
          | cons b1 rest =>
              have hb0 : b0 < 256 := hb b0 (by simp)
              have hb1 : b1 < 256 := hb b1 (by simp)
              rw [wcharsOfData] at hc
              rcases List.mem_cons.mp hc with hm | hm
              · omega
              · exact ih rest (by simp at h; omega)
                  (fun x hx => hb x (by simp [hx])) c hm

theorem getLast?_ne_zero_of_pos (l : Wstr) (h : ∀ c ∈ l, 0 < c) :
    l.getLast? ≠ some 0 := by
  intro hc
  cases l with
  | nil => simp at hc
  | cons a t =>
      have hm : (0 : Nat) ∈ a :: t := by
        rw [← List.getLast_eq_iff_getLast?_eq_some (by simp)] at hc
        rw [← hc]
        exact List.getLast_mem _
      have := h 0 hm
      omega

theorem headD_append_of_ne_nil {α : Type} (l r : List α) (d : α)
    (h : l ≠ []) : (l ++ r).headD d = l.headD d := by
  cases l with
  | nil => exact absurd rfl h
  | cons a t => rfl

/-- dump_strW drops a single trailing NUL: appending one to a string not
already ending in NUL leaves the dumped text unchanged. -/
theorem dump_strW_append_nul (e1 e2 : Char) : ∀ u : Wstr,
    u.getLast? ≠ some 0 →
    dump_strW (u ++ [0]) e1 e2 = dump_strW u e1 e2 := by
  intro u
  induction u with
  | nil =>
      intro _
      simp [dump_strW]
  | cons c rest ih =>
      intro hlast
      have hrec := ih (noTrailNul_tail c rest hlast)
      rw [List.cons_append, dump_strW, dump_strW, hrec]
      by_cases hr : rest = []
      · subst hr
        have hc0 : c ≠ 0 := by
          intro hc
          exact hlast (by rw [hc]; rfl)
        simp [isxdigitN, hc0]
      · have hhd0 : (rest ++ [0]).headD 0 = rest.headD 0 :=
          headD_append_of_ne_nil rest [0] 0 hr
        simp only [hhd0]
        simp [hr]

theorem listInsertAt_length_append {α : Type} (l : List α) (a : α) :
    listInsertAt l l.length a = l ++ [a] := by
  simp [listInsertAt]

theorem getD_append_length {α : Type} [Inhabited α] (l : List α) (a : α) :
    (l ++ [a]).getD l.length default = a := by
  rw [List.getD_eq_getElem?_getD, List.getElem?_append_right (by omega)]
  simp

theorem set_append_length {α : Type} (l : List α) (a b : α) :
    (l ++ [a]).set l.length b = l ++ [b] := by
  rw [← listInsertAt_length_append, listInsertAt_set_self _ _ _ _ (by omega),
      listInsertAt_length_append]

theorem Key.withLevel_self (k : Key) : k.withLevel k.level = k := by
  cases k
  rfl

/-! ### Value-line load lemmas -/

theorem insert_value_append (key : Key) (nm : Wstr)
    (hfind : find_value key nm = (false, key.values.length)) :
    insert_value key nm true true
      = (Key.withValues
          (if key.values.length = key.nbValues then grow_values key else key)
          (key.values ++ [⟨nm, 0, []⟩]),
         some key.values.length) := by
  unfold insert_value
  rw [hfind]
  dsimp only
  rw [if_neg (by simp)]
  rw [if_neg (by simp)]
  rw [growIte_values, listInsertAt_length_append]

theorem pvn_str_at (X : List Char) :
    parse_value_name_str ('@' :: '=' :: X) = some ([], X) := by
  simp [parse_value_name_str]

theorem pvn_str_quoted (nm : Wstr) (hnm : ∀ c ∈ nm, 0 < c ∧ c < 65536)
    (X : List Char) :
    parse_value_name_str
      ('\"' :: (dump_strW nm '\"' '\"' ++ '\"' :: '=' :: X))
      = some (nm, X) := by
  have hparse : parse_strW (dump_strW nm '\"' '\"' ++ '\"' :: '=' :: X) '\"'
      = some (nm, '=' :: X) := by
    rw [parse_strW]
    apply dump_parse_roundtrip '\"' '\"' (by decide) (by decide)
    · exact fun c hc => (hnm c hc).2
    · exact getLast?_ne_zero_of_pos nm (fun c hc => (hnm c hc).1)
    · have := dump_length_ge '\"' '\"' nm
        (getLast?_ne_zero_of_pos nm (fun c hc => (hnm c hc).1))
      simp only [List.length_append, List.length_cons]
      omega
  simp [parse_value_name_str, hparse]

theorem parse_value_name_dump (key : Key) (nm : Wstr) (line : List Char)
    (X : List Char)
    (hstr : parse_value_name_str line = some (nm, X))
    (hfind : find_value key nm = (false, key.values.length)) :
    parse_value_name key line
      = some (Key.withValues
                (if key.values.length = key.nbValues then grow_values key
                 else key)
                (key.values ++ [⟨nm, 0, []⟩]),
              key.values.length, X) := by
  unfold parse_value_name
  rw [hstr]
  dsimp only
  rw [insert_value_append key nm hfind]

theorem gdt_quote (X : List Char) :
    get_data_type ('\"' :: X) = some (REG_SZ, REG_SZ, 1) := by
  simp [get_data_type]

theorem gdt_str2 (X : List Char) :
    get_data_type ('s' :: 't' :: 'r' :: '(' :: '2' :: ')' :: ':' :: '\"' :: X)
      = some (REG_EXPAND_SZ, REG_SZ, 8) := by
  simp [get_data_type]

theorem gdt_str7 (X : List Char) :
    get_data_type ('s' :: 't' :: 'r' :: '(' :: '7' :: ')' :: ':' :: '\"' :: X)
      = some (REG_MULTI_SZ, REG_SZ, 8) := by
  simp [get_data_type]

theorem gdt_dword (X : List Char) :
    get_data_type ('d' :: 'w' :: 'o' :: 'r' :: 'd' :: ':' :: X)
      = some (REG_DWORD, REG_DWORD, 6) := by
  simp [get_data_type]

theorem gdt_hex (X : List Char) :
    get_data_type ('h' :: 'e' :: 'x' :: ':' :: X)
      = some (REG_BINARY, REG_BINARY, 4) := by
  simp [get_data_type]

theorem gdt_hexty (ty : Nat) (X : List Char) :
    get_data_type ('h' :: 'e' :: 'x' :: '(' ::
        (hexStr ty ++ ')' :: ':' :: X))
      = some (ty, REG_BINARY, 4 + (hexStr ty).length + 2) := by
  obtain ⟨hdig, hval, hpos⟩ := hexStr_spec ty
  have htw : (hexStr ty ++ ')' :: ':' :: X).takeWhile isxdigitChar
      = hexStr ty :=
    takeWhile_append_stop isxdigitChar _ _ hdig
      (by rw [List.takeWhile_cons, show isxdigitChar ')' = false by decide]
          simp)
  have hdw : (hexStr ty ++ ')' :: ':' :: X).dropWhile isxdigitChar
      = ')' :: ':' :: X :=
    dropWhile_append_stop isxdigitChar _ _ hdig
      (dropWhile_of_head_false _ _
        (by intro a ha; simp at ha; rw [← ha]; decide))
  rw [get_data_type]
  rw [if_neg (by simp), if_neg (by simp), if_neg (by simp),
      if_neg (by simp), if_neg (by simp), if_neg (by simp),
      if_pos (by simp)]
  dsimp only
  rw [show ('h' :: 'e' :: 'x' :: '(' ::
      (hexStr ty ++ ')' :: ':' :: X)).drop 4
      = hexStr ty ++ ')' :: ':' :: X from rfl]
  rw [htw, hdw]
  rw [if_pos (by simp)]
  rw [hval]

theorem pvd_sz (u : Wstr) (hu : ∀ c ∈ u, c < 65536)
    (hlast : u.getLast? ≠ some 0) (restLines : List (List Char)) :
    parse_value_data REG_SZ (dump_strW u '\"' '\"' ++ ['\"']) restLines
      = some (bytesOfWchars (u ++ [0]), restLines) := by
  have hparse : parse_strW (dump_strW u '\"' '\"' ++ ['\"']) '\"'
      = some (u, []) := by
    rw [parse_strW]
    apply dump_parse_roundtrip '\"' '\"' (by decide) (by decide) u [] _ hu hlast
    have := dump_length_ge '\"' '\"' u hlast
    simp only [List.length_append, List.length_cons]
    omega
  rw [parse_value_data, if_pos rfl, hparse]

theorem pvd_dword (n : Nat) (restLines : List (List Char)) :
    parse_value_data REG_DWORD (hex8 n) restLines
      = some (dwordBytes n, restLines) := by
  rw [parse_value_data]
  rw [if_neg (by decide), if_pos rfl, strtoulHex_hex8]

theorem pvd_hex (pty : Nat) (h1 : pty ≠ REG_SZ) (h2 : pty ≠ REG_DWORD)
    (buf : List Char) (restLines : List (List Char)) :
    parse_value_data pty buf restLines = load_hex_lines buf restLines := by
  rw [parse_value_data, if_neg h1, if_neg h2]

theorem Key.withValues_withValues (k : Key) (a b : List KeyValue) :
    (k.withValues a).withValues b = k.withValues b := by
  cases k
  rfl

/-- assembling one value line: when the name part, the type tag and the
payload all parse back, `load_value` appends exactly the original value to
the key's (sorted, all-smaller) value array and changes nothing else. -/
theorem load_value_assemble (key : Key) (v : KeyValue) (line : List Char)
    (Y : List Char) (pty res : Nat)
    (restLines restOut : List (List Char)) (clvl : Int)
    (hfind : find_value key v.name = (false, key.values.length))
    (hlvl : key.level = clvl)
    (hstr : parse_value_name_str line = some (v.name, Y))
    (hgdt : get_data_type Y = some (v.vtype, pty, res))
    (hpvd : parse_value_data pty (Y.drop res) restLines
        = some (v.data, restOut)) :
    load_value key line restLines clvl
      = (Key.withValues
          (if key.values.length = key.nbValues then grow_values key else key)
          (key.values ++ [v]), restOut, true) := by
  unfold load_value
  rw [parse_value_name_dump key v.name line Y hstr hfind]
  dsimp only
  rw [hgdt]
  dsimp only
  rw [hpvd]
  dsimp only
  simp only [Key.values_withValues, Key.level_withValues, growIte_level]
  rw [getD_append_length, set_append_length]
  rw [Key.withValues_withValues]
  rw [show (⟨v.name, v.vtype, v.data⟩ : KeyValue) = v from rfl]
  rw [hlvl, max_self]
  have hl2 : (Key.withValues
      (if key.values.length = key.nbValues then grow_values key else key)
      (key.values ++ [v])).withLevel clvl
      = Key.withValues
          (if key.values.length = key.nbValues then grow_values key else key)
          (key.values ++ [v]) := by
    rw [show clvl = (Key.withValues
        (if key.values.length = key.nbValues then grow_values key else key)
        (key.values ++ [v])).level from by simp [hlvl]]
    exact Key.withLevel_self _
  rw [hl2]

theorem wfValue_parts (v : KeyValue) (h : wfValue v = true) :
    (∀ c ∈ v.name, 0 < c ∧ c < 65536) ∧ (∀ b ∈ v.data, b < 256) ∧
    ((v.vtype = REG_SZ ∨ v.vtype = REG_EXPAND_SZ ∨ v.vtype = REG_MULTI_SZ) →
      v.data.length % 2 = 0 ∧ (wcharsOfData v.data).getLast? = some 0 ∧
      (wcharsOfData v.data).dropLast.getLast? ≠ some 0) := by
  unfold wfValue at h
  simp only [Bool.and_eq_true, List.all_eq_true, decide_eq_true_eq] at h
  refine ⟨h.1.1, h.1.2, ?_⟩
  intro hsz
  have h3 := h.2
  rw [if_pos hsz] at h3
  simp only [Bool.and_eq_true, decide_eq_true_eq] at h3
  exact ⟨h3.1.1, h3.1.2, h3.2⟩

theorem sz_data_split (v : KeyValue) (heven : v.data.length % 2 = 0)
    (hb : ∀ b ∈ v.data, b < 256)
    (hg : (wcharsOfData v.data).getLast? = some 0) :
    (wcharsOfData v.data).dropLast ++ [0] = wcharsOfData v.data ∧
    (∀ c ∈ (wcharsOfData v.data).dropLast, c < 65536) ∧
    bytesOfWchars ((wcharsOfData v.data).dropLast ++ [0]) = v.data := by
  have hwne : wcharsOfData v.data ≠ [] := by
    intro hc
    rw [hc] at hg
    simp at hg
  have hsplit : (wcharsOfData v.data).dropLast ++ [0] = wcharsOfData v.data := by
    have hlast : (wcharsOfData v.data).getLast hwne = 0 := by
      rw [List.getLast?_eq_getLast _ hwne] at hg
      exact Option.some.inj hg
    rw [← hlast]
    exact List.dropLast_append_getLast hwne
  refine ⟨hsplit, ?_, ?_⟩
  · intro c hc
    exact wcharsOfData_lt v.data.length v.data (Nat.le_refl _) hb c
      (List.dropLast_subset _ hc)
  · rw [hsplit]
    exact bytesOfWchars_wcharsOfData v.data.length v.data (Nat.le_refl _)
      heven hb

theorem pvn_str_pre (v : KeyValue) (hname : ∀ c ∈ v.name, 0 < c ∧ c < 65536)
    (Y : List Char) :
    parse_value_name_str
      ((if v.name ≠ [] then '\"' :: dump_strW v.name '\"' '\"' ++ "\"=".toList
        else "@=".toList) ++ Y) = some (v.name, Y) := by
  by_cases hn : v.name = []
  · rw [if_neg (by simp [hn])]
    rw [hn]
    exact pvn_str_at Y
  · rw [if_pos hn]
    rw [show ('\"' :: dump_strW v.name '\"' '\"' ++ "\"=".toList) ++ Y
        = '\"' :: (dump_strW v.name '\"' '\"' ++ '\"' :: '=' :: Y) from by
      simp [show ("\"=".toList) = ['\"', '='] from rfl]]
    exact pvn_str_quoted v.name hname Y

/-- the per-value round trip: the line group `dump_value` emits for a
well-formed value loads back as exactly that value appended to the key's
(all-smaller-named) value array, consuming exactly its continuation
lines. -/
theorem load_value_dump (key : Key) (v : KeyValue) (clvl : Int)
    (hwf : wfValue v = true)
    (hfind : find_value key v.name = (false, key.values.length))
    (hlvl : key.level = clvl) :
    ∃ line cont, dump_value v = line :: cont
      ∧ ∀ more, load_value key line (cont ++ more) clvl
          = (Key.withValues
              (if key.values.length = key.nbValues then grow_values key
               else key) (key.values ++ [v]), more, true) := by
  obtain ⟨hname, hbytes, hstrcond⟩ := wfValue_parts v hwf
  by_cases hsz : v.vtype = REG_SZ ∨ v.vtype = REG_EXPAND_SZ ∨
      v.vtype = REG_MULTI_SZ
  · obtain ⟨heven, hg, hl⟩ := hstrcond hsz
    obtain ⟨hsplit, hu65, hbw⟩ := sz_data_split v heven hbytes hg
    have hdumpw : dump_strW (wcharsOfData v.data) '\"' '\"'
        = dump_strW ((wcharsOfData v.data).dropLast) '\"' '\"' := by
      conv_lhs => rw [← hsplit]
      exact dump_strW_append_nul '\"' '\"' _ hl
    have hpvdsz : ∀ more : List (List Char),
        parse_value_data REG_SZ
          (dump_strW ((wcharsOfData v.data).dropLast) '\"' '\"' ++ ['\"'])
          more = some (v.data, more) := by
      intro more
      rw [pvd_sz _ hu65 hl more, hbw]
    rcases hsz with h1 | h2 | h7
    · have hline : dump_value v
          = [(if v.name ≠ []
              then '\"' :: dump_strW v.name '\"' '\"' ++ "\"=".toList
              else "@=".toList)
             ++ ('\"' :: (dump_strW ((wcharsOfData v.data).dropLast)
                  '\"' '\"' ++ ['\"']))] := by
        rw [dump_value, if_pos (Or.inl h1), hdumpw]
        rw [if_neg (show ¬(v.vtype ≠ REG_SZ) from by rw [h1]; simp)]
        simp [apply_ite Prod.fst]
      refine ⟨_, [], hline, ?_⟩
      intro more
      apply load_value_assemble key v _
        ('\"' :: (dump_strW ((wcharsOfData v.data).dropLast) '\"' '\"'
          ++ ['\"'])) REG_SZ 1 ([] ++ more) more clvl hfind hlvl
      · exact pvn_str_pre v hname _
      · rw [h1]
        exact gdt_quote _
      · rw [show (('\"' :: (dump_strW ((wcharsOfData v.data).dropLast)
            '\"' '\"' ++ ['\"'])).drop 1)
            = dump_strW ((wcharsOfData v.data).dropLast) '\"' '\"' ++ ['\"']
            from rfl]
        rw [show ([] : List (List Char)) ++ more = more from rfl]
        exact hpvdsz more
    · have hline : dump_value v
          = [(if v.name ≠ []
              then '\"' :: dump_strW v.name '\"' '\"' ++ "\"=".toList
              else "@=".toList)
             ++ ('s' :: 't' :: 'r' :: '(' :: '2' :: ')' :: ':' :: '\"' ::
                  (dump_strW ((wcharsOfData v.data).dropLast) '\"' '\"'
                   ++ ['\"']))] := by
        rw [dump_value, if_pos (Or.inr (Or.inl h2)), hdumpw]
        rw [if_pos (show v.vtype ≠ REG_SZ from by rw [h2]; decide)]
        rw [h2]
        rw [show natDec REG_EXPAND_SZ = ['2'] from by decide]
        simp [apply_ite Prod.fst,
          show ("str(".toList) = ['s', 't', 'r', '('] from rfl,
          show ("):".toList) = [')', ':'] from rfl]
      refine ⟨_, [], hline, ?_⟩
      intro more
      apply load_value_assemble key v _
        ('s' :: 't' :: 'r' :: '(' :: '2' :: ')' :: ':' :: '\"' ::
          (dump_strW ((wcharsOfData v.data).dropLast) '\"' '\"' ++ ['\"']))
        REG_SZ 8 ([] ++ more) more clvl hfind hlvl
      · exact pvn_str_pre v hname _
      · rw [h2]
        exact gdt_str2 _
      · rw [show (('s' :: 't' :: 'r' :: '(' :: '2' :: ')' :: ':' :: '\"' ::
            (dump_strW ((wcharsOfData v.data).dropLast) '\"' '\"'
             ++ ['\"'])).drop 8)
            = dump_strW ((wcharsOfData v.data).dropLast) '\"' '\"' ++ ['\"']
            from rfl]
        rw [show ([] : List (List Char)) ++ more = more from rfl]
        exact hpvdsz more
    · have hline : dump_value v
          = [(if v.name ≠ []
              then '\"' :: dump_strW v.name '\"' '\"' ++ "\"=".toList
              else "@=".toList)
             ++ ('s' :: 't' :: 'r' :: '(' :: '7' :: ')' :: ':' :: '\"' ::
                  (dump_strW ((wcharsOfData v.data).dropLast) '\"' '\"'
                   ++ ['\"']))] := by
        rw [dump_value, if_pos (Or.inr (Or.inr h7)), hdumpw]
        rw [if_pos (show v.vtype ≠ REG_SZ from by rw [h7]; decide)]
        rw [h7]
        rw [show natDec REG_MULTI_SZ = ['7'] from by decide]
        simp [apply_ite Prod.fst,
          show ("str(".toList) = ['s', 't', 'r', '('] from rfl,
          show ("):".toList) = [')', ':'] from rfl]
      refine ⟨_, [], hline, ?_⟩
      intro more
      apply load_value_assemble key v _
        ('s' :: 't' :: 'r' :: '(' :: '7' :: ')' :: ':' :: '\"' ::
          (dump_strW ((wcharsOfData v.data).dropLast) '\"' '\"' ++ ['\"']))
        REG_SZ 8 ([] ++ more) more clvl hfind hlvl
      · exact pvn_str_pre v hname _
      · rw [h7]
        exact gdt_str7 _
      · rw [show (('s' :: 't' :: 'r' :: '(' :: '7' :: ')' :: ':' :: '\"' ::
            (dump_strW ((wcharsOfData v.data).dropLast) '\"' '\"'
             ++ ['\"'])).drop 8)
            = dump_strW ((wcharsOfData v.data).dropLast) '\"' '\"' ++ ['\"']
            from rfl]
        rw [show ([] : List (List Char)) ++ more = more from rfl]
        exact hpvdsz more
  · by_cases hd4 : v.vtype = REG_DWORD ∧ v.data.length = 4
    · have hline : dump_value v
          = [(if v.name ≠ []
              then '\"' :: dump_strW v.name '\"' '\"' ++ "\"=".toList
              else "@=".toList)
             ++ ('d' :: 'w' :: 'o' :: 'r' :: 'd' :: ':' ::
                  hex8 (dwordOfBytes v.data))] := by
        rw [dump_value, if_neg hsz, if_pos hd4]
        simp [apply_ite Prod.fst,
          show ("dword:".toList) = ['d', 'w', 'o', 'r', 'd', ':'] from rfl]
      refine ⟨_, [], hline, ?_⟩
      intro more
      apply load_value_assemble key v _
        ('d' :: 'w' :: 'o' :: 'r' :: 'd' :: ':' ::
          hex8 (dwordOfBytes v.data)) REG_DWORD 6 ([] ++ more) more clvl
        hfind hlvl
      · exact pvn_str_pre v hname _
      · rw [hd4.1]
        exact gdt_dword _
      · rw [show (('d' :: 'w' :: 'o' :: 'r' :: 'd' :: ':' ::
            hex8 (dwordOfBytes v.data)).drop 6)
            = hex8 (dwordOfBytes v.data) from rfl]
        rw [show ([] : List (List Char)) ++ more = more from rfl]
        rw [pvd_dword, dwordBytes_dwordOfBytes v.data hd4.2 hbytes]
    · by_cases hbin : v.vtype = REG_BINARY
      · obtain ⟨suf, cont, hdump, hload, _⟩ :=
          dump_hex_roundtrip v.data
            ((if v.name ≠ []
              then '\"' :: dump_strW v.name '\"' '\"' ++ "\"=".toList
              else "@=".toList) ++ "hex:".toList)
            ((if v.name ≠ []
              then 1 + (dump_strW v.name '\"' '\"').length + 2 else 2) + 4)
            hbytes
        have hline : dump_value v
            = ((if v.name ≠ []
                then '\"' :: dump_strW v.name '\"' '\"' ++ "\"=".toList
                else "@=".toList)
               ++ ('h' :: 'e' :: 'x' :: ':' :: suf)) :: cont := by
          rw [dump_value, if_neg hsz, if_neg hd4, if_pos hbin]
          rw [show dump_hex_lines v.data
              ((if v.name ≠ [] then
                  ('\"' :: dump_strW v.name '\"' '\"' ++ "\"=".toList,
                   1 + (dump_strW v.name '\"' '\"').length + 2)
                else ("@=".toList, 2)).1 ++ "hex:".toList)
              ((if v.name ≠ [] then
                  ('\"' :: dump_strW v.name '\"' '\"' ++ "\"=".toList,
                   1 + (dump_strW v.name '\"' '\"').length + 2)
                else ("@=".toList, 2)).2 + 4)
              = dump_hex_lines v.data
                ((if v.name ≠ []
                  then '\"' :: dump_strW v.name '\"' '\"' ++ "\"=".toList
                  else "@=".toList) ++ "hex:".toList)
                ((if v.name ≠ []
                  then 1 + (dump_strW v.name '\"' '\"').length + 2 else 2)
                  + 4) from by
            by_cases hn : v.name ≠ [] <;> simp [hn]]
          rw [hdump]
          congr 1
          simp [List.append_assoc,
            show ("hex:".toList) = ['h', 'e', 'x', ':'] from rfl]
        refine ⟨_, cont, hline, ?_⟩
        intro more
        apply load_value_assemble key v _
          ('h' :: 'e' :: 'x' :: ':' :: suf) REG_BINARY 4 (cont ++ more) more
          clvl hfind hlvl
        · exact pvn_str_pre v hname _
        · rw [hbin]
          exact gdt_hex _
        · rw [show (('h' :: 'e' :: 'x' :: ':' :: suf).drop 4) = suf from rfl]
          rw [pvd_hex REG_BINARY (by decide) (by decide)]
          exact hload more
      · obtain ⟨suf, cont, hdump, hload, _⟩ :=
          dump_hex_roundtrip v.data
            ((if v.name ≠ []
              then '\"' :: dump_strW v.name '\"' '\"' ++ "\"=".toList
              else "@=".toList) ++ "hex(".toList ++ hexStr v.vtype
              ++ "):".toList)
            ((if v.name ≠ []
              then 1 + (dump_strW v.name '\"' '\"').length + 2 else 2) + 4
              + (hexStr v.vtype).length + 2)
            hbytes
        have hline : dump_value v
            = ((if v.name ≠ []
                then '\"' :: dump_strW v.name '\"' '\"' ++ "\"=".toList
                else "@=".toList)
               ++ ('h' :: 'e' :: 'x' :: '(' ::
                    (hexStr v.vtype ++ ')' :: ':' :: suf))) :: cont := by
          rw [dump_value, if_neg hsz, if_neg hd4, if_neg hbin]
          rw [show dump_hex_lines v.data
              ((if v.name ≠ [] then
                  ('\"' :: dump_strW v.name '\"' '\"' ++ "\"=".toList,
                   1 + (dump_strW v.name '\"' '\"').length + 2)
                else ("@=".toList, 2)).1 ++ "hex(".toList ++ hexStr v.vtype
                 ++ "):".toList)
              ((if v.name ≠ [] then
                  ('\"' :: dump_strW v.name '\"' '\"' ++ "\"=".toList,
                   1 + (dump_strW v.name '\"' '\"').length + 2)
                else ("@=".toList, 2)).2 + 4 + (hexStr v.vtype).length + 2)
              = dump_hex_lines v.data
                ((if v.name ≠ []
                  then '\"' :: dump_strW v.name '\"' '\"' ++ "\"=".toList
                  else "@=".toList) ++ "hex(".toList ++ hexStr v.vtype
                  ++ "):".toList)
                ((if v.name ≠ []
                  then 1 + (dump_strW v.name '\"' '\"').length + 2 else 2)
                  + 4 + (hexStr v.vtype).length + 2) from by
            by_cases hn : v.name ≠ [] <;> simp [hn]]
          rw [hdump]
          congr 1
          simp [List.append_assoc,
            show ("hex(".toList) = ['h', 'e', 'x', '('] from rfl,
            show ("):".toList) = [')', ':'] from rfl]
        refine ⟨_, cont, hline, ?_⟩
        intro more
        apply load_value_assemble key v _
          ('h' :: 'e' :: 'x' :: '(' ::
            (hexStr v.vtype ++ ')' :: ':' :: suf)) REG_BINARY
          (4 + (hexStr v.vtype).length + 2) (cont ++ more) more
          clvl hfind hlvl
        · exact pvn_str_pre v hname _
        · exact gdt_hexty v.vtype suf
        · rw [show (('h' :: 'e' :: 'x' :: '(' ::
              (hexStr v.vtype ++ ')' :: ':' :: suf)).drop
                (4 + (hexStr v.vtype).length + 2))
              = suf from by
            rw [show 4 + (hexStr v.vtype).length + 2
                = 4 + ((hexStr v.vtype).length + 2) from by omega]
            rw [← List.drop_drop]
            rw [show (('h' :: 'e' :: 'x' :: '(' ::
                (hexStr v.vtype ++ ')' :: ':' :: suf)).drop 4)
                = hexStr v.vtype ++ ')' :: ':' :: suf from rfl]
            rw [← List.drop_drop, List.drop_left]
            rfl]
          rw [pvd_hex REG_BINARY (by decide) (by decide)]
          exact hload more

/-! ### Sorted-array order facts and binary-search correctness -/

theorem chainLtB_tail (x : Wstr) (l : List Wstr) (h : chainLtB (x :: l) = true) :
    chainLtB l = true := by
  cases l with
  | nil => rfl
  | cons y r => simp only [chainLtB, Bool.and_eq_true] at h; exact h.2

theorem chainLtB_head (x y : Wstr) (l : List Wstr)
    (h : chainLtB (x :: y :: l) = true) : strcmpiW x y < 0 := by
  simp only [chainLtB, Bool.and_eq_true, decide_eq_true_eq] at h
  exact h.1

theorem chainLtB_head_all (l : List Wstr) : ∀ (x : Wstr),
    chainLtB (x :: l) = true → ∀ i, i < l.length →
    strcmpiW x (l.getD i []) < 0 := by
  induction l with
  | nil => intro x _ i hi; simp at hi
  | cons y r ih =>
      intro x h i hi
      cases i with
      | zero => simpa using chainLtB_head x y r h
      | succ j =>
          have h1 := chainLtB_head x y r h
          have h2 := ih y (chainLtB_tail x _ h) j (by simpa using hi)
          simpa using strcmpiW_lt_trans x y (r.getD j []) h1 h2

theorem chainLtB_pairwise (l : List Wstr) (h : chainLtB l = true) :
    ∀ a b, a < b → b < l.length →
    strcmpiW (l.getD a []) (l.getD b []) < 0 := by
  induction l with
  | nil => intro a b _ hb; simp at hb
  | cons x r ih =>
      intro a b hab hb
      cases a with
      | zero =>
          cases b with
          | zero => omega
          | succ j =>
              simpa using chainLtB_head_all r x h j (by simpa using hb)
      | succ a1 =>
          cases b with
          | zero => omega
          | succ b1 =>
              simpa using ih (chainLtB_tail x r h) a1 b1 (by omega)
                (by simpa using hb)

theorem chainLtB_append_left (l2 : List Wstr) : ∀ (l1 : List Wstr),
    chainLtB (l1 ++ l2) = true → chainLtB l1 = true := by
  intro l1
  induction l1 with
  | nil => intro _; rfl
  | cons x r ih =>
      intro h
      cases r with
      | nil => rfl
      | cons y s =>
          rw [List.cons_append, List.cons_append] at h
          simp only [chainLtB, Bool.and_eq_true] at h ⊢
          refine ⟨h.1, ?_⟩
          have := ih (by rw [List.cons_append]; exact h.2)
          exact this

theorem map_name_getD_val (vs : List KeyValue) : ∀ (i : Nat), i < vs.length →
    (vs.map KeyValue.name).getD i [] = (vs.getD i default).name := by
  induction vs with
  | nil => intro i hi; simp at hi
  | cons v r ih =>
      intro i hi
      cases i with
      | zero => rfl
      | succ j => simpa using ih j (by simpa using hi)

theorem map_name_getD_key (ks : List Key) : ∀ (i : Nat), i < ks.length →
    (ks.map (fun s => s.name.getD [])).getD i []
      = (ks.getD i default).name.getD [] := by
  induction ks with
  | nil => intro i hi; simp at hi
  | cons k r ih =>
      intro i hi
      cases i with
      | zero => rfl
      | succ j => simpa using ih j (by simpa using hi)

theorem getD_append_cons {α : Type} (A : List α) (x : α) (B : List α) (d : α) :
    (A ++ x :: B).getD A.length d = x := by
  rw [List.getD_eq_getElem?_getD, List.getElem?_append_right (Nat.le_refl _)]
  simp

theorem find_value_loop_all_lt (vs : List KeyValue) (nm : Wstr) :
    ∀ (fuel lo hi : Nat), lo ≤ hi → hi - lo ≤ fuel → hi ≤ vs.length →
    (∀ i, lo ≤ i → i < hi → strcmpiW ((vs.getD i default).name) nm < 0) →
    find_value_loop fuel vs nm lo hi = (false, hi) := by
  intro fuel
  induction fuel with
  | zero =>
      intro lo hi h1 h2 _ _
      have h3 : lo = hi := by omega
      subst h3
      rfl
  | succ f ih =>
      intro lo hi h1 h2 h3 h4
      simp only [find_value_loop]
      by_cases hlt : lo < hi
      · rw [if_pos hlt]
        have hres := h4 ((lo + hi - 1) / 2) (by omega) (by omega)
        rw [if_neg (by omega), if_neg (by omega)]
        exact ih ((lo + hi - 1) / 2 + 1) hi (by omega) (by omega) h3
          (fun j hj1 hj2 => h4 j (by omega) hj2)
      · rw [if_neg hlt]
        have h5 : lo = hi := by omega
        subst h5
        rfl

theorem find_value_loop_found (vs : List KeyValue) (nm : Wstr) (j : Nat)
    (hpair : ∀ a b, a < b → b < vs.length →
      strcmpiW ((vs.getD a default).name) ((vs.getD b default).name) < 0)
    (hj : (vs.getD j default).name = nm) :
    ∀ (fuel lo hi : Nat), hi - lo ≤ fuel → lo ≤ j → j < hi → hi ≤ vs.length →
    find_value_loop fuel vs nm lo hi = (true, j) := by
  intro fuel
  induction fuel with
  | zero => intro lo hi h1 h2 h3 _; omega
  | succ f ih =>
      intro lo hi h1 h2 h3 h4
      simp only [find_value_loop]
      rw [if_pos (by omega : lo < hi)]
      rcases Nat.lt_trichotomy ((lo + hi - 1) / 2) j with hij | hij | hij
      · have hres : strcmpiW ((vs.getD ((lo + hi - 1) / 2) default).name) nm
            < 0 := by
          rw [← hj]; exact hpair _ j hij (by omega)
        rw [if_neg (by omega), if_neg (by omega)]
        exact ih ((lo + hi - 1) / 2 + 1) hi (by omega) (by omega) h3 h4
      · rw [hij, hj]
        rw [if_pos (strcmpiW_refl nm)]
      · have h5 := hpair j ((lo + hi - 1) / 2) hij (by omega)
        rw [hj] at h5
        have h6 := strcmpiW_antisymm ((vs.getD ((lo + hi - 1) / 2) default).name)
          nm
        rw [if_neg (by omega), if_pos (by omega)]
        exact ih lo ((lo + hi - 1) / 2) (by omega) h2 hij (by omega)

theorem find_value_all_lt (key : Key) (nm : Wstr)
    (h : ∀ i, i < key.values.length →
      strcmpiW ((key.values.getD i default).name) nm < 0) :
    find_value key nm = (false, key.values.length) := by
  rw [find_value]
  exact find_value_loop_all_lt key.values nm (key.values.length + 1) 0
    key.values.length (by omega) (by omega) (by omega)
    (fun i _ hi => h i hi)

theorem find_value_chain_next (key : Key) (nm : Wstr) (tailNames : List Wstr)
    (hchain : chainLtB (key.values.map KeyValue.name ++ nm :: tailNames)
      = true) :
    find_value key nm = (false, key.values.length) := by
  apply find_value_all_lt
  intro i hi
  have hp := chainLtB_pairwise _ hchain i (key.values.map KeyValue.name).length
    (by simpa using hi) (by simp)
  rw [List.getD_append _ _ _ _ (by simpa using hi), getD_append_cons,
      map_name_getD_val key.values i hi] at hp
  exact hp

theorem find_subkey_loop_all_lt (ks : List Key) (nm : Wstr) :
    ∀ (fuel lo hi : Nat), lo ≤ hi → hi - lo ≤ fuel → hi ≤ ks.length →
    (∀ i, lo ≤ i → i < hi →
      strcmpiW ((ks.getD i default).name.getD []) nm < 0) →
    find_subkey_loop fuel ks nm lo hi = (false, hi) := by
  intro fuel
  induction fuel with
  | zero =>
      intro lo hi h1 h2 _ _
      have h3 : lo = hi := by omega
      subst h3
      rfl
  | succ f ih =>
      intro lo hi h1 h2 h3 h4
      simp only [find_subkey_loop]
      by_cases hlt : lo < hi
      · rw [if_pos hlt]
        have hres := h4 ((lo + hi - 1) / 2) (by omega) (by omega)
        rw [if_neg (by omega), if_neg (by omega)]
        exact ih ((lo + hi - 1) / 2 + 1) hi (by omega) (by omega) h3
          (fun j hj1 hj2 => h4 j (by omega) hj2)
      · rw [if_neg hlt]
        have h5 : lo = hi := by omega
        subst h5
        rfl

theorem find_subkey_loop_found (ks : List Key) (nm : Wstr) (j : Nat)
    (hpair : ∀ a b, a < b → b < ks.length →
      strcmpiW ((ks.getD a default).name.getD [])
        ((ks.getD b default).name.getD []) < 0)
    (hj : (ks.getD j default).name.getD [] = nm) :
    ∀ (fuel lo hi : Nat), hi - lo ≤ fuel → lo ≤ j → j < hi → hi ≤ ks.length →
    find_subkey_loop fuel ks nm lo hi = (true, j) := by
  intro fuel
  induction fuel with
  | zero => intro lo hi h1 h2 h3 _; omega
  | succ f ih =>
      intro lo hi h1 h2 h3 h4
      simp only [find_subkey_loop]
      rw [if_pos (by omega : lo < hi)]
      rcases Nat.lt_trichotomy ((lo + hi - 1) / 2) j with hij | hij | hij
      · have hres : strcmpiW ((ks.getD ((lo + hi - 1) / 2) default).name.getD [])
            nm < 0 := by
          rw [← hj]; exact hpair _ j hij (by omega)
        rw [if_neg (by omega), if_neg (by omega)]
        exact ih ((lo + hi - 1) / 2 + 1) hi (by omega) (by omega) h3 h4
      · rw [hij, hj]
        rw [if_pos (strcmpiW_refl nm)]
      · have h5 := hpair j ((lo + hi - 1) / 2) hij (by omega)
        rw [hj] at h5
        have h6 := strcmpiW_antisymm
          ((ks.getD ((lo + hi - 1) / 2) default).name.getD []) nm
        rw [if_neg (by omega), if_pos (by omega)]
        exact ih lo ((lo + hi - 1) / 2) (by omega) h2 hij (by omega)

theorem find_subkey_all_lt (key : Key) (nm : Wstr)
    (h : ∀ i, i < key.subkeys.length →
      strcmpiW ((key.subkeys.getD i default).name.getD []) nm < 0) :
    find_subkey key nm = (false, key.subkeys.length) := by
  rw [find_subkey]
  exact find_subkey_loop_all_lt key.subkeys nm (key.subkeys.length + 1) 0
    key.subkeys.length (by omega) (by omega) (by omega)
    (fun i _ hi => h i hi)

theorem find_subkey_chain_next (key : Key) (nm : Wstr) (tailNames : List Wstr)
    (hchain : chainLtB
      (key.subkeys.map (fun s => s.name.getD []) ++ nm :: tailNames) = true) :
    find_subkey key nm = (false, key.subkeys.length) := by
  apply find_subkey_all_lt
  intro i hi
  have hp := chainLtB_pairwise _ hchain i
    (key.subkeys.map (fun s => s.name.getD [])).length
    (by simpa using hi) (by simp)
  rw [List.getD_append _ _ _ _ (by simpa using hi), getD_append_cons,
      map_name_getD_key key.subkeys i hi] at hp
  exact hp

theorem find_subkey_at (key : Key) (j : Nat)
    (hchain : chainLtB (key.subkeys.map (fun s => s.name.getD [])) = true)
    (hj : j < key.subkeys.length) :
    find_subkey key ((key.subkeys.getD j default).name.getD []) = (true, j) := by
  rw [find_subkey]
  apply find_subkey_loop_found
  · intro a b hab hb
    have hp := chainLtB_pairwise _ hchain a b hab (by simpa using hb)
    rwa [map_name_getD_key _ a (by omega), map_name_getD_key _ b hb] at hp
  · rfl
  · omega
  · omega
  · omega
  · omega

theorem find_subkey_loop_found_lt (ks : List Key) (nm : Wstr) :
    ∀ (fuel lo hi i : Nat), hi ≤ ks.length →
    find_subkey_loop fuel ks nm lo hi = (true, i) → i < ks.length := by
  intro fuel
  induction fuel with
  | zero =>
      intro lo hi i _ h
      simp [find_subkey_loop] at h
  | succ f ih =>
      intro lo hi i hhi h
      simp only [find_subkey_loop] at h
      by_cases hlt : lo < hi
      · rw [if_pos hlt] at h
        by_cases h0 :
            strcmpiW ((ks.getD ((lo + hi - 1) / 2) default).name.getD []) nm = 0
        · rw [if_pos h0] at h
          injection h with h1 h2
          omega
        · rw [if_neg h0] at h
          by_cases h1 : strcmpiW
              ((ks.getD ((lo + hi - 1) / 2) default).name.getD []) nm > 0
          · rw [if_pos h1] at h
            exact ih lo ((lo + hi - 1) / 2) i (by omega) h
          · rw [if_neg h1] at h
            exact ih ((lo + hi - 1) / 2 + 1) hi i hhi h
      · rw [if_neg hlt] at h
        simp at h

theorem find_subkey_found_lt (k : Key) (nm : Wstr) (i : Nat)
    (h : find_subkey k nm = (true, i)) : i < k.subkeys.length :=
  find_subkey_loop_found_lt k.subkeys nm (k.subkeys.length + 1) 0
    k.subkeys.length i (Nat.le_refl _) h

theorem find_subkey_loop_congr (ks ks2 : List Key) (nm : Wstr)
    (hlen : ks.length = ks2.length)
    (hn : ∀ i, (ks.getD i default).name = (ks2.getD i default).name) :
    ∀ (fuel lo hi : Nat),
    find_subkey_loop fuel ks nm lo hi = find_subkey_loop fuel ks2 nm lo hi := by
  intro fuel
  induction fuel with
  | zero => intro lo hi; rfl
  | succ f ih =>
      intro lo hi
      simp only [find_subkey_loop]
      rw [hn ((lo + hi - 1) / 2)]
      simp only [ih]

theorem find_subkey_congr (k k2 : Key) (nm : Wstr)
    (hlen2 : k.subkeys.length = k2.subkeys.length)
    (hn : ∀ i, (k.subkeys.getD i default).name
      = (k2.subkeys.getD i default).name) :
    find_subkey k nm = find_subkey k2 nm := by
  rw [find_subkey, find_subkey, hlen2]
  exact find_subkey_loop_congr k.subkeys k2.subkeys nm hlen2 hn _ _ _


/-! ### Path navigation lemmas (getAtPath / setAtPath) -/

theorem set_getD_self {α : Type} : ∀ (l : List α) (i : Nat) (d : α),
    i < l.length → l.set i (l.getD i d) = l := by
  intro l
  induction l with
  | nil => intro i d hi; simp at hi
  | cons a r ih =>
      intro i d hi
      cases i with
      | zero => rfl
      | succ j =>
          show a :: r.set j (r.getD j d) = a :: r
          rw [ih j d (by simpa using hi)]

theorem getD_set_self {α : Type} : ∀ (l : List α) (i : Nat) (a d : α),
    i < l.length → (l.set i a).getD i d = a := by
  intro l
  induction l with
  | nil => intro i a d hi; simp at hi
  | cons x r ih =>
      intro i a d hi
      cases i with
      | zero => rfl
      | succ j =>
          show (r.set j a).getD j d = a
          exact ih j a d (by simpa using hi)

theorem getD_set_ne {α : Type} : ∀ (l : List α) (i j : Nat) (a d : α),
    i ≠ j → (l.set i a).getD j d = l.getD j d := by
  intro l
  induction l with
  | nil => intro i j a d _; rfl
  | cons x r ih =>
      intro i j a d hij
      cases i with
      | zero =>
          cases j with
          | zero => exact absurd rfl hij
          | succ m => rfl
      | succ n =>
          cases j with
          | zero => rfl
          | succ m =>
              show (r.set n a).getD m d = r.getD m d
              exact ih n m a d (fun hc => hij (by rw [hc]))

theorem Key.withSubkeys_self (k : Key) : k.withSubkeys k.subkeys = k := by
  cases k
  rfl

theorem Key.withValuesCap_self (k : Key) :
    k.withValuesCap k.values k.nbValues = k := by
  cases k
  rfl

theorem Key.withSubkeysCap_self (k : Key) :
    k.withSubkeysCap k.subkeys k.nbSubkeys = k := by
  cases k
  rfl

theorem Key.withSubkeysCap_withSubkeys (k : Key) (s : List Key) (c : Nat)
    (s2 : List Key) :
    (k.withSubkeysCap s c).withSubkeys s2 = k.withSubkeysCap s2 c := by
  cases k
  rfl

theorem Key.withSubkeys_withSubkeys (k : Key) (s s2 : List Key) :
    (k.withSubkeys s).withSubkeys s2 = k.withSubkeys s2 := by
  cases k
  rfl

theorem Key.withValues_withValuesCap (k : Key) (v : List KeyValue)
    (x : List KeyValue) (c : Nat) :
    (k.withValues v).withValuesCap x c = k.withValuesCap x c := by
  cases k
  rfl

theorem Key.withValuesCap_withValuesCap (k : Key) (v x : List KeyValue)
    (c c2 : Nat) :
    (k.withValuesCap v c).withValuesCap x c2 = k.withValuesCap x c2 := by
  cases k
  rfl

theorem setAtPath_name_keep (tp : List Wstr) (B P K : Key)
    (hget : getAtPath B tp = some P) (hK : K.name = P.name) :
    (setAtPath B tp K).name = B.name := by
  cases tp with
  | nil =>
      rw [getAtPath] at hget
      injection hget with hBP
      rw [setAtPath, hK, ← hBP]
  | cons t ts =>
      rw [setAtPath]
      rcases hf : find_subkey B t with ⟨fb, i⟩
      cases fb
      · rfl
      · rw [Key.name_withSubkeys]

theorem setAtPath_flags_keep (tp : List Wstr) (B P K : Key)
    (hget : getAtPath B tp = some P) (hK : K.flags = P.flags) :
    (setAtPath B tp K).flags = B.flags := by
  cases tp with
  | nil =>
      rw [getAtPath] at hget
      injection hget with hBP
      rw [setAtPath, hK, ← hBP]
  | cons t ts =>
      rw [setAtPath]
      rcases hf : find_subkey B t with ⟨fb, i⟩
      cases fb
      · rfl
      · rw [Key.flags_withSubkeys]

theorem setAtPath_values_keep (tp : List Wstr) (B P K : Key)
    (hget : getAtPath B tp = some P) (hK : K.values = P.values) :
    (setAtPath B tp K).values = B.values := by
  cases tp with
  | nil =>
      rw [getAtPath] at hget
      injection hget with hBP
      rw [setAtPath, hK, ← hBP]
  | cons t ts =>
      rw [setAtPath]
      rcases hf : find_subkey B t with ⟨fb, i⟩
      cases fb
      · rfl
      · rw [Key.values_withSubkeys]

theorem isDeleted_congr (k k2 : Key) (h : k.flags = k2.flags) :
    k.isDeleted = k2.isDeleted := by
  rw [Key.isDeleted, Key.isDeleted, h]

theorem isVolatile_congr (k k2 : Key) (h : k.flags = k2.flags) :
    k.isVolatile = k2.isVolatile := by
  rw [Key.isVolatile, Key.isVolatile, h]

theorem find_subkey_set_name (B : Key) (t : Wstr) (i : Nat) (Y : Key)
    (hf : find_subkey B t = (true, i))
    (hY : Y.name = (B.subkeys.getD i default).name) :
    find_subkey (B.withSubkeys (B.subkeys.set i Y)) t = (true, i) := by
  have hlt := find_subkey_found_lt B t i hf
  rw [← hf]
  apply find_subkey_congr
  · simp
  · intro m
    rw [Key.subkeys_withSubkeys]
    by_cases hm : i = m
    · subst hm
      rw [getD_set_self _ _ _ _ hlt, hY]
    · rw [getD_set_ne _ _ _ _ _ hm]

theorem getAtPath_append (p q : List Wstr) : ∀ (B : Key),
    getAtPath B (p ++ q) = (getAtPath B p).bind (fun P => getAtPath P q) := by
  induction p with
  | nil => intro B; simp [getAtPath]
  | cons t ts ih =>
      intro B
      simp only [List.cons_append, getAtPath]
      rcases hf : find_subkey B t with ⟨fb, i⟩
      cases fb
      · simp
      · simpa using ih (B.subkeys.getD i default)

theorem getAtPath_cons_found (B : Key) (t : Wstr) (ts : List Wstr) (i : Nat)
    (hf : find_subkey B t = (true, i)) :
    getAtPath B (t :: ts) = getAtPath (B.subkeys.getD i default) ts := by
  rw [getAtPath, hf]

theorem getAtPath_cons_miss (B : Key) (t : Wstr) (ts : List Wstr) (i : Nat)
    (hf : find_subkey B t = (false, i)) :
    getAtPath B (t :: ts) = none := by
  rw [getAtPath, hf]

theorem setAtPath_cons_found (B : Key) (t : Wstr) (ts : List Wstr) (i : Nat)
    (K : Key) (hf : find_subkey B t = (true, i)) :
    setAtPath B (t :: ts) K
      = B.withSubkeys
          (B.subkeys.set i (setAtPath (B.subkeys.getD i default) ts K)) := by
  rw [setAtPath, hf]

theorem getAtPath_setAtPath : ∀ (tp : List Wstr) (B P K : Key),
    getAtPath B tp = some P → K.name = P.name →
    getAtPath (setAtPath B tp K) tp = some K := by
  intro tp
  induction tp with
  | nil => intro B P K _ _; simp [getAtPath, setAtPath]
  | cons t ts ih =>
      intro B P K hget hname
      rcases hf : find_subkey B t with ⟨fb, i⟩
      cases fb
      · rw [getAtPath_cons_miss B t ts i hf] at hget
        simp at hget
      · rw [getAtPath_cons_found B t ts i hf] at hget
        have hlt : i < B.subkeys.length := find_subkey_found_lt B t i hf
        rw [setAtPath_cons_found B t ts i K hf]
        have hcong := find_subkey_set_name B t i
          (setAtPath (B.subkeys.getD i default) ts K) hf
          (setAtPath_name_keep ts (B.subkeys.getD i default) P K hget hname)
        rw [getAtPath_cons_found _ t ts i hcong, Key.subkeys_withSubkeys,
            getD_set_self _ _ _ _ hlt]
        exact ih (B.subkeys.getD i default) P K hget hname

theorem setAtPath_getAtPath_self : ∀ (tp : List Wstr) (B P : Key),
    getAtPath B tp = some P → setAtPath B tp P = B := by
  intro tp
  induction tp with
  | nil =>
      intro B P hget
      rw [getAtPath] at hget
      injection hget with hBP
      rw [setAtPath, ← hBP]
  | cons t ts ih =>
      intro B P hget
      rcases hf : find_subkey B t with ⟨fb, i⟩
      cases fb
      · rw [getAtPath_cons_miss B t ts i hf] at hget
        simp at hget
      · rw [getAtPath_cons_found B t ts i hf] at hget
        have hlt : i < B.subkeys.length := find_subkey_found_lt B t i hf
        rw [setAtPath_cons_found B t ts i P hf,
            ih (B.subkeys.getD i default) P hget,
            set_getD_self _ _ _ hlt, Key.withSubkeys_self]

theorem setAtPath_setAtPath : ∀ (tp : List Wstr) (B P K1 K2 : Key),
    getAtPath B tp = some P → K1.name = P.name →
    setAtPath (setAtPath B tp K1) tp K2 = setAtPath B tp K2 := by
  intro tp
  induction tp with
  | nil => intro B P K1 K2 _ _; rfl
  | cons t ts ih =>
      intro B P K1 K2 hget hname
      rcases hf : find_subkey B t with ⟨fb, i⟩
      cases fb
      · rw [getAtPath_cons_miss B t ts i hf] at hget
        simp at hget
      · rw [getAtPath_cons_found B t ts i hf] at hget
        have hlt : i < B.subkeys.length := find_subkey_found_lt B t i hf
        have hcong := find_subkey_set_name B t i
          (setAtPath (B.subkeys.getD i default) ts K1) hf
          (setAtPath_name_keep ts (B.subkeys.getD i default) P K1 hget hname)
        rw [setAtPath_cons_found B t ts i K1 hf,
            setAtPath_cons_found _ t ts i K2 hcong, Key.subkeys_withSubkeys,
            getD_set_self _ _ _ _ hlt,
            ih (B.subkeys.getD i default) P K1 K2 hget hname,
            Key.withSubkeys_withSubkeys, List.set_set,
            setAtPath_cons_found B t ts i K2 hf]

theorem setAtPath_append : ∀ (p q : List Wstr) (B P K : Key),
    getAtPath B p = some P →
    setAtPath B (p ++ q) K = setAtPath B p (setAtPath P q K) := by
  intro p
  induction p with
  | nil =>
      intro q B P K hget
      rw [getAtPath] at hget
      injection hget with hBP
      rw [List.nil_append, setAtPath, hBP]
  | cons t ts ih =>
      intro q B P K hget
      rcases hf : find_subkey B t with ⟨fb, i⟩
      cases fb
      · rw [getAtPath_cons_miss B t ts i hf] at hget
        simp at hget
      · rw [getAtPath_cons_found B t ts i hf] at hget
        rw [List.cons_append, setAtPath_cons_found B t (ts ++ q) i K hf,
            setAtPath_cons_found B t ts i (setAtPath P q K) hf,
            ih q (B.subkeys.getD i default) P K hget]

/-! ### Replaying `create_key` during a load: descend along existing sorted
keys, then append the one missing final component -/

theorem Key.withSubkeys_eq_cap (k : Key) (s : List Key) :
    k.withSubkeys s = k.withSubkeysCap s k.nbSubkeys := by
  cases k
  rfl

theorem capAfter_succ (n : Nat) : capAfter (n + 1) = capStep n (capAfter n) :=
  rfl

theorem alloc_subkey_append (P : Key) (nm : Wstr) (modif clvl : Int)
    (hcap : P.nbSubkeys = capAfter P.subkeys.length) :
    alloc_subkey P nm P.subkeys.length modif true clvl
      = some (P.withSubkeysCap (P.subkeys ++ [alloc_key (some nm) modif clvl])
                (capAfter (P.subkeys.length + 1)),
              alloc_key (some nm) modif clvl) := by
  rw [alloc_subkey]
  rw [if_neg (by simp)]
  by_cases hfull : P.subkeys.length = P.nbSubkeys
  · rw [if_pos hfull, grow_subkeys]
    by_cases hz : P.nbSubkeys ≠ 0
    · rw [if_pos hz]
      simp only [Key.subkeys_withSubkeysCap]
      rw [listInsertAt_length_append, Key.withSubkeysCap_withSubkeys]
      rw [capAfter_succ, capStep, if_pos (by omega), if_neg (by omega), hcap]
    · rw [if_neg hz]
      simp only [Key.subkeys_withSubkeysCap]
      rw [listInsertAt_length_append, Key.withSubkeysCap_withSubkeys]
      rw [capAfter_succ, capStep, if_pos (by omega), if_pos (by omega)]
  · rw [if_neg hfull]
    simp only []
    rw [listInsertAt_length_append, Key.withSubkeys_eq_cap]
    rw [capAfter_succ, capStep, if_neg (by omega), hcap]

theorem create_phase2_replay (B : Key) (nm : Wstr) (modif clvl : Int)
    (hcap : B.nbSubkeys = capAfter B.subkeys.length) :
    create_phase2 B B.subkeys.length nm [] 0 none modif [] clvl
      = (B.withSubkeysCap (B.subkeys ++ [alloc_key (some nm) modif clvl])
           (capAfter (B.subkeys.length + 1)), some [nm], none) := by
  have hchain : create_chain (alloc_key (some nm) modif clvl) [] 0 none modif
      (([] : List Bool).tail) clvl
      = some (alloc_key (some nm) modif clvl, []) := by
    rw [create_chain]
    simp [alloc_key, Key.withFlags, Key.flags]
  rw [create_phase2, show (([] : List Bool).getD 0 true) = true from rfl,
      alloc_subkey_append B nm modif clvl hcap]
  split
  · rename_i heq
    exact absurd heq (by simp)
  · rename_i base1 child heq
    injection heq with heq1
    injection heq1 with heqB heqC
    subst heqB
    subst heqC
    rw [hchain]
    split
    · rename_i heq2
      exact absurd heq2 (by simp)
    · rename_i child1 p heq2
      injection heq2 with heq3
      injection heq3 with heqD heqE
      subst heqD
      subst heqE
      rw [Key.subkeys_withSubkeysCap, set_append_length,
          Key.withSubkeysCap_withSubkeys]

theorem create_key_rec_cons_miss (B : Key) (tok : Wstr) (rest : List Wstr)
    (flags : Nat) (cls : Option Wstr) (modif : Int) (oracle : List Bool)
    (clvl : Int) (idx : Nat) (hf : find_subkey B tok = (false, idx)) :
    create_key_rec B (tok :: rest) flags cls modif oracle clvl
      = { tree := (create_phase2 B idx tok rest flags cls modif oracle clvl).1
          okPath :=
            (create_phase2 B idx tok rest flags cls modif oracle clvl).2.1
          created := true
          err :=
            (create_phase2 B idx tok rest flags cls modif oracle clvl).2.2 } := by
  rw [create_key_rec, hf]

theorem create_key_rec_cons_found (B : Key) (tok : Wstr) (rest : List Wstr)
    (flags : Nat) (cls : Option Wstr) (modif : Int) (oracle : List Bool)
    (clvl : Int) (i : Nat) (hf : find_subkey B tok = (true, i)) :
    create_key_rec B (tok :: rest) flags cls modif oracle clvl
      = { tree := B.withSubkeys (B.subkeys.set i
            (create_key_rec (B.subkeys.getD i default) rest flags cls modif
              oracle clvl).tree)
          okPath := Option.map (fun p => tok :: p)
            (create_key_rec (B.subkeys.getD i default) rest flags cls modif
              oracle clvl).okPath
          created := (create_key_rec (B.subkeys.getD i default) rest flags cls
            modif oracle clvl).created
          err := (create_key_rec (B.subkeys.getD i default) rest flags cls
            modif oracle clvl).err } := by
  rw [create_key_rec, hf]

theorem create_key_rec_replay : ∀ (tp : List Wstr) (B P : Key) (nm : Wstr)
    (modif clvl : Int),
    getAtPath B tp = some P →
    find_subkey P nm = (false, P.subkeys.length) →
    P.nbSubkeys = capAfter P.subkeys.length →
    create_key_rec B (tp ++ [nm]) 0 none modif [] clvl
      = { tree := setAtPath B tp
            (P.withSubkeysCap (P.subkeys ++ [alloc_key (some nm) modif clvl])
              (capAfter (P.subkeys.length + 1)))
          okPath := some (tp ++ [nm])
          created := true
          err := none } := by
  intro tp
  induction tp with
  | nil =>
      intro B P nm modif clvl hget hfind hcap
      rw [getAtPath] at hget
      injection hget with hBP
      subst hBP
      rw [List.nil_append,
          create_key_rec_cons_miss B nm [] 0 none modif [] clvl
            B.subkeys.length hfind,
          create_phase2_replay B nm modif clvl hcap]
      rfl
  | cons t ts ih =>
      intro B P nm modif clvl hget hfind hcap
      rcases hf : find_subkey B t with ⟨fb, i⟩
      cases fb
      · rw [getAtPath_cons_miss B t ts i hf] at hget
        simp at hget
      · rw [getAtPath_cons_found B t ts i hf] at hget
        rw [List.cons_append,
            create_key_rec_cons_found B t (ts ++ [nm]) 0 none modif [] clvl i
              hf,
            ih (B.subkeys.getD i default) P nm modif clvl hget hfind hcap,
            setAtPath_cons_found B t ts i _ hf]
        rfl

theorem create_key_replay (B P : Key) (path : Wstr) (tp : List Wstr)
    (nm : Wstr) (modif clvl : Int)
    (hd : B.isDeleted = false) (hv : B.isVolatile = false)
    (htok : get_path_tokens path = tp ++ [nm])
    (hget : getAtPath B tp = some P)
    (hfind : find_subkey P nm = (false, P.subkeys.length))
    (hcap : P.nbSubkeys = capAfter P.subkeys.length) :
    create_key B path none 0 modif [] clvl
      = { tree := setAtPath B tp
            (P.withSubkeysCap (P.subkeys ++ [alloc_key (some nm) modif clvl])
              (capAfter (P.subkeys.length + 1)))
          okPath := some (tp ++ [nm])
          created := true
          err := none } := by
  rw [create_key, if_neg (by simp [hd]), if_neg (by simp [hv]), htok]
  exact create_key_rec_replay tp B P nm modif clvl hget hfind hcap


/-! ### Path text round trip: `dump_path` output parses back to the token
path (label kept verbatim, each component escape-decoded) -/

theorem parse_strW_fuel_mono : ∀ (fuel fuel2 : Nat) (src : List Char)
    (e : Char) (r : Wstr × List Char), fuel ≤ fuel2 →
    parse_strW_fuel fuel src e = some r →
    parse_strW_fuel fuel2 src e = some r := by
  intro fuel
  induction fuel with
  | zero =>
      intro fuel2 src e r _ h
      simp [parse_strW_fuel] at h
  | succ f ih =>
      intro fuel2 src e r hle h
      obtain ⟨g, rfl⟩ : ∃ g, fuel2 = g + 1 := ⟨fuel2 - 1, by omega⟩
      cases src with
      | nil =>
          simp [parse_strW_fuel] at h
      | cons c rest =>
          simp only [parse_strW_fuel] at h ⊢
          by_cases h0 : c.toNat = 0
          · rw [if_pos h0] at h
            simp at h
          · rw [if_neg h0] at h ⊢
            by_cases h1 : c = e
            · rw [if_pos h1] at h ⊢
              exact h
            · rw [if_neg h1] at h ⊢
              by_cases h2 : c ≠ '\\'
              · rw [if_pos h2] at h ⊢
                rcases hp : parse_strW_fuel f rest e with _ | ⟨s, t⟩
                · rw [hp] at h
                  simp at h
                · rw [hp] at h
                  rw [ih g rest e (s, t) (by omega) hp]
                  exact h
              · rw [if_neg h2] at h ⊢
                cases rest with
                | nil => exact h
                | cons d rest2 =>
                    dsimp only at h ⊢
                    rcases hp : parse_strW_fuel f (parse_esc_step d rest2).2 e
                      with _ | ⟨s, t⟩
                    · rw [hp] at h
                      simp at h
                    · rw [hp] at h
                      rw [ih g _ e (s, t) (by omega) hp]
                      exact h

theorem parse_esc_backslash (X : List Char) :
    parse_esc_step '\\' X = (92, X) := rfl

theorem parse_esc2_backslash (f : Nat) (Y : List Char) :
    parse_strW_fuel (f + 1) ('\\' :: '\\' :: Y) ']'
      = Option.map (fun p => (92 :: p.1, p.2)) (parse_strW_fuel f Y ']') := by
  simpa [parse_esc_backslash] using parse_step_esc2 f '\\' Y ']' (by decide)

theorem parse_label_prefix : ∀ (label : List Char), wfLabel label = true →
    ∀ (tail : List Char) (fuel : Nat),
    parse_strW_fuel (label.length + fuel) (label ++ tail) ']'
      = Option.map (fun p => (label.map Char.toNat ++ p.1, p.2))
          (parse_strW_fuel fuel tail ']') := by
  intro label
  induction label with
  | nil =>
      intro _ tail fuel
      rcases hp : parse_strW_fuel fuel tail ']' with _ | ⟨s, t⟩ <;> simp [hp]
  | cons ch rest ih =>
      intro hlab tail fuel
      have hch : ch.toNat ≠ 0 ∧ ch ≠ ']' ∧ ch ≠ '\\' := by
        simp only [wfLabel, List.all_cons, Bool.and_eq_true,
          decide_eq_true_eq] at hlab
        exact hlab.1
      have hrest : wfLabel rest = true := by
        simp only [wfLabel, List.all_cons, Bool.and_eq_true] at hlab
        exact hlab.2
      rw [show (ch :: rest).length + fuel = (rest.length + fuel) + 1 from by
            simp only [List.length_cons]; omega,
          List.cons_append,
          parse_step_lit2 (rest.length + fuel) ch (rest ++ tail) ']'
            hch.1 hch.2.1 hch.2.2,
          ih hrest tail fuel]
      rcases hp : parse_strW_fuel fuel tail ']' with _ | ⟨s, t⟩ <;> simp [hp]

theorem joinW_cons (n : Wstr) (ts : List Wstr) :
    joinW (n :: ts) = 92 :: (n ++ joinW ts) := by
  simp [joinW]

theorem joinW_length_ge : ∀ (ts : List Wstr), ts.length ≤ (joinW ts).length := by
  intro ts
  induction ts with
  | nil => simp [joinW]
  | cons n us ih =>
      rw [joinW_cons]
      simp only [List.length_cons, List.length_append]
      omega

theorem goodName_parts (n : Wstr) (hg : goodName n = true) :
    n ≠ [] ∧ n.length ≤ TOKEN_BOUND ∧
    ∀ c ∈ n, 0 < c ∧ c < 65536 ∧ c ≠ 92 := by
  simp only [goodName, Bool.and_eq_true, List.all_eq_true, decide_eq_true_eq,
    Bool.not_eq_true'] at hg
  refine ⟨?_, hg.1.2, hg.2⟩
  intro hc
  subst hc
  simp at hg

theorem pathFlat_len_ge : ∀ (tp : List Wstr), (∀ n ∈ tp, goodName n = true) →
    (joinW tp).length
      ≤ ((tp.map (fun n => '\\' :: '\\' :: dump_strW n '[' ']')).flatten).length := by
  intro tp
  induction tp with
  | nil => simp [joinW]
  | cons n ts ih =>
      intro h
      obtain ⟨hne, hbd, hall⟩ := goodName_parts n (h n (by simp))
      have hd := dump_length_ge '[' ']' n
        (getLast?_ne_zero_of_pos n (fun c hc => (hall c hc).1))
      have hih := ih (fun m hm => h m (by simp [hm]))
      rw [joinW_cons]
      simp only [List.map_cons, List.flatten_cons, List.length_append,
        List.length_cons]
      omega

theorem parse_comps_append : ∀ (tp : List Wstr),
    (∀ n ∈ tp, goodName n = true) →
    ∀ (cont : List Char) (fuel : Nat),
    isxdigitChar (cont.headD 'Z') = false →
    parse_strW_fuel ((joinW tp).length + fuel)
        ((tp.map (fun n => '\\' :: '\\' :: dump_strW n '[' ']')).flatten
          ++ cont) ']'
      = Option.map (fun p => (joinW tp ++ p.1, p.2))
          (parse_strW_fuel fuel cont ']') := by
  intro tp
  induction tp with
  | nil =>
      intro _ cont fuel _
      rcases hp : parse_strW_fuel fuel cont ']' with _ | ⟨s, t⟩ <;>
        simp [joinW, hp]
  | cons n ts ih =>
      intro h cont fuel hx
      obtain ⟨hne, hbd, hall⟩ := goodName_parts n (h n (by simp))
      have hts : ∀ m ∈ ts, goodName m = true := fun m hm => h m (by simp [hm])
      have hxd : isxdigitChar
          (((ts.map (fun m => '\\' :: '\\' :: dump_strW m '[' ']')).flatten
            ++ cont).headD 'Z') = false := by
        cases ts with
        | nil => simpa using hx
        | cons u us =>
            simp only [List.map_cons, List.flatten_cons, List.cons_append,
              List.headD_cons]
            decide
      have e1 : (joinW (n :: ts)).length + fuel
          = (n.length + ((joinW ts).length + fuel)) + 1 := by
        rw [joinW_cons]
        simp only [List.length_cons, List.length_append]
        omega
      have e2 : ((n :: ts).map
            (fun m => '\\' :: '\\' :: dump_strW m '[' ']')).flatten ++ cont
          = '\\' :: '\\' :: (dump_strW n '[' ']'
              ++ ((ts.map (fun m => '\\' :: '\\' :: dump_strW m '[' ']')).flatten
                ++ cont)) := by
        simp
      rw [e1, e2, parse_esc2_backslash,
          parse_dump_append '[' ']' (by decide) (by decide) n _
            ((joinW ts).length + fuel) (fun c hc => (hall c hc).2.1)
            (getLast?_ne_zero_of_pos n (fun c hc => (hall c hc).1)) hxd,
          ih hts cont fuel hx]
      rcases hp : parse_strW_fuel fuel cont ']' with _ | ⟨s, t⟩ <;>
        simp [hp, joinW_cons]

theorem parse_path_dump (label : List Char) (hlab : wfLabel label = true)
    (tp : List Wstr) (htp : ∀ n ∈ tp, goodName n = true) (tail : List Char) :
    parse_strW (dumpPathText label tp ++ ']' :: tail) ']'
      = some (label.map Char.toNat ++ joinW tp, tail) := by
  have hcomps : parse_strW_fuel ((joinW tp).length + 1)
      ((tp.map (fun n => '\\' :: '\\' :: dump_strW n '[' ']')).flatten
        ++ ']' :: tail) ']' = some (joinW tp, tail) := by
    have h0 := parse_comps_append tp htp (']' :: tail) 1
      (by rw [List.headD_cons]; decide)
    rw [show (1 : Nat) = 0 + 1 from rfl,
        parse_delim_stop ']' tail 0 (by decide)] at h0
    simpa using h0
  have hlabel := parse_label_prefix label hlab
    ((tp.map (fun n => '\\' :: '\\' :: dump_strW n '[' ']')).flatten
      ++ ']' :: tail) ((joinW tp).length + 1)
  rw [hcomps] at hlabel
  have hfin : parse_strW_fuel (label.length + ((joinW tp).length + 1))
      (dumpPathText label tp ++ ']' :: tail) ']'
      = some (label.map Char.toNat ++ joinW tp, tail) := by
    rw [show dumpPathText label tp ++ ']' :: tail = label ++
        ((tp.map (fun n => '\\' :: '\\' :: dump_strW n '[' ']')).flatten
          ++ ']' :: tail) from by simp [dumpPathText], hlabel]
    rfl
  rw [parse_strW]
  apply parse_strW_fuel_mono _ _ _ _ _ _ hfin
  have hge := pathFlat_len_ge tp htp
  simp only [dumpPathText, List.length_append, List.length_cons]
  omega

theorem skipFirstComponent_all (s : Wstr) (h : ∀ c ∈ s, ¬(c = 0 ∨ c = 92)) :
    skipFirstComponent s = [] := by
  rw [skipFirstComponent]
  rw [takeWhile_all _ s (fun c hc => by simpa using h c hc)]
  simp [List.drop_length]

theorem skipFirstComponent_join (labelW : Wstr) (t : Wstr) (ts : List Wstr)
    (h : ∀ c ∈ labelW, ¬(c = 0 ∨ c = 92)) :
    skipFirstComponent (labelW ++ joinW (t :: ts)) = t ++ joinW ts := by
  rw [skipFirstComponent, joinW_cons]
  rw [takeWhile_append_stop _ labelW (92 :: (t ++ joinW ts))
        (fun c hc => by simpa using h c hc) (by simp)]
  simp [List.drop_left]

theorem get_path_tokens_fuel_nil (fuel : Nat) :
    get_path_tokens_fuel fuel [] = [] := by
  cases fuel with
  | zero => rfl
  | succ f =>
      rw [get_path_tokens_fuel]
      simp [get_path_token_step]

theorem get_path_token_step_join (t : Wstr) (ts : List Wstr)
    (hg : goodName t = true) (hts : ∀ n ∈ ts, goodName n = true) :
    get_path_token_step (t ++ joinW ts) = (t, joinW ts) := by
  obtain ⟨hne, hbd, hall⟩ := goodName_parts t hg
  obtain ⟨c, t1, rfl⟩ : ∃ c t1, t = c :: t1 := by
    cases t with
    | nil => exact absurd rfl hne
    | cons c t1 => exact ⟨c, t1, rfl⟩
  have hc92 : c ≠ 92 := (hall c (by simp)).2.2
  rw [get_path_token_step]
  rw [dropWhile_of_head_false _ ((c :: t1) ++ joinW ts)
        (by intro a ha
            simp only [List.cons_append, List.head?_cons,
              Option.some.injEq] at ha
            subst ha
            simpa using hc92)]
  have htw : ((c :: t1) ++ joinW ts).takeWhile
      (fun x => decide ¬(x = 0 ∨ x = 92)) = c :: t1 := by
    cases ts with
    | nil =>
        rw [show joinW ([] : List Wstr) = [] from rfl, List.append_nil]
        exact takeWhile_all _ (c :: t1)
          (fun a ha => by
            have := hall a ha
            simp only [decide_eq_true_eq]
            omega)
    | cons u us =>
        rw [joinW_cons]
        exact takeWhile_append_stop _ (c :: t1) _
          (fun a ha => by
            have := hall a ha
            simp only [decide_eq_true_eq]
            omega)
          (by simp)
  rw [htw]
  rw [List.take_of_length_le (by simpa using hbd)]
  rw [show ((c :: t1) ++ joinW ts).drop (c :: t1).length = joinW ts from
        List.drop_left (c :: t1) (joinW ts)]

theorem get_path_token_step_cons92 (X : Wstr) :
    get_path_token_step (92 :: X) = get_path_token_step X := by
  rw [get_path_token_step, get_path_token_step]
  simp [List.dropWhile_cons]

theorem get_path_tokens_fuel_join : ∀ (ts : List Wstr) (fuel : Nat) (t : Wstr),
    goodName t = true → (∀ n ∈ ts, goodName n = true) → ts.length < fuel →
    get_path_tokens_fuel fuel (t ++ joinW ts) = t :: ts
    ∧ get_path_tokens_fuel fuel (joinW (t :: ts)) = t :: ts := by
  intro ts
  induction ts with
  | nil =>
      intro fuel t hg _ hf
      obtain ⟨f, rfl⟩ : ∃ f, fuel = f + 1 := ⟨fuel - 1, by omega⟩
      have hne0 : t ≠ [] := (goodName_parts t hg).1
      constructor
      · rw [get_path_tokens_fuel,
            get_path_token_step_join t [] hg (by simp)]
        show (if t = [] then [] else
          t :: get_path_tokens_fuel f (joinW [])) = [t]
        rw [if_neg hne0, show joinW ([] : List Wstr) = [] from rfl,
            get_path_tokens_fuel_nil]
      · have hstep : get_path_token_step t = (t, []) := by
          have h0 := get_path_token_step_join t [] hg (by simp)
          rw [show joinW ([] : List Wstr) = [] from rfl, List.append_nil] at h0
          exact h0
        rw [joinW_cons, show joinW ([] : List Wstr) = [] from rfl,
            List.append_nil, get_path_tokens_fuel,
            get_path_token_step_cons92, hstep]
        show (if t = [] then [] else t :: get_path_tokens_fuel f []) = [t]
        rw [if_neg hne0, get_path_tokens_fuel_nil]
  | cons u us ih =>
      intro fuel t hg hts hf
      obtain ⟨f, rfl⟩ : ∃ f, fuel = f + 1 := ⟨fuel - 1, by omega⟩
      have hne0 : t ≠ [] := (goodName_parts t hg).1
      have hu : goodName u = true := hts u (by simp)
      have hus : ∀ n ∈ us, goodName n = true :=
        fun n hn => hts n (by simp [hn])
      have hrec := (ih f u hu hus (by
        simp only [List.length_cons] at hf
        omega)).2
      have hpart : get_path_tokens_fuel (f + 1) (t ++ joinW (u :: us))
          = t :: u :: us := by
        rw [get_path_tokens_fuel, get_path_token_step_join t (u :: us) hg hts]
        show (if t = [] then [] else
          t :: get_path_tokens_fuel f (joinW (u :: us))) = t :: u :: us
        rw [if_neg hne0, hrec]
      refine ⟨hpart, ?_⟩
      rw [joinW_cons, get_path_tokens_fuel, get_path_token_step_cons92,
          get_path_token_step_join t (u :: us) hg hts]
      show (if t = [] then [] else
        t :: get_path_tokens_fuel f (joinW (u :: us))) = t :: u :: us
      rw [if_neg hne0, hrec]

theorem get_path_tokens_join (t : Wstr) (ts : List Wstr)
    (hg : goodName t = true) (hts : ∀ n ∈ ts, goodName n = true) :
    get_path_tokens (t ++ joinW ts) = t :: ts := by
  rw [get_path_tokens]
  refine (get_path_tokens_fuel_join ts ((t ++ joinW ts).length + 1) t hg hts
    ?_).1
  have := joinW_length_ge ts
  simp only [List.length_append]
  omega

theorem get_path_tokens_nil : get_path_tokens [] = [] := by
  rw [get_path_tokens]
  exact get_path_tokens_fuel_nil 1

theorem dumpPathText_snoc (label : List Char) (tp : List Wstr) (n : Wstr) :
    dumpPathText label (tp ++ [n])
      = dumpNamePath (dumpPathText label tp) n := by
  simp [dumpPathText, dumpNamePath]


/-! ### The line loop of the loader: step lemmas and the value-block replay -/

theorem load_lines_nil (fuel : Nat) (B : Key) (ctx : Option (List Wstr))
    (now clvl : Int) : load_lines fuel B ctx [] now clvl = B := by
  cases fuel with
  | zero => rfl
  | succ f => rfl

theorem load_lines_step_blank (f : Nat) (B : Key) (ctx : Option (List Wstr))
    (rest : List (List Char)) (now clvl : Int) :
    load_lines (f + 1) B ctx ([] :: rest) now clvl
      = load_lines f B ctx rest now clvl := rfl

theorem load_lines_step_header (f : Nat) (B : Key) (ctx : Option (List Wstr))
    (pr : List Char) (rest : List (List Char)) (now clvl : Int) :
    load_lines (f + 1) B ctx (('[' :: pr) :: rest) now clvl
      = load_lines f (load_key B pr now clvl).1 (load_key B pr now clvl).2
          rest now clvl := rfl

theorem load_lines_step_quote (f : Nat) (B : Key) (path : List Wstr)
    (q : List Char) (rest : List (List Char)) (now clvl : Int) (sub : Key)
    (hget : getAtPath B path = some sub) :
    load_lines (f + 1) B (some path) (('\"' :: q) :: rest) now clvl
      = load_lines f
          (setAtPath B path (load_value sub ('\"' :: q) rest clvl).1)
          (some path) (load_value sub ('\"' :: q) rest clvl).2.1 now clvl := by
  have h1 : load_lines (f + 1) B (some path) (('\"' :: q) :: rest) now clvl
      = match getAtPath B path with
        | none => load_lines f B (some path) rest now clvl
        | some sub2 =>
            load_lines f
              (setAtPath B path (load_value sub2 ('\"' :: q) rest clvl).1)
              (some path) (load_value sub2 ('\"' :: q) rest clvl).2.1 now
              clvl := rfl
  rw [h1, hget]

theorem load_lines_step_at (f : Nat) (B : Key) (path : List Wstr)
    (q : List Char) (rest : List (List Char)) (now clvl : Int) (sub : Key)
    (hget : getAtPath B path = some sub) :
    load_lines (f + 1) B (some path) (('@' :: q) :: rest) now clvl
      = load_lines f
          (setAtPath B path (load_value sub ('@' :: q) rest clvl).1)
          (some path) (load_value sub ('@' :: q) rest clvl).2.1 now clvl := by
  have h1 : load_lines (f + 1) B (some path) (('@' :: q) :: rest) now clvl
      = match getAtPath B path with
        | none => load_lines f B (some path) rest now clvl
        | some sub2 =>
            load_lines f
              (setAtPath B path (load_value sub2 ('@' :: q) rest clvl).1)
              (some path) (load_value sub2 ('@' :: q) rest clvl).2.1 now
              clvl := rfl
  rw [h1, hget]

theorem dump_hex_lines_head : ∀ (bytes : List Nat) (cur : List Char)
    (count : Nat),
    ∃ suf cont2, dump_hex_lines bytes cur count = (cur ++ suf) :: cont2 := by
  intro bytes
  induction bytes with
  | nil =>
      intro cur count
      exact ⟨[], [], by simp [dump_hex_lines]⟩
  | cons b rest ih =>
      intro cur count
      cases rest with
      | nil => exact ⟨hex2 b, [], by simp [dump_hex_lines]⟩
      | cons b2 rest2 =>
          by_cases hc : count + 3 > 76
          · refine ⟨hex2 b ++ [',', '\\'],
              dump_hex_lines (b2 :: rest2) "  ".toList 2, ?_⟩
            rw [dump_hex_lines, if_pos hc]
            simp
          · obtain ⟨suf, cont2, hrec⟩ := ih (cur ++ hex2 b ++ [','])
              (count + 3)
            refine ⟨hex2 b ++ ',' :: suf, cont2, ?_⟩
            rw [dump_hex_lines, if_neg hc, hrec]
            simp

theorem dump_value_shape (v : KeyValue) :
    ∃ X cont2, dump_value v
      = ((if v.name ≠ [] then
          '\"' :: (dump_strW v.name '\"' '\"' ++ "\"=".toList)
         else "@=".toList) ++ X) :: cont2 := by
  simp only [dump_value]
  by_cases h1 : v.vtype = REG_SZ ∨ v.vtype = REG_EXPAND_SZ ∨
      v.vtype = REG_MULTI_SZ
  · rw [if_pos h1]
    refine ⟨(if v.vtype ≠ REG_SZ then
        "str(".toList ++ natDec v.vtype ++ "):".toList else [])
        ++ '\"' :: (dump_strW (wcharsOfData v.data) '\"' '\"' ++ ['\"']),
        [], ?_⟩
    by_cases hn : v.name = [] <;> simp [hn]
  · rw [if_neg h1]
    by_cases h2 : v.vtype = REG_DWORD ∧ v.data.length = 4
    · rw [if_pos h2]
      refine ⟨"dword:".toList ++ hex8 (dwordOfBytes v.data), [], ?_⟩
      by_cases hn : v.name = [] <;> simp [hn]
    · rw [if_neg h2]
      by_cases h3 : v.vtype = REG_BINARY
      · rw [if_pos h3]
        obtain ⟨suf, cont2, hh⟩ := dump_hex_lines_head v.data _ _
        rw [hh]
        refine ⟨"hex:".toList ++ suf, cont2, ?_⟩
        by_cases hn : v.name = [] <;> simp [hn]
      · rw [if_neg h3]
        obtain ⟨suf, cont2, hh⟩ := dump_hex_lines_head v.data _ _
        rw [hh]
        refine ⟨"hex(".toList ++ hexStr v.vtype ++ "):".toList ++ suf,
          cont2, ?_⟩
        by_cases hn : v.name = [] <;> simp [hn]

theorem dump_value_first_char (v : KeyValue) (line : List Char)
    (cont : List (List Char)) (h : dump_value v = line :: cont) :
    line.headD ' ' = '\"' ∨ line.headD ' ' = '@' := by
  obtain ⟨X, cont2, hs⟩ := dump_value_shape v
  rw [hs] at h
  injection h with h1 h2
  rw [← h1]
  by_cases hn : v.name = []
  · right
    simp [hn, show ("@=".toList) = ['@', '='] from rfl]
  · left
    simp [hn]

theorem growIte_cap (C : Key) (hcap : C.nbValues = capAfter C.values.length) :
    (if C.values.length = C.nbValues then grow_values C else C).nbValues
      = capAfter (C.values.length + 1) := by
  rw [capAfter_succ, capStep, ← hcap]
  by_cases hfull : C.values.length = C.nbValues
  · rw [if_pos hfull, if_pos hfull, grow_values]
    by_cases hz : C.nbValues ≠ 0
    · rw [if_pos hz, Key.nbValues_withValuesCap, if_neg (by omega)]
    · rw [if_neg hz, Key.nbValues_withValuesCap, if_pos (by omega)]
  · rw [if_neg hfull, if_neg hfull]

theorem load_value_lines_replay : ∀ (vs : List KeyValue) (B C : Key)
    (tpath : List Wstr) (rest : List (List Char)) (now clvl : Int) (f : Nat),
    getAtPath B tpath = some C →
    C.level = clvl →
    C.nbValues = capAfter C.values.length →
    (∀ v ∈ vs, wfValue v = true) →
    chainLtB (C.values.map KeyValue.name ++ vs.map KeyValue.name) = true →
    ((vs.map dump_value).flatten ++ rest).length ≤ f →
    ∃ f2, rest.length ≤ f2 ∧ f2 ≤ f ∧
      load_lines f B (some tpath) ((vs.map dump_value).flatten ++ rest) now
          clvl
        = load_lines f2
            (setAtPath B tpath
              (C.withValuesCap (C.values ++ vs)
                (capAfter (C.values.length + vs.length))))
            (some tpath) rest now clvl := by
  intro vs
  induction vs with
  | nil =>
      intro B C tpath rest now clvl f hget hlvl hcap _ _ hf
      refine ⟨f, by simpa using hf, Nat.le_refl f, ?_⟩
      simp only [List.map_nil, List.flatten_nil, List.nil_append,
        List.length_nil, Nat.add_zero, List.append_nil]
      rw [← hcap, Key.withValuesCap_self C,
          setAtPath_getAtPath_self tpath B C hget]
  | cons v vtail ih =>
      intro B C tpath rest now clvl f hget hlvl hcap hwf hchain hf
      have hfind : find_value C v.name = (false, C.values.length) := by
        apply find_value_chain_next C v.name (vtail.map KeyValue.name)
        simpa using hchain
      obtain ⟨line, cont, hdump, hload⟩ :=
        load_value_dump C v clvl (hwf v (by simp)) hfind hlvl
      have hhead := dump_value_first_char v line cont hdump
      obtain ⟨c, q, rfl⟩ : ∃ c q, line = c :: q := by
        cases line with
        | nil => simp at hhead
        | cons c q => exact ⟨c, q, rfl⟩
      have hflat : ((v :: vtail).map dump_value).flatten ++ rest
          = (c :: q) :: (cont ++ ((vtail.map dump_value).flatten ++ rest)) := by
        rw [List.map_cons, List.flatten_cons, hdump]
        simp
      obtain ⟨g, rfl⟩ : ∃ g, f = g + 1 := by
        refine ⟨f - 1, ?_⟩
        rw [hflat] at hf
        simp only [List.length_cons] at hf
        omega
      rw [hflat]
      set C2 := Key.withValues
          (if C.values.length = C.nbValues then grow_values C else C)
          (C.values ++ [v]) with hC2
      have hstep : load_lines (g + 1) B (some tpath)
          ((c :: q) :: (cont ++ ((vtail.map dump_value).flatten ++ rest))) now
            clvl
          = load_lines g (setAtPath B tpath C2) (some tpath)
              ((vtail.map dump_value).flatten ++ rest) now clvl := by
        rcases hhead with hc | hc
        · simp only [List.headD_cons] at hc
          subst hc
          rw [load_lines_step_quote g B tpath q _ now clvl C hget,
              hload ((vtail.map dump_value).flatten ++ rest)]
        · simp only [List.headD_cons] at hc
          subst hc
          rw [load_lines_step_at g B tpath q _ now clvl C hget,
              hload ((vtail.map dump_value).flatten ++ rest)]
      rw [hstep]
      have hget2 : getAtPath (setAtPath B tpath C2) tpath = some C2 :=
        getAtPath_setAtPath tpath B C C2 hget (by simp [hC2])
      have hlvl2 : C2.level = clvl := by
        simp [hC2, hlvl]
      have hcap2 : C2.nbValues = capAfter C2.values.length := by
        rw [hC2]
        simp only [Key.nbValues_withValues, Key.values_withValues]
        rw [growIte_cap C hcap]
        simp
      have hchain2 : chainLtB (C2.values.map KeyValue.name
          ++ vtail.map KeyValue.name) = true := by
        rw [hC2]
        simp only [Key.values_withValues, List.map_append]
        simpa using hchain
      have hf2 : ((vtail.map dump_value).flatten ++ rest).length ≤ g := by
        rw [hflat] at hf
        simp only [List.length_cons, List.length_append] at hf ⊢
        omega
      obtain ⟨f2, hr1, hr2, hrec⟩ := ih (setAtPath B tpath C2) C2 tpath rest
        now clvl g hget2 hlvl2 hcap2 (fun w hw => hwf w (by simp [hw]))
        hchain2 hf2
      refine ⟨f2, hr1, by omega, ?_⟩
      rw [hrec]
      rw [setAtPath_setAtPath tpath B C C2 _ hget (by simp [hC2])]
      have hC2vals : C2.values = C.values ++ [v] := by simp [hC2]
      have hcollapse : C2.withValuesCap (C2.values ++ vtail)
          (capAfter (C2.values.length + vtail.length))
          = C.withValuesCap (C.values ++ v :: vtail)
              (capAfter (C.values.length + (vtail.length + 1))) := by
        rw [hC2vals,
            show (C.values ++ [v]) ++ vtail = C.values ++ v :: vtail from by
              simp,
            show (C.values ++ [v]).length + vtail.length
              = C.values.length + (vtail.length + 1) from by
              simp only [List.length_append, List.length_cons,
                List.length_nil]; omega,
            hC2, Key.withValues_withValuesCap]
        by_cases hfull : C.values.length = C.nbValues
        · rw [if_pos hfull, grow_values]
          by_cases hz : C.nbValues ≠ 0
          · rw [if_pos hz, Key.withValuesCap_withValuesCap]
          · rw [if_neg hz, Key.withValuesCap_withValuesCap]
        · rw [if_neg hfull]
      rw [hcollapse, List.length_cons]


/-! ### Replaying one `[path] modif` header line -/

theorem alloc_key_name (n : Option Wstr) (m c : Int) :
    (alloc_key n m c).name = n := rfl

theorem alloc_key_level (n : Option Wstr) (m c : Int) :
    (alloc_key n m c).level = c := rfl

theorem alloc_key_values (n : Option Wstr) (m c : Int) :
    (alloc_key n m c).values = [] := rfl

theorem alloc_key_nbValues (n : Option Wstr) (m c : Int) :
    (alloc_key n m c).nbValues = 0 := rfl

theorem alloc_key_subkeys (n : Option Wstr) (m c : Int) :
    (alloc_key n m c).subkeys = [] := rfl

theorem alloc_key_nbSubkeys (n : Option Wstr) (m c : Int) :
    (alloc_key n m c).nbSubkeys = 0 := rfl

theorem alloc_key_flags (n : Option Wstr) (m c : Int) :
    (alloc_key n m c).flags = 0 := rfl

theorem loadCopy_name (clvl : Int) (k : Key) :
    (loadCopy clvl k).name = k.name := by
  cases k
  rw [loadCopy]
  rfl

theorem load_key_parse (base : Key) (buf : List Char) (now clvl : Int)
    (decoded : Wstr) (after : List Char)
    (hp : parse_strW buf ']' = some (decoded, after)) :
    load_key base buf now clvl
      = ((create_key base (skipFirstComponent decoded) none 0
            (parse_modif after now) [] clvl).tree,
         (create_key base (skipFirstComponent decoded) none 0
            (parse_modif after now) [] clvl).okPath) := by
  rw [load_key, hp]

theorem wfLabel_units (label : List Char) (hlab : wfLabel label = true) :
    ∀ c ∈ label.map Char.toNat, ¬(c = 0 ∨ c = 92) := by
  intro c hc
  simp only [List.mem_map] at hc
  obtain ⟨ch, hch, rfl⟩ := hc
  simp only [wfLabel, List.all_eq_true, decide_eq_true_eq] at hlab
  obtain ⟨h0, h1, h2⟩ := hlab ch hch
  intro hor
  rcases hor with h | h
  · exact h0 h
  · apply h2
    have he : ch = Char.ofNat ch.toNat := (Char.ofNat_toNat ch).symm
    rw [he, h]

theorem load_key_replay (B P : Key) (label : List Char) (tp : List Wstr)
    (nm : Wstr) (m now clvl : Int)
    (hlab : wfLabel label = true)
    (htp : ∀ n ∈ tp, goodName n = true) (hnm : goodName nm = true)
    (hm : 0 ≤ m)
    (hd : B.isDeleted = false) (hv : B.isVolatile = false)
    (hget : getAtPath B tp = some P)
    (hfind : find_subkey P nm = (false, P.subkeys.length))
    (hcap : P.nbSubkeys = capAfter P.subkeys.length) :
    load_key B (dumpPathText label (tp ++ [nm]) ++ "] ".toList ++ decInt m)
        now clvl
      = (setAtPath B tp
          (P.withSubkeysCap (P.subkeys ++ [alloc_key (some nm) m clvl])
            (capAfter (P.subkeys.length + 1))),
         some (tp ++ [nm])) := by
  obtain ⟨t, ts, hts, htg, htsg⟩ : ∃ t ts, tp ++ [nm] = t :: ts
      ∧ goodName t = true ∧ ∀ n ∈ ts, goodName n = true := by
    cases tp with
    | nil => exact ⟨nm, [], rfl, hnm, by simp⟩
    | cons t0 ts0 =>
        refine ⟨t0, ts0 ++ [nm], rfl, htp t0 (by simp), ?_⟩
        intro n hn
        rcases List.mem_append.mp hn with h | h
        · exact htp n (by simp [h])
        · simp only [List.mem_singleton] at h
          subst h
          exact hnm
  have htpnm : ∀ n ∈ tp ++ [nm], goodName n = true := by
    rw [hts]
    intro n hn
    rcases List.mem_cons.mp hn with h | h
    · subst h; exact htg
    · exact htsg n h
  rw [load_key_parse B _ now clvl
        (label.map Char.toNat ++ joinW (tp ++ [nm])) (' ' :: decInt m)
        (by rw [show dumpPathText label (tp ++ [nm]) ++ "] ".toList ++ decInt m
              = dumpPathText label (tp ++ [nm])
                ++ ']' :: (' ' :: decInt m) from by
              simp [show ("] ".toList) = [']', ' '] from rfl]]
            exact parse_path_dump label hlab (tp ++ [nm]) htpnm
              (' ' :: decInt m))]
  rw [parse_modif_roundtrip m hm now]
  rw [hts, skipFirstComponent_join (label.map Char.toNat) t ts
        (wfLabel_units label hlab)]
  rw [create_key_replay B P (t ++ joinW ts) tp nm m clvl hd hv
        (by rw [get_path_tokens_join t ts htg htsg]; exact hts.symm)
        hget hfind hcap, hts]


/-! ### The main replay induction: loading the saved block list of a
well-formed subtree appends its exact loaded copy under the parent -/

theorem Key.withSubkeysCap_withSubkeysCap (k : Key) (s s2 : List Key)
    (c c2 : Nat) :
    (k.withSubkeysCap s c).withSubkeysCap s2 c2 = k.withSubkeysCap s2 c2 := by
  cases k
  rfl

mutual

theorem load_tree_replay (k : Key) : ∀ (B P : Key) (tp : List Wstr)
    (label : List Char) (ctx : Option (List Wstr)) (rest : List (List Char))
    (now slvl clvl : Int) (f : Nat),
    wfKey slvl k = true →
    wfLabel label = true →
    (∀ n ∈ tp, goodName n = true) →
    B.isDeleted = false → B.isVolatile = false →
    getAtPath B tp = some P →
    P.nbSubkeys = capAfter P.subkeys.length →
    chainLtB (P.subkeys.map (fun s => s.name.getD []) ++ [k.name.getD []])
      = true →
    (save_subkeys k (dumpPathText label (tp ++ [k.name.getD []])) slvl
      ++ rest).length ≤ f →
    ∃ f2 ctx2, rest.length ≤ f2 ∧ f2 ≤ f ∧
      load_lines f B ctx
          (save_subkeys k (dumpPathText label (tp ++ [k.name.getD []])) slvl
            ++ rest) now clvl
        = load_lines f2
            (setAtPath B tp
              (P.withSubkeysCap (P.subkeys ++ [loadCopy clvl k])
                (capAfter (P.subkeys.length + 1))))
            ctx2 rest now clvl := by
  obtain ⟨n, c, subs, nbs, vals, nbv, flags, lvl, m⟩ := k
  intro B P tp label ctx rest now slvl clvl f hwf hlab htp hd hv hget hcap
    hchain1 hf
  rcases n with _ | nm
  · rw [wfKey] at hwf
    simp at hwf
  · rw [wfKey] at hwf
    simp only [Bool.and_eq_true, beq_iff_eq, decide_eq_true_eq,
      Bool.or_eq_true] at hwf
    obtain ⟨⟨⟨⟨⟨⟨⟨⟨⟨hnmg, hcn⟩, hfl⟩, hm0⟩, hlvl⟩, hblock⟩, hvwf⟩, hvchain⟩,
      hschain⟩, hwfsubs⟩ := hwf
    subst hcn
    subst hfl
    simp only [Key.name, Option.getD_some] at hchain1 hf ⊢
    have hfind : find_subkey P nm = (false, P.subkeys.length) :=
      find_subkey_chain_next P nm [] hchain1
    have htpnm : ∀ x ∈ tp ++ [nm], goodName x = true := by
      intro x hx
      rcases List.mem_append.mp hx with h | h
      · exact htp x h
      · simp only [List.mem_singleton] at h
        subst h
        exact hnmg
    have hlines : save_subkeys (Key.mk (some nm) none subs nbs vals nbv 0 lvl m)
        (dumpPathText label (tp ++ [nm])) slvl ++ rest
        = [] :: ('[' :: (dumpPathText label (tp ++ [nm]) ++ "] ".toList
              ++ decInt m))
            :: ((vals.map dump_value).flatten
              ++ (save_subkeys_list subs (dumpPathText label (tp ++ [nm])) slvl
                ++ rest)) := by
      rw [save_subkeys, if_neg (by decide),
          if_pos (⟨hlvl, hblock⟩ :
            slvl ≤ lvl ∧ (vals ≠ [] ∨ subs.isEmpty = true))]
      simp [List.append_assoc]
    rw [hlines]
    rw [hlines] at hf
    simp only [List.length_cons] at hf
    obtain ⟨g, rfl⟩ : ∃ g, f = (g + 1) + 1 := ⟨f - 2, by omega⟩
    rw [load_lines_step_blank, load_lines_step_header,
        load_key_replay B P label tp nm m now clvl hlab htp hnmg hm0 hd hv
          hget hfind hcap]
    dsimp only
    set child := alloc_key (some nm) m clvl with hchild
    set P1 := P.withSubkeysCap (P.subkeys ++ [child])
      (capAfter (P.subkeys.length + 1)) with hP1
    have hgetB1 : getAtPath (setAtPath B tp P1) tp = some P1 :=
      getAtPath_setAtPath tp B P P1 hget (by rw [hP1]; simp)
    have hP1subs : P1.subkeys = P.subkeys ++ [child] := by
      rw [hP1]; simp
    have hP1getD : P1.subkeys.getD P.subkeys.length default = child := by
      rw [hP1subs]
      exact getD_append_length P.subkeys child
    have hchainP1 : chainLtB (P1.subkeys.map (fun s => s.name.getD []))
        = true := by
      rw [hP1subs]
      simpa [hchild, alloc_key_name] using hchain1
    have hfindP1 : find_subkey P1 nm = (true, P.subkeys.length) := by
      have h0 := find_subkey_at P1 P.subkeys.length hchainP1
        (by rw [hP1subs]; simp)
      rw [hP1getD, hchild, alloc_key_name] at h0
      simpa using h0
    have hgetChild : getAtPath (setAtPath B tp P1) (tp ++ [nm])
        = some child := by
      rw [getAtPath_append, hgetB1]
      show getAtPath P1 [nm] = some child
      rw [getAtPath_cons_found P1 nm [] P.subkeys.length hfindP1, hP1getD,
          getAtPath]
    obtain ⟨f3, hv1, hv2, hvals⟩ := load_value_lines_replay vals
      (setAtPath B tp P1) child (tp ++ [nm])
      (save_subkeys_list subs (dumpPathText label (tp ++ [nm])) slvl ++ rest)
      now clvl g hgetChild (by rw [hchild]; rfl) (by rw [hchild]; rfl)
      (fun v hv0 => by
        simp only [List.all_eq_true] at hvwf
        exact hvwf v hv0)
      (by rw [hchild]; simpa [alloc_key_values] using hvchain)
      (by simp only [List.length_append] at hf ⊢; omega)
    rw [hvals]
    set child2 := child.withValuesCap (child.values ++ vals)
      (capAfter (child.values.length + vals.length)) with hchild2
    have hflagsB2 : (setAtPath (setAtPath B tp P1) (tp ++ [nm]) child2).flags
        = B.flags := by
      rw [setAtPath_flags_keep (tp ++ [nm]) (setAtPath B tp P1) child child2
            hgetChild (by rw [hchild2]; simp)]
      exact setAtPath_flags_keep tp B P P1 hget (by rw [hP1]; simp)
    obtain ⟨f4, ctx4, hw1, hw2, hforest⟩ := load_forest_replay subs
      (setAtPath (setAtPath B tp P1) (tp ++ [nm]) child2) child2 (tp ++ [nm])
      label (some (tp ++ [nm])) rest now slvl clvl f3 hwfsubs hlab htpnm
      (by rw [isDeleted_congr _ B hflagsB2]; exact hd)
      (by rw [isVolatile_congr _ B hflagsB2]; exact hv)
      (getAtPath_setAtPath (tp ++ [nm]) (setAtPath B tp P1) child child2
        hgetChild (by rw [hchild2]; simp))
      (by rw [hchild2, hchild]; rfl)
      (by rw [hchild2, hchild]
          simpa [alloc_key, Key.withValuesCap, Key.subkeys] using hschain)
      hv1
    rw [hforest]
    refine ⟨f4, ctx4, hw1, by omega, ?_⟩
    set child3 := child2.withSubkeysCap (child2.subkeys ++ loadCopyList clvl subs)
      (capAfter (child2.subkeys.length + subs.length)) with hchild3
    rw [setAtPath_setAtPath (tp ++ [nm]) (setAtPath B tp P1) child child2
          child3 hgetChild (by rw [hchild2]; simp)]
    rw [setAtPath_append tp [nm] (setAtPath B tp P1) P1 child3 hgetB1]
    have hsetP1 : setAtPath P1 [nm] child3
        = P.withSubkeysCap (P.subkeys ++ [child3])
            (capAfter (P.subkeys.length + 1)) := by
      rw [setAtPath_cons_found P1 nm [] P.subkeys.length child3 hfindP1,
          show setAtPath (P1.subkeys.getD P.subkeys.length default) [] child3
            = child3 from rfl,
          hP1subs, set_append_length, hP1,
          Key.withSubkeysCap_withSubkeys]
    rw [hsetP1]
    rw [setAtPath_setAtPath tp B P P1 _ hget (by rw [hP1]; simp)]
    have hchild3eq : child3
        = loadCopy clvl (Key.mk (some nm) none subs nbs vals nbv 0 lvl m) := by
      rw [loadCopy, hchild3, hchild2, hchild]
      simp [alloc_key, Key.withValuesCap, Key.withSubkeysCap, Key.values,
        Key.subkeys]
    rw [hchild3eq]
termination_by sizeOf k

theorem load_forest_replay (ks : List Key) : ∀ (B P : Key) (tp : List Wstr)
    (label : List Char) (ctx : Option (List Wstr)) (rest : List (List Char))
    (now slvl clvl : Int) (f : Nat),
    wfKeyList slvl ks = true →
    wfLabel label = true →
    (∀ n ∈ tp, goodName n = true) →
    B.isDeleted = false → B.isVolatile = false →
    getAtPath B tp = some P →
    P.nbSubkeys = capAfter P.subkeys.length →
    chainLtB (P.subkeys.map (fun s => s.name.getD [])
      ++ ks.map (fun s => s.name.getD [])) = true →
    (save_subkeys_list ks (dumpPathText label tp) slvl ++ rest).length ≤ f →
    ∃ f2 ctx2, rest.length ≤ f2 ∧ f2 ≤ f ∧
      load_lines f B ctx
          (save_subkeys_list ks (dumpPathText label tp) slvl ++ rest) now clvl
        = load_lines f2
            (setAtPath B tp
              (P.withSubkeysCap (P.subkeys ++ loadCopyList clvl ks)
                (capAfter (P.subkeys.length + ks.length))))
            ctx2 rest now clvl := by
  match ks with
  | [] =>
      intro B P tp label ctx rest now slvl clvl f _ _ _ _ _ hget hcap _ hf
      have hnil : save_subkeys_list [] (dumpPathText label tp) slvl = [] := rfl
      rw [hnil, List.nil_append] at hf
      refine ⟨f, ctx, hf, Nat.le_refl f, ?_⟩
      rw [hnil, List.nil_append,
          show loadCopyList clvl [] = [] from rfl, List.append_nil,
          List.length_nil, Nat.add_zero, ← hcap, Key.withSubkeysCap_self,
          setAtPath_getAtPath_self tp B P hget]
  | k :: ks2 =>
      intro B P tp label ctx rest now slvl clvl f hwf hlab htp hd hv hget hcap
        hchain hf
      have hwfk : wfKey slvl k = true := by
        rw [wfKeyList] at hwf
        simp only [Bool.and_eq_true] at hwf
        exact hwf.1
      have hwfks : wfKeyList slvl ks2 = true := by
        rw [wfKeyList] at hwf
        simp only [Bool.and_eq_true] at hwf
        exact hwf.2
      have hlines : save_subkeys_list (k :: ks2) (dumpPathText label tp) slvl
          ++ rest
          = save_subkeys k (dumpPathText label (tp ++ [k.name.getD []])) slvl
            ++ (save_subkeys_list ks2 (dumpPathText label tp) slvl ++ rest) := by
        rw [save_subkeys_list, dumpPathText_snoc]
        simp [List.append_assoc, dumpNamePath]
      rw [hlines]
      rw [hlines] at hf
      have hchain1 : chainLtB (P.subkeys.map (fun s => s.name.getD [])
          ++ [k.name.getD []]) = true := by
        apply chainLtB_append_left (ks2.map (fun s => s.name.getD []))
        simpa using hchain
      obtain ⟨f2, ctx2, h21, h22, htree⟩ := load_tree_replay k B P tp label ctx
        (save_subkeys_list ks2 (dumpPathText label tp) slvl ++ rest) now slvl
        clvl f hwfk hlab htp hd hv hget hcap hchain1 hf
      rw [htree]
      set P1 := P.withSubkeysCap (P.subkeys ++ [loadCopy clvl k])
        (capAfter (P.subkeys.length + 1)) with hP1
      have hname1 : P1.name = P.name := by rw [hP1]; simp
      have hgetB1 : getAtPath (setAtPath B tp P1) tp = some P1 :=
        getAtPath_setAtPath tp B P P1 hget hname1
      have hflagsB1 : (setAtPath B tp P1).flags = B.flags :=
        setAtPath_flags_keep tp B P P1 hget (by rw [hP1]; simp)
      obtain ⟨f3, ctx3, h31, h32, hforest⟩ := load_forest_replay ks2
        (setAtPath B tp P1) P1 tp label ctx2 rest now slvl clvl f2 hwfks hlab
        htp (by rw [isDeleted_congr _ B hflagsB1]; exact hd)
        (by rw [isVolatile_congr _ B hflagsB1]; exact hv) hgetB1
        (by rw [hP1]; simp)
        (by rw [hP1]
            simp only [Key.subkeys_withSubkeysCap, List.map_append,
              List.map_cons, List.map_nil, loadCopy_name]
            simpa using hchain)
        h21
      rw [hforest]
      refine ⟨f3, ctx3, h31, by omega, ?_⟩
      rw [setAtPath_setAtPath tp B P P1 _ hget hname1]
      rw [hP1]
      simp only [Key.subkeys_withSubkeysCap]
      rw [Key.withSubkeysCap_withSubkeysCap]
      rw [show (P.subkeys ++ [loadCopy clvl k]) ++ loadCopyList clvl ks2
          = P.subkeys ++ loadCopyList clvl (k :: ks2) from by
        rw [show loadCopyList clvl (k :: ks2)
            = loadCopy clvl k :: loadCopyList clvl ks2 from by
          rw [loadCopyList]]
        simp]
      rw [show (P.subkeys ++ [loadCopy clvl k]).length + ks2.length
          = P.subkeys.length + (k :: ks2).length from by
        simp only [List.length_append, List.length_cons, List.length_nil]
        omega]
termination_by sizeOf ks

end


end Registry
